import Mathlib

/-!
Verification of the traversal-and-aggregation engine of the
`web-link-scraper` repository (file `main.go`).

The Go program is shallowly embedded here.  Pure string manipulation is
modelled over `List Char`; the functions of the repository itself
(`normalizeURL`, `isInternalLink`, `addLink`, `addError`, `scrapePage`,
`ScrapeLinksRecursive`, `GetResults`) are translated statement by
statement from `main.go`.  The Go standard library `net/url`, which the
repository delegates URL parsing to, is modelled by `parseURLL`,
`resolveReference`, `resolvePathL`, `urlToStringL` and the query helpers
below, following the source of `net/url` (`Parse`, `ResolveReference`,
`resolvePath`, `URL.String`, `Values.Encode`, `ParseQuery`).

Deliberate abstractions of the `net/url` model, stated once here:
* parsing fails on ASCII control characters, on a leading colon, and on
  a colon inside the first path segment of a scheme-less relative
  reference; the additional Go failure modes (invalid percent escapes,
  invalid host characters) are not modelled, such strings are carried
  through verbatim instead;
* percent escaping keeps non-ASCII characters verbatim on both sides
  (Go escapes their UTF-8 bytes); on ASCII input both models agree;
* the userinfo part of an authority is kept inside the `host` field
  (Go splits it off and re-serializes it identically), and hence `@`
  counts as a host character that is never escaped;
* `ForceQuery` (a lone trailing `?`) and the unescaping of `Path`,
  `Fragment` and `Host` are not modelled: the raw text between the
  delimiters is kept, exactly as it is re-serialized;
* wall-clock data (timestamps, execution time) is outside the model and
  replaced by fixed placeholder strings.
-/

namespace LinkScraper

/-! ## Character classes and basic list utilities -/

/-- ASCII control characters; Go `net/url` rejects URLs containing them. -/
def isCtl (c : Char) : Bool := c.toNat < 0x20 || c.toNat == 0x7f

/-- First character of a scheme must be a letter (`getScheme` in Go). -/
def isSchemeHead (c : Char) : Bool := c.isAlpha

/-- Subsequent scheme characters: alphanumeric or `+`, `-`, `.`. -/
def isSchemeChar (c : Char) : Bool := c.isAlphanum || c == '+' || c == '-' || c == '.'

/-- Model of Go `strings.Cut` at the first occurrence of `c`:
returns the part before the first `c` and the part after it
(the second part is `[]` when `c` does not occur, like Go with `found = false`
for the purposes of this program, which never consults the flag for a
behavioural difference that matters here). -/
def cutListAt (c : Char) : List Char → List Char × List Char
  | [] => ([], [])
  | x :: xs =>
    if x = c then ([], xs)
    else
      let r := cutListAt c xs
      (x :: r.1, r.2)

/-- The part of `l` strictly before the first occurrence of `c`
(`l` itself if `c` is absent). -/
def beforeChar (c : Char) (l : List Char) : List Char := (cutListAt c l).1

/-- The part of `l` strictly after the first occurrence of `c`
(`[]` if `c` is absent). -/
def afterChar (c : Char) (l : List Char) : List Char := (cutListAt c l).2

/-- Boolean list-prefix test (Go `strings.HasPrefix`). -/
def startsWithL : List Char → List Char → Bool
  | _, [] => true
  | [], _ :: _ => false
  | x :: xs, y :: ys => x == y && startsWithL xs ys

/-- Go `strings.TrimSpace` (on the whitespace classes Lean knows about). -/
def trimL (l : List Char) : List Char :=
  ((l.dropWhile Char.isWhitespace).reverse.dropWhile Char.isWhitespace).reverse

/-- Go `strings.ToLower`, character-wise. -/
def toLowerL (l : List Char) : List Char := l.map Char.toLower

/-- Split at every occurrence of `c` (Go `strings.Split`); never returns `[]`. -/
def splitOnCharL (c : Char) : List Char → List (List Char)
  | [] => [[]]
  | x :: xs =>
    let r := splitOnCharL c xs
    if x = c then [] :: r
    else (x :: r.headI) :: r.tail

/-- Join with separator `c` (Go `strings.Join`). -/
def joinCharL (c : Char) : List (List Char) → List Char
  | [] => []
  | [s] => s
  | s :: rest => s ++ c :: joinCharL c rest

/-- The first path segment: everything before the first `/`. -/
def firstSegmentL (l : List Char) : List Char := beforeChar '/' l

/-! ## Percent escaping (Go `net/url` escape machinery) -/

/-- Hexadecimal digit character, upper case, as Go emits in `%XX`. -/
def hexDigitChar (n : Nat) : Char :=
  if n < 10 then Char.ofNat ('0'.toNat + n) else Char.ofNat ('A'.toNat + (n - 10))

/-- Value of a hexadecimal digit, accepting both cases (Go `unhex`). -/
def hexVal (c : Char) : Option Nat :=
  if '0' ≤ c ∧ c ≤ '9' then some (c.toNat - '0'.toNat)
  else if 'a' ≤ c ∧ c ≤ 'f' then some (c.toNat - 'a'.toNat + 10)
  else if 'A' ≤ c ∧ c ≤ 'F' then some (c.toNat - 'A'.toNat + 10)
  else none

/-- `%XX` encoding of one ASCII character. -/
def pctEnc (c : Char) : List Char :=
  ['%', hexDigitChar (c.toNat / 16), hexDigitChar (c.toNat % 16)]

/-- RFC 3986 unreserved characters, never escaped in any Go mode. -/
def isUnreserved (c : Char) : Bool :=
  c.isAlphanum || c == '-' || c == '_' || c == '.' || c == '~'

/-- Characters Go keeps verbatim in a query component
(`shouldEscape(c, encodeQueryComponent) = false`), with non-ASCII kept
verbatim as an abstraction of UTF-8 byte escaping. -/
def queryKeep (c : Char) : Bool := isUnreserved c || c.toNat ≥ 0x80

/-- Go `url.QueryEscape`. -/
def escapeQ (l : List Char) : List Char :=
  l.flatMap fun c => if queryKeep c then [c] else if c = ' ' then ['+'] else pctEnc c

/-- Go `url.QueryUnescape`; `none` on a malformed percent escape. -/
def unescapeQ : List Char → Option (List Char)
  | [] => some []
  | c :: rest =>
    if c = '+' then (unescapeQ rest).map (' ' :: ·)
    else if c = '%' then
      match rest with
      | h₁ :: h₂ :: rest' =>
        match hexVal h₁, hexVal h₂ with
        | some v₁, some v₂ => (unescapeQ rest').map (Char.ofNat (16 * v₁ + v₂) :: ·)
        | _, _ => none
      | _ => none
    else (unescapeQ rest).map (c :: ·)

/-- Characters Go keeps verbatim when serializing a path
(`validEncoded` / `shouldEscape(c, encodePath)`), `%` and non-ASCII
included per the abstractions stated at the top of the file. -/
def pathKeep (c : Char) : Bool :=
  isUnreserved c ||
  c == '$' || c == '&' || c == '+' || c == ',' || c == '/' || c == ':' ||
  c == ';' || c == '=' || c == '@' || c == '!' || c == '\'' || c == '(' ||
  c == ')' || c == '*' || c == '[' || c == ']' || c == '%' || c.toNat ≥ 0x80

/-- Serialization of a path (Go `URL.EscapedPath` on this model). -/
def pathEsc (l : List Char) : List Char :=
  l.flatMap fun c => if pathKeep c then [c] else pctEnc c

/-- Characters Go keeps verbatim when serializing a host
(`shouldEscape(c, encodeHost)`), with `@` and `%` kept per the
abstractions stated at the top of the file. -/
def hostKeep (c : Char) : Bool :=
  isUnreserved c ||
  c == '!' || c == '$' || c == '&' || c == '\'' || c == '(' || c == ')' ||
  c == '*' || c == '+' || c == ',' || c == ';' || c == '=' || c == ':' ||
  c == '[' || c == ']' || c == '<' || c == '>' || c == '"' || c == '@' ||
  c == '%' || c.toNat ≥ 0x80

/-- Serialization of a host. -/
def hostEsc (l : List Char) : List Char :=
  l.flatMap fun c => if hostKeep c then [c] else pctEnc c

/-! ## Query pairs (Go `url.Values`, as an ordered list of pairs) -/

/-- Key ordering used by `Values.Encode`, which sorts keys. -/
def keyLE (a b : List Char) : Bool :=
  match a, b with
  | [], _ => true
  | _ :: _, [] => false
  | x :: xs, y :: ys => x.toNat < y.toNat || (x == y && keyLE xs ys)

/-- Stable insertion, used to model the sorted iteration of `Values.Encode`. -/
def insertPair (p : List Char × List Char) :
    List (List Char × List Char) → List (List Char × List Char)
  | [] => [p]
  | q :: qs => if keyLE p.1 q.1 then p :: q :: qs else q :: insertPair p qs

/-- Stable sort of query pairs by key. -/
def sortPairs (l : List (List Char × List Char)) : List (List Char × List Char) :=
  l.foldr insertPair []

/-- Go `url.ParseQuery` as consumed through `Values` by `Query()`:
components are split at `&`; a component containing `;` or equal to the
empty string is skipped, as is a component whose key or value fails to
unescape. -/
def parseQueryL (q : List Char) : List (List Char × List Char) :=
  (splitOnCharL '&' q).foldr
    (fun comp acc =>
      if comp.contains ';' then acc
      else if comp = [] then acc
      else
        let kv := cutListAt '=' comp
        match unescapeQ kv.1, unescapeQ kv.2 with
        | some k, some v => (k, v) :: acc
        | _, _ => acc)
    []

/-- Go `Values.Encode`: keys sorted, each pair as `key=value`, joined by `&`. -/
def encodeQueryL (pairs : List (List Char × List Char)) : List Char :=
  joinCharL '&' ((sortPairs pairs).map fun kv => escapeQ kv.1 ++ '=' :: escapeQ kv.2)

/-! ## Go `url.URL` and its operations -/

/-- Model of Go `url.URL` restricted to the fields this program exercises.
`opq` is the Opaque component (rootless rest of a URL that has a scheme),
`rawQuery` and `fragment` are kept raw. -/
structure GoURL where
  scheme : List Char := []
  opq : List Char := []
  host : List Char := []
  path : List Char := []
  rawQuery : List Char := []
  fragment : List Char := []
  deriving Repr, DecidableEq

/-- Go `getScheme`: `none` models the `missing protocol scheme` error
(a colon in position 0); `some ([], l)` means no scheme found. -/
def getSchemeL (l : List Char) : Option (List Char × List Char) :=
  go [] l
where
  /-- Scanner; `acc` holds the scheme characters read so far. -/
  go (acc : List Char) : List Char → Option (List Char × List Char)
    | [] => some ([], l)
    | c :: cs =>
      if c = ':' then
        if acc = [] then none else some (toLowerL acc, cs)
      else if (acc = [] && isSchemeHead c) || (acc ≠ [] && isSchemeChar c) then
        go (acc ++ [c]) cs
      else
        some ([], l)

/-- One segment of the `resolvePath` loop: `.` dropped, `..` popping the
stack, anything else pushed. -/
def dotStep (st : List (List Char)) (e : List Char) : List (List Char) :=
  if e = ['.'] then st else if e = ['.', '.'] then st.dropLast else st ++ [e]

/-- The final `if len(r) > 1 && r[1] == '/' { r = r[1:] }` of Go
`resolvePath`. -/
def stripSlash : List Char → List Char
  | a :: b :: rest => if b = '/' then b :: rest else a :: b :: rest
  | r => r

/-- The segment-stack core of Go `resolvePath`: `full` split at `/`,
`.` segments dropped, `..` popping the stack, a trailing slash restored
after a final dot segment, and one leading slash collapsed, exactly the
observable behaviour of the string-builder loop in `net/url`. -/
def resolvePathCore (full : List Char) : List Char :=
  if full = [] then []
  else
    let segs := splitOnCharL '/' full
    let stack := segs.foldl dotStep []
    let trail : List Char :=
      if segs.getLast? = some ['.'] ∨ segs.getLast? = some ['.', '.'] then ['/'] else []
    stripSlash ('/' :: (joinCharL '/' stack ++ trail))

/-- The prefix of `base` up to and including its last `/`
(`base[:strings.LastIndex(base, "/")+1]` in Go). -/
def takeToLastSlash (base : List Char) : List Char :=
  (base.reverse.dropWhile (fun c => ¬ c = '/')).reverse

/-- Go `resolvePath base ref`. -/
def resolvePathL (base ref : List Char) : List Char :=
  let full :=
    if ref = [] then base
    else if ref.head? ≠ some '/' then takeToLastSlash base ++ ref
    else ref
  resolvePathCore full

/-- Go `url.Parse` on this model (fragment split off first, then scheme,
query, opaque-versus-authority decision and path, per `net/url`). -/
def parseURLL (s : List Char) : Option GoURL :=
  if s.any isCtl then none
  else
    let fr := cutListAt '#' s
    match getSchemeL fr.1 with
    | none => none
    | some sr =>
      let scheme := sr.1
      let qr := cutListAt '?' sr.2
      let rest := qr.1
      if scheme ≠ [] ∧ ¬ startsWithL rest ['/'] then
        some { scheme := scheme, opq := rest, rawQuery := qr.2, fragment := fr.2 }
      else if scheme = [] ∧ ¬ startsWithL rest ['/'] ∧ (firstSegmentL rest).contains ':' then
        none
      else if (scheme ≠ [] ∨ ¬ startsWithL rest ['/', '/', '/']) ∧ startsWithL rest ['/', '/'] then
        let after := rest.drop 2
        let hostPath := spanToSlash after
        some { scheme := scheme, host := hostPath.1, path := hostPath.2,
               rawQuery := qr.2, fragment := fr.2 }
      else
        some { scheme := scheme, path := rest, rawQuery := qr.2, fragment := fr.2 }
where
  /-- Split an authority+path remainder at the first `/`, the slash staying
  with the path (`authority, rest = rest[2:i+2], rest[i+2:]` in Go). -/
  spanToSlash (l : List Char) : List Char × List Char :=
    match l with
    | [] => ([], [])
    | c :: cs =>
      if c = '/' then ([], c :: cs)
      else
        let r := spanToSlash cs
        (c :: r.1, r.2)

/-- Go `URL.ResolveReference` (no `User`, no `ForceQuery`, see the header). -/
def resolveReference (base ref : GoURL) : GoURL :=
  let scheme := if ref.scheme = [] then base.scheme else ref.scheme
  if ref.scheme ≠ [] ∨ ref.host ≠ [] then
    { ref with scheme := scheme, path := resolvePathL ref.path [] }
  else if ref.opq ≠ [] then
    { ref with scheme := scheme, host := [], path := [] }
  else
    let qf :=
      if ref.path = [] ∧ ref.rawQuery = [] then
        (base.rawQuery, if ref.fragment = [] then base.fragment else ref.fragment)
      else (ref.rawQuery, ref.fragment)
    { scheme := scheme, opq := [], host := base.host,
      path := resolvePathL base.path ref.path, rawQuery := qf.1, fragment := qf.2 }

/-- Go `URL.String` on this model. -/
def urlToStringL (u : GoURL) : List Char :=
  let schemePart := if u.scheme ≠ [] then u.scheme ++ [':'] else []
  let core :=
    if u.opq ≠ [] then u.opq
    else
      let authority :=
        if u.scheme ≠ [] ∨ u.host ≠ [] then
          (if u.host ≠ [] ∨ u.path ≠ [] then ['/', '/'] else []) ++
            (if u.host ≠ [] then hostEsc u.host else [])
        else []
      let p := pathEsc u.path
      let slash := if p ≠ [] ∧ p.head? ≠ some '/' ∧ u.host ≠ [] then ['/'] else []
      let dotSlash :=
        if schemePart ++ authority ++ slash = [] ∧ (firstSegmentL p).contains ':' then
          ['.', '/']
        else []
      authority ++ slash ++ dotSlash ++ p
  schemePart ++ core ++
    (if u.rawQuery ≠ [] then '?' :: u.rawQuery else []) ++
    (if u.fragment ≠ [] then '#' :: u.fragment else [])

/-! ## The repository functions `normalizeURL` and `isInternalLink` -/

/-- The fixed tracking-parameter list of `normalizeURL` in `main.go`. -/
def trackingParams : List (List Char) :=
  ["utm_source".data, "utm_medium".data, "utm_campaign".data, "utm_term".data,
   "utm_content".data, "fbclid".data, "gclid".data]

/-- The scheme prefixes `normalizeURL` rejects, in source order.  The
source checks `#` separately and does not include `data:`. -/
def blockedPrefixes : List (List Char) :=
  ["javascript:".data, "mailto:".data, "tel:".data, "ftp:".data, "file:".data]

/-- `true` when the trimmed href is discarded by the prefix checks at the
top of `normalizeURL`. -/
def rejectedHref (href : List Char) : Bool :=
  href = [] || startsWithL href ['#'] || blockedPrefixes.any (startsWithL href)

/-- The URL record `normalizeURL` builds before serializing: resolution
against the base, fragment cleared, tracking parameters deleted, query
re-encoded.  `none` mirrors every `return ""` of the source. -/
def normalizeRecord (href baseURL : List Char) : Option GoURL :=
  let href := trimL href
  if rejectedHref href then none
  else
    match parseURLL baseURL with
    | none => none
    | some base =>
      match parseURLL href with
      | none => none
      | some link =>
        let resolved := resolveReference base link
        let resolved := { resolved with fragment := [] }
        let query := parseQueryL resolved.rawQuery
        let query := trackingParams.foldl (fun q p => q.filter fun kv => ¬ kv.1 = p) query
        some { resolved with rawQuery := encodeQueryL query }

/-- `normalizeURL` from `main.go` (list level): the serialized record, or
`[]` for every rejected href. -/
def normalizeURLL (href baseURL : List Char) : List Char :=
  match normalizeRecord href baseURL with
  | none => []
  | some u => urlToStringL u

/-- `normalizeURL` from `main.go`. -/
def normalizeURL (href baseURL : String) : String :=
  ⟨normalizeURLL href.data baseURL.data⟩

/-- `isInternalLink` from `main.go` (list level), parameterized by the
`Host` of the scraper's parsed base URL (`ls.baseURL.Host`). -/
def isInternalLinkL (baseHost : List Char) (link : List Char) : Bool :=
  match parseURLL link with
  | none => false
  | some u =>
    if u.host = [] then true
    else
      let b := toLowerL baseHost
      let h := toLowerL u.host
      let b := if startsWithL b "www.".data then b.drop 4 else b
      let h := if startsWithL h "www.".data then h.drop 4 else h
      b = h

/-- `isInternalLink` from `main.go`. -/
def isInternalLink (baseHost : String) (link : String) : Bool :=
  isInternalLinkL baseHost.data link.data

/-! ## The `LinkScraper` state and its operations -/

/-- The configuration part of the Go `LinkScraper` struct: the parsed
base URL and the maximum depth.  Go stores `maxDepth` as `int`; the
program is only ever run with non-negative depths, modelled as `Nat`. -/
structure ScraperCfg where
  baseURL : GoURL
  maxDepth : Nat

/-- The mutable part of the Go `LinkScraper` struct.  `visitedURL` is the
key set of the Go map in insertion order (keys are only ever set to
`true`, and only when absent, so the list stays duplicate-free and its
length is the map's size).  `fetched` is a specification-only event log
recording each URL at the moment it is submitted to `scrapePage`, and
`submitted` records every argument ever passed to `addLink`; neither
ghost field influences any other field. -/
structure ScrapeState where
  visitedURL : List String := []
  links : List String := []
  internalLinks : List String := []
  externalLinks : List String := []
  errors : List String := []
  currentDepth : Nat := 0
  fetched : List String := []
  submitted : List String := []
  deriving Repr, DecidableEq

/-- The fresh state `NewLinkScraper` returns. -/
def initState : ScrapeState := {}

/-- The timestamped message `addError` appends for a failed page fetch
(`"[hh:mm:ss] Error on <url>: <err>"`); the wall-clock part is outside
the model and replaced by a fixed placeholder. -/
def errorEntry (url : String) : String := "[time] error on " ++ url

/-- `addError` from `main.go`: append one entry to the error log. -/
def addError (msg : String) (s : ScrapeState) : ScrapeState :=
  { s with errors := s.errors ++ [msg] }

/-- `addLink` from `main.go`: a link already present in `ls.links` is
dropped; otherwise it is appended to the master list and to exactly one
of the internal/external lists.  The ghost `submitted` log records the
call itself. -/
def addLink (baseHost : List Char) (link : String) (s : ScrapeState) : ScrapeState :=
  let s := { s with submitted := s.submitted ++ [link] }
  if s.links.contains link then s
  else
    let s := { s with links := s.links ++ [link] }
    if isInternalLinkL baseHost link.data then
      { s with internalLinks := s.internalLinks ++ [link] }
    else
      { s with externalLinks := s.externalLinks ++ [link] }

/-! ## `scrapePage` -/

/-- The raw extraction result of the page fetcher boundary
(`goquery` document): the `href` attributes of all `a[href]` elements in
document order, and the `(href, rel)` attribute pairs of all
`link[href]` elements. -/
structure Doc where
  anchors : List String := []
  linkElems : List (String × String) := []

/-- The fetch-and-parse boundary: what `http.Client.Do` plus
`goquery.NewDocumentFromReader` yield for a URL.  `none` collapses every
failure path of `scrapePage` before extraction begins (request error,
non-2xx status, gzip error, non-HTML content type, parse error). -/
def FetchEnv : Type := String → Option Doc

/-- Substring containment, Go `strings.Contains`. -/
def containsSubstrL (l sub : List Char) : Bool :=
  l.tails.any fun t => startsWithL t sub

/-- The body of each `.Each` callback in `scrapePage`: normalize the
href; when non-empty register it via `addLink` and, when internal,
append it to the `newInternalLinks` accumulator. -/
def processHref (baseHost : List Char) (targetURL : String) (href : String)
    (acc : ScrapeState × List String) : ScrapeState × List String :=
  let cleanURL := normalizeURL href targetURL
  if cleanURL ≠ "" then
    let s := addLink baseHost cleanURL acc.1
    if isInternalLink ⟨baseHost⟩ cleanURL then (s, acc.2 ++ [cleanURL])
    else (s, acc.2)
  else acc

/-- `scrapePage` from `main.go`: on fetch success the source iterates the
`a[href]` selection twice with identical bodies, then the `link[href]`
selection filtered to `rel` containing `canonical` or `alternate`.
Returns the accumulated `newInternalLinks` (or `none` for the error
return) together with the updated shared state. -/
def scrapePage (cfg : ScraperCfg) (env : FetchEnv) (targetURL : String)
    (s : ScrapeState) : Option (List String) × ScrapeState :=
  match env targetURL with
  | none => (none, s)
  | some doc =>
    let bh := cfg.baseURL.host
    let acc := doc.anchors.foldl (fun a href => processHref bh targetURL href a) (s, [])
    let acc := doc.anchors.foldl (fun a href => processHref bh targetURL href a) acc
    let acc := doc.linkElems.foldl
      (fun a hr =>
        if containsSubstrL hr.2.data "canonical".data ||
            containsSubstrL hr.2.data "alternate".data then
          processHref bh targetURL hr.1 a
        else a)
      acc
    (some acc.2, acc.1)

/-! ## `ScrapeLinksRecursive` -/

mutual

/-- `ScrapeLinksRecursive` from `main.go`: depth guard, visited check,
mark-visited plus `currentDepth` update, fetch (ghost-logged), error
branch, and the recursion loop over the returned internal links. -/
def ScrapeLinksRecursive (cfg : ScraperCfg) (env : FetchEnv) (targetURL : String)
    (depth : Nat) (s : ScrapeState) : ScrapeState :=
  if depth > cfg.maxDepth then s
  else if s.visitedURL.contains targetURL then s
  else
    let s := { s with visitedURL := s.visitedURL ++ [targetURL],
                      currentDepth := max s.currentDepth depth,
                      fetched := s.fetched ++ [targetURL] }
    match scrapePage cfg env targetURL s with
    | (none, s') => addError (errorEntry targetURL) s'
    | (some newInternalLinks, s') =>
      if depth < cfg.maxDepth then
        scrapeLoop cfg env newInternalLinks (depth + 1) s'
      else s'
termination_by (cfg.maxDepth + 1 - depth, 0)

/-- The `for _, link := range newInternalLinks` loop of
`ScrapeLinksRecursive`, with its per-link `alreadyVisited` re-check. -/
def scrapeLoop (cfg : ScraperCfg) (env : FetchEnv) (links : List String)
    (depth : Nat) (s : ScrapeState) : ScrapeState :=
  match links with
  | [] => s
  | link :: rest =>
    let s' := if s.visitedURL.contains link then s
              else ScrapeLinksRecursive cfg env link depth s
    scrapeLoop cfg env rest depth s'
termination_by (cfg.maxDepth + 1 - depth, links.length + 1)

end

/-! ## Results -/

/-- `ScrapingStats` from `main.go`. -/
structure ScrapingStats where
  pagesVisited : Nat
  totalLinks : Nat
  internalCount : Nat
  externalCount : Nat
  errorsCount : Nat
  executionTime : String
  maxDepthReached : Nat
  deriving Repr, DecidableEq

/-- `ScrapingResults` from `main.go`. -/
structure ScrapingResults where
  baseURL : String
  totalLinks : Nat
  internalLinks : List String
  externalLinks : List String
  allLinks : List String
  errors : List String
  statistics : ScrapingStats
  timestamp : String
  deriving Repr, DecidableEq

/-- `GetResults` from `main.go`; the two wall-clock fields are fixed
placeholders (see the header). -/
def GetResults (cfg : ScraperCfg) (s : ScrapeState) : ScrapingResults :=
  { baseURL := ⟨urlToStringL cfg.baseURL⟩
    totalLinks := s.links.length
    internalLinks := s.internalLinks
    externalLinks := s.externalLinks
    allLinks := s.links
    errors := s.errors
    statistics :=
      { pagesVisited := s.visitedURL.length
        totalLinks := s.links.length
        internalCount := s.internalLinks.length
        externalCount := s.externalLinks.length
        errorsCount := s.errors.length
        executionTime := ""
        maxDepthReached := s.currentDepth }
    timestamp := "" }

/-- The whole run as `main` performs it:
`scraper.ScrapeLinksRecursive(targetURL, 0)` from the fresh state. -/
def runScraper (cfg : ScraperCfg) (env : FetchEnv) (seed : String) : ScrapeState :=
  ScrapeLinksRecursive cfg env seed 0 initState

/-! ## The admission fragment under concurrent interleaving

The visited-set admission operation of `ScrapeLinksRecursive`
(lines 111 to 124 of `main.go`) consists of two separate critical
sections: a read of `visitedURL[targetURL]` under `RLock`, and — only if
that read observed `false` — a write `visitedURL[targetURL] = true`
under `Lock`, after which the invocation proceeds to fetch.  Each
critical section is one atomic step; steps of different invocations may
interleave.  All invocations here target one fixed URL, so the shared
state is a single boolean. -/

/-- Per-invocation control state of the admission fragment: before the
read; after the read (with the observed value); finished (with the
decision whether this invocation proceeds to fetch). -/
inductive TMPhase where
  | start : TMPhase
  | checked : Bool → TMPhase
  | finished : Bool → TMPhase
  deriving Repr, DecidableEq

/-- Shared state: the `visitedURL[u]` entry plus each invocation. -/
structure TMState where
  visited : Bool
  threads : List TMPhase
  deriving Repr, DecidableEq

/-- One atomic step of invocation `i`: its read critical section, or its
decision (an invocation that observed `true` returns; one that observed
`false` performs the insert critical section and proceeds). -/
def tmStep (s : TMState) (i : Nat) : TMState :=
  match s.threads[i]? with
  | some TMPhase.start => { s with threads := s.threads.set i (TMPhase.checked s.visited) }
  | some (TMPhase.checked true) => { s with threads := s.threads.set i (TMPhase.finished false) }
  | some (TMPhase.checked false) =>
    { visited := true, threads := s.threads.set i (TMPhase.finished true) }
  | _ => s

/-- Run a schedule (a sequence of invocation indices) from the initial
state in which the URL is unvisited and `n` invocations are pending. -/
def tmRun (n : Nat) (sched : List Nat) : TMState :=
  sched.foldl tmStep ⟨false, List.replicate n TMPhase.start⟩

/-- How many invocations ended up proceeding to the fetch. -/
def tmProceeders (s : TMState) : Nat :=
  s.threads.countP fun p => match p with
    | TMPhase.finished true => true
    | _ => false

/-- The serialized schedule: each invocation runs its two steps
back to back, with no interleaving — the execution order the program as
written (a single-threaded traversal) actually produces. -/
def tmSerialSched (n : Nat) : List Nat :=
  (List.range n).flatMap fun i => [i, i]

/-! ## The link classifier of the specification

Modelled from the spec: section 4.2 describes a Link Classifier
(`classify(url) -> (LinkCategory, fileType)`) that has no counterpart
anywhere in `main.go`; the code never inspects path extensions and keeps
no category buckets.  The definitions below follow the wording of
section 4.2 and exist solely to state claims that compare the
specification against the code. -/

/-- The `LinkCategory` enumeration of spec section 3. -/
inductive LinkCategory where
  | Page | Document | Image | Script | Stylesheet | Media | Archive | Other
  deriving Repr, DecidableEq

/-- Modelled from the spec: the extension table of section 4.2. -/
def extCategory (ext : List Char) : Option LinkCategory :=
  if ext = "html".data ∨ ext = "php".data ∨ ext = "asp".data then some LinkCategory.Page
  else if ext = "pdf".data ∨ ext = "docx".data ∨ ext = "csv".data then some LinkCategory.Document
  else if ext = "jpg".data ∨ ext = "png".data ∨ ext = "svg".data then some LinkCategory.Image
  else if ext = "js".data ∨ ext = "ts".data then some LinkCategory.Script
  else if ext = "css".data ∨ ext = "scss".data then some LinkCategory.Stylesheet
  else if ext = "mp4".data ∨ ext = "mp3".data then some LinkCategory.Media
  else if ext = "zip".data ∨ ext = "tar".data then some LinkCategory.Archive
  else none

/-- Modelled from the spec: `classify(url)` of section 4.2 — the
lower-cased path component; no dot in the final segment or a trailing
slash means Page with fileType html; otherwise the extension after the
last dot decides via the fixed table, unknown extensions giving Other. -/
def classifySpec (url : String) : LinkCategory × String :=
  let path := toLowerL ((parseURLL url.data).elim [] GoURL.path)
  let finalSeg := (splitOnCharL '/' path).getLastD []
  if ¬ finalSeg.contains '.' ∨ path.getLast? = some '/' then
    (LinkCategory.Page, "html")
  else
    let ext := (splitOnCharL '.' finalSeg).getLastD []
    match extCategory ext with
    | some cat => (cat, ⟨ext⟩)
    | none => (LinkCategory.Other, ⟨ext⟩)

/-! ## Specification-side shorthands used by the lemmas below -/

/-- The canonical URL one href contributes to `addLink` (specification
shorthand for the guard inside the `.Each` callbacks). -/
def cleanOf (targetURL href : String) : Option String :=
  let c := normalizeURL href targetURL
  if c ≠ "" then some c else none

/-- The canonical URL one href contributes to `newInternalLinks`. -/
def candOf (bh : List Char) (targetURL href : String) : Option String :=
  let c := normalizeURL href targetURL
  if c ≠ "" then (if isInternalLink ⟨bh⟩ c then some c else none) else none

/-- The `rel` filter of the `link[href]` pass. -/
def relWanted (rel : String) : Bool :=
  containsSubstrL rel.data "canonical".data || containsSubstrL rel.data "alternate".data

/-- All canonical URLs `scrapePage` submits to `addLink`, in order: the
anchor pass twice, then the filtered `link` pass. -/
def pageClean (_cfg : ScraperCfg) (targetURL : String) (doc : Doc) : List String :=
  let a := doc.anchors.filterMap (cleanOf targetURL)
  let l := ((doc.linkElems.filter fun hr => relWanted hr.2).map Prod.fst).filterMap
    (cleanOf targetURL)
  a ++ a ++ l

/-- The `newInternalLinks` list `scrapePage` returns, in order. -/
def pageCands (cfg : ScraperCfg) (targetURL : String) (doc : Doc) : List String :=
  let bh := cfg.baseURL.host
  let a := doc.anchors.filterMap (candOf bh targetURL)
  let l := ((doc.linkElems.filter fun hr => relWanted hr.2).map Prod.fst).filterMap
    (candOf bh targetURL)
  a ++ a ++ l

/-- The run-wide state invariant: the partition equation, no duplicates
in the master list, no duplicates in the fetch log, and every fetched
URL marked visited before its fetch. -/
def StateInv (s : ScrapeState) : Prop :=
  s.links.length = s.internalLinks.length + s.externalLinks.length ∧
  s.links.Nodup ∧ s.fetched.Nodup ∧ ∀ u ∈ s.fetched, u ∈ s.visitedURL

/-- The by-key ordering relation on query pairs. -/
def pairLE (p q : List Char × List Char) : Prop := keyLE p.1 q.1 = true

/-- The serialized form of one pair inside `Values.Encode`. -/
def encPair (kv : List Char × List Char) : List Char :=
  escapeQ kv.1 ++ '=' :: escapeQ kv.2

/-- Shape of a scheme as `getSchemeL` returns it: nonempty, headed by a
letter, scheme characters throughout, and fixed under lower-casing. -/
def SchemeInv (s : List Char) : Prop :=
  match s with
  | [] => False
  | c :: cs =>
    isSchemeHead c = true ∧ (∀ x ∈ cs, isSchemeChar x = true) ∧
      toLowerL (c :: cs) = c :: cs

/-- Shape of the scanner accumulator of `getSchemeL` before lower-casing. -/
def AccInv (acc : List Char) : Prop :=
  match acc with
  | [] => False
  | c :: cs => isSchemeHead c = true ∧ ∀ x ∈ cs, isSchemeChar x = true

/-- Shape of a path produced by `resolvePathL`: empty, or slash-headed
with no dot segments. -/
def PathInv (p : List Char) : Prop :=
  p = [] ∨ (p.head? = some '/' ∧
    ∀ seg ∈ splitOnCharL '/' p, ¬ seg = ['.'] ∧ ¬ seg = ['.', '.'])

/-- Shape of every record `normalizeRecord` returns: a well-formed or
empty scheme, an opaque part only alongside a nonempty scheme (with no
separators, no leading slash and no control characters in it, and with
empty host and path), a resolved dot-free path, a re-encoded
tracking-free query, and no fragment. -/
def NormInv (u : GoURL) : Prop :=
  (u.scheme = [] ∨ SchemeInv u.scheme) ∧
  (¬ u.opq = [] → ¬ u.scheme = [] ∧ u.host = [] ∧ u.path = [] ∧
    '#' ∉ u.opq ∧ '?' ∉ u.opq ∧ ¬ u.opq.head? = some '/' ∧
    ∀ c ∈ u.opq, isCtl c = false) ∧
  PathInv u.path ∧
  (∃ ps : List (List Char × List Char), u.rawQuery = encodeQueryL ps ∧
    ∀ kv ∈ ps, ∀ p ∈ trackingParams, ¬ kv.1 = p) ∧
  u.fragment = []

/-! ## Lemmas: the admission fragment (claim C1) -/

/-- One serialized invocation at a fresh index, on an already-claimed
URL and beyond: running the serialized tail over pending invocations
keeps the proceeders it has. -/
theorem tmRun_serial_general (n : Nat) (hn : 1 ≤ n) :
    ∀ k : Nat,
      (tmSerialSched n).foldl tmStep ⟨false, List.replicate (n + k) TMPhase.start⟩ =
        ⟨true, TMPhase.finished true ::
          (List.replicate (n - 1) (TMPhase.finished false) ++
            List.replicate k TMPhase.start)⟩ := by
  induction n with
  | zero => omega
  | succ m ih =>
    intro k
    match m, ih with
    | 0, _ =>
      simp only [tmSerialSched, List.range_succ, List.range_zero, List.nil_append,
        List.flatMap_cons, List.flatMap_nil, List.append_nil]
      have h1 : List.replicate (0 + 1 + k) TMPhase.start =
          TMPhase.start :: List.replicate k TMPhase.start := by
        rw [show 0 + 1 + k = k + 1 by omega]
        rfl
      rw [h1]
      simp [tmStep, List.foldl]
    | Nat.succ m', ih =>
      have hser : tmSerialSched (m' + 1 + 1) = tmSerialSched (m' + 1) ++ [m' + 1, m' + 1] := by
        simp [tmSerialSched, List.range_succ]
      rw [hser, List.foldl_append]
      have hrep : m' + 1 + 1 + k = m' + 1 + (k + 1) := by omega
      rw [hrep, ih (by omega) (k + 1)]
      have hidx :
          (TMPhase.finished true ::
            (List.replicate (m' + 1 - 1) (TMPhase.finished false) ++
              List.replicate (k + 1) TMPhase.start))[m' + 1]? = some TMPhase.start := by
        rw [List.getElem?_cons_succ, List.getElem?_append_right (by simp),
          List.getElem?_replicate]
        simp
      have hset : ∀ p : TMPhase,
          (TMPhase.finished true ::
            (List.replicate (m' + 1 - 1) (TMPhase.finished false) ++
              List.replicate (k + 1) TMPhase.start)).set (m' + 1) p =
          TMPhase.finished true ::
            (List.replicate (m' + 1 - 1) (TMPhase.finished false) ++
              (p :: List.replicate k TMPhase.start)) := by
        intro p
        rw [List.set_cons_succ, List.set_append_right _ _ (by simp),
          List.replicate_succ]
        simp
      simp only [List.foldl]
      rw [show (tmStep ⟨true, TMPhase.finished true ::
          (List.replicate (m' + 1 - 1) (TMPhase.finished false) ++
            List.replicate (k + 1) TMPhase.start)⟩ (m' + 1)) =
          ⟨true, TMPhase.finished true ::
            (List.replicate (m' + 1 - 1) (TMPhase.finished false) ++
              (TMPhase.checked true :: List.replicate k TMPhase.start))⟩ by
        simp only [tmStep, hidx, hset]]
      have hidx2 :
          (TMPhase.finished true ::
            (List.replicate (m' + 1 - 1) (TMPhase.finished false) ++
              (TMPhase.checked true :: List.replicate k TMPhase.start)))[m' + 1]? =
            some (TMPhase.checked true) := by
        rw [List.getElem?_cons_succ, List.getElem?_append_right (by simp)]
        simp
      rw [show (tmStep ⟨true, TMPhase.finished true ::
          (List.replicate (m' + 1 - 1) (TMPhase.finished false) ++
            (TMPhase.checked true :: List.replicate k TMPhase.start))⟩ (m' + 1)) =
          ⟨true, TMPhase.finished true ::
            (List.replicate (m' + 1 - 1) (TMPhase.finished false) ++
              (TMPhase.finished false :: List.replicate k TMPhase.start))⟩ by
        simp only [tmStep, hidx2]
        congr 1
        rw [List.set_cons_succ, List.set_append_right _ _ (by simp)]
        simp]
      congr 2
      have : m' + 1 + 1 - 1 = (m' + 1 - 1) + 1 := by omega
      rw [this, List.replicate_succ']
      simp

/-- Claim C1 (counterexample): the check-and-insert of the admission
fragment is not atomic.  In the interleaving in which both of two
concurrent invocations for the same URL execute their read critical
section before either executes its insert critical section (schedule
0, 1, 0, 1), both observe the URL as unvisited and both proceed to
fetch, so it is not the case that exactly one invocation proceeds. -/
theorem tryMarkVisited_not_linearizable :
    tmProceeders (tmRun 2 [0, 1, 0, 1]) = 2 := by decide

/-- Claim C1 (amended): the visited check and the insert are two
separate critical sections, not one atomic operation, so under
concurrent interleaving two invocations for the same URL can both
observe it unvisited and both proceed to fetch (see the counterexample).
When no two invocations interleave — the serialized schedules, which are
the only ones the program as written produces, its traversal being
single-threaded — exactly one of the N invocations for the same URL
proceeds to fetch. -/
theorem tryMarkVisited_serialized_exactly_one (n : Nat) (hn : 1 ≤ n) :
    tmProceeders (tmRun n (tmSerialSched n)) = 1 := by
  have h := tmRun_serial_general n hn 0
  rw [Nat.add_zero] at h
  rw [tmRun, h]
  simp [tmProceeders, List.countP_cons, List.countP_append, List.countP_replicate]

/-- Claim C1 (witness): the serialized exactly-one property at N = 3. -/
theorem tryMarkVisited_serialized_exactly_one_witness :
    tmProceeders (tmRun 3 (tmSerialSched 3)) = 1 :=
  tryMarkVisited_serialized_exactly_one 3 (by decide)

/-! ## Lemmas: `addLink` (claims C3, C6, C10) -/

theorem addLink_visitedURL (bh : List Char) (u : String) (s : ScrapeState) :
    (addLink bh u s).visitedURL = s.visitedURL := by
  unfold addLink; dsimp only; split
  · rfl
  · split <;> rfl

theorem addLink_fetched (bh : List Char) (u : String) (s : ScrapeState) :
    (addLink bh u s).fetched = s.fetched := by
  unfold addLink; dsimp only; split
  · rfl
  · split <;> rfl

theorem addLink_errors (bh : List Char) (u : String) (s : ScrapeState) :
    (addLink bh u s).errors = s.errors := by
  unfold addLink; dsimp only; split
  · rfl
  · split <;> rfl

theorem addLink_currentDepth (bh : List Char) (u : String) (s : ScrapeState) :
    (addLink bh u s).currentDepth = s.currentDepth := by
  unfold addLink; dsimp only; split
  · rfl
  · split <;> rfl

/-- The master list after `addLink`: unchanged on a duplicate, appended
otherwise. -/
theorem addLink_links (bh : List Char) (u : String) (s : ScrapeState) :
    (addLink bh u s).links = if s.links.contains u then s.links else s.links ++ [u] := by
  unfold addLink; dsimp only; split
  · simp_all
  · split <;> simp_all

/-- A duplicate registration is a no-op on all three views. -/
theorem addLink_of_mem (bh : List Char) (u : String) (s : ScrapeState)
    (h : u ∈ s.links) :
    (addLink bh u s).links = s.links ∧
    (addLink bh u s).internalLinks = s.internalLinks ∧
    (addLink bh u s).externalLinks = s.externalLinks := by
  unfold addLink; dsimp only
  rw [if_pos (by simpa [List.contains] using h)]
  exact ⟨rfl, rfl, rfl⟩

/-- `addLink` keeps the master list duplicate-free. -/
theorem addLink_nodup (bh : List Char) (u : String) (s : ScrapeState)
    (h : s.links.Nodup) : (addLink bh u s).links.Nodup := by
  rw [addLink_links]
  split
  · exact h
  · next hc =>
    simp only [List.nodup_append, List.nodup_cons]
    refine ⟨h, by simp, ?_⟩
    intro a ha hb
    simp at hb
    subst hb
    exact hc (by simpa [List.contains] using ha)

/-- Membership in the master list is preserved and gained. -/
theorem addLink_mem_links (bh : List Char) (u v : String) (s : ScrapeState)
    (h : v ∈ s.links ∨ v = u) : v ∈ (addLink bh u s).links := by
  rw [addLink_links]
  split
  · next hc =>
    rcases h with h | rfl
    · exact h
    · simpa [List.contains] using hc
  · rcases h with h | rfl
    · exact List.mem_append_left _ h
    · exact List.mem_append_right _ (by simp)

/-- `addLink` preserves the partition equation between the master list
and the internal/external views. -/
theorem addLink_partition (bh : List Char) (u : String) (s : ScrapeState)
    (h : s.links.length = s.internalLinks.length + s.externalLinks.length) :
    (addLink bh u s).links.length =
      (addLink bh u s).internalLinks.length + (addLink bh u s).externalLinks.length := by
  unfold addLink; dsimp only
  split
  · exact h
  · split <;> simp [h] <;> omega

/-- A sequence of `addLink` calls keeps the master list duplicate-free. -/
theorem foldl_addLink_nodup (bh : List Char) (calls : List String) :
    ∀ s : ScrapeState, s.links.Nodup →
      ((calls.foldl (fun t l => addLink bh l t) s).links).Nodup := by
  induction calls with
  | nil => exact fun s h => h
  | cons c rest ih => exact fun s h => ih _ (addLink_nodup bh c s h)

/-- Every registered URL is in the master list after the sequence. -/
theorem foldl_addLink_mem (bh : List Char) (calls : List String) (u : String) :
    ∀ s : ScrapeState, u ∈ s.links ∨ u ∈ calls →
      u ∈ (calls.foldl (fun t l => addLink bh l t) s).links := by
  induction calls with
  | nil =>
    intro s h
    simpa using h.resolve_right (by simp)
  | cons c rest ih =>
    intro s h
    apply ih
    rcases h with h | h
    · exact Or.inl (addLink_mem_links bh c u s (Or.inl h))
    · rcases List.mem_cons.mp h with rfl | h
      · exact Or.inl (addLink_mem_links bh u u s (Or.inr rfl))
      · exact Or.inr h

/-- Claim C6: after any sequence of `addLink` calls from the fresh
registry, including repeated calls with the same canonical URL, the
master list contains exactly one entry for each URL that was ever
registered; and a call for a URL already present in the master list is a
no-op on all three views (master, internal, external). -/
theorem registerLink_no_duplicates :
    (∀ (bh : List Char) (calls : List String) (u : String),
      u ∈ calls →
        ((calls.foldl (fun s l => addLink bh l s) initState).links).count u = 1) ∧
    (∀ (bh : List Char) (s : ScrapeState) (u : String), u ∈ s.links →
      (addLink bh u s).links = s.links ∧
      (addLink bh u s).internalLinks = s.internalLinks ∧
      (addLink bh u s).externalLinks = s.externalLinks) := by
  constructor
  · intro bh calls u hu
    have hmem : u ∈ (calls.foldl (fun s l => addLink bh l s) initState).links :=
      foldl_addLink_mem bh calls u initState (Or.inr hu)
    have hnd : ((calls.foldl (fun s l => addLink bh l s) initState).links).Nodup :=
      foldl_addLink_nodup bh calls initState (by simp [initState])
    exact List.count_eq_one_of_mem hnd hmem
  · exact fun bh s u h => addLink_of_mem bh u s h

/-- Claim C6 (witness): registering `a`, `a`, `b` from the fresh registry
leaves one entry for `a`; re-registering a present URL changes no view. -/
theorem registerLink_no_duplicates_witness :
    ((["a", "a", "b"].foldl (fun s l => addLink "ex.com".data l s) initState).links).count
        "a" = 1 ∧
    ((addLink "ex.com".data "a" { links := ["a"] }).links = ["a"] ∧
      (addLink "ex.com".data "a" { links := ["a"] }).internalLinks = [] ∧
      (addLink "ex.com".data "a" { links := ["a"] }).externalLinks = []) :=
  ⟨registerLink_no_duplicates.1 "ex.com".data ["a", "a", "b"] "a" (by decide),
   registerLink_no_duplicates.2 "ex.com".data { links := ["a"] } "a" (by decide)⟩

/-! ## Lemmas: `scrapePage` characterization (claims C2, C8, C9, C10) -/




theorem processHref_snd (bh : List Char) (t href : String)
    (acc : ScrapeState × List String) :
    (processHref bh t href acc).2 = acc.2 ++ (candOf bh t href).toList := by
  unfold processHref candOf
  dsimp only
  split
  · split <;> simp
  · simp

theorem processHref_fst (bh : List Char) (t href : String)
    (acc : ScrapeState × List String) :
    (processHref bh t href acc).1 =
      match cleanOf t href with
      | some c => addLink bh c acc.1
      | none => acc.1 := by
  unfold processHref cleanOf
  dsimp only
  split
  · split <;> rfl
  · rfl

/-- One `.Each` pass over a list of hrefs: the candidate accumulator
grows by a state-independent `filterMap`, and the state threads through
`addLink` over the canonicalizable hrefs. -/
theorem foldl_processHref (bh : List Char) (t : String) (hrefs : List String) :
    ∀ acc : ScrapeState × List String,
      hrefs.foldl (fun a href => processHref bh t href a) acc =
        (((hrefs.filterMap (cleanOf t)).foldl (fun s l => addLink bh l s) acc.1),
          acc.2 ++ hrefs.filterMap (candOf bh t)) := by
  induction hrefs with
  | nil => intro acc; simp
  | cons h rest ih =>
    intro acc
    rw [List.foldl_cons, ih, processHref_snd, processHref_fst]
    by_cases hne : normalizeURL h t = ""
    · simp [cleanOf, candOf, hne, List.filterMap_cons]
    · by_cases hint : isInternalLink ⟨bh⟩ (normalizeURL h t)
      · simp [cleanOf, candOf, hne, hint, List.filterMap_cons]
      · simp [cleanOf, candOf, hne, hint, List.filterMap_cons]

/-- The conditional `link[href]` pass equals a plain pass over the
`rel`-filtered hrefs. -/
theorem foldl_linkElems (bh : List Char) (t : String)
    (elems : List (String × String)) :
    ∀ acc : ScrapeState × List String,
      elems.foldl
        (fun a hr =>
          if containsSubstrL hr.2.data "canonical".data ||
              containsSubstrL hr.2.data "alternate".data then
            processHref bh t hr.1 a
          else a)
        acc =
      ((elems.filter fun hr => relWanted hr.2).map Prod.fst).foldl
        (fun a href => processHref bh t href a) acc := by
  induction elems with
  | nil => intro acc; simp
  | cons e rest ih =>
    intro acc
    rw [List.foldl_cons]
    by_cases hrel : relWanted e.2
    · have : (containsSubstrL e.2.data "canonical".data ||
          containsSubstrL e.2.data "alternate".data) = true := hrel
      rw [if_pos this, ih]
      simp [List.filter_cons, hrel]
    · have : ¬ ((containsSubstrL e.2.data "canonical".data ||
          containsSubstrL e.2.data "alternate".data) = true) := hrel
      rw [if_neg this, ih]
      simp [List.filter_cons, Bool.of_not_eq_true hrel]



/-- Characterization of `scrapePage` on a successful fetch. -/
theorem scrapePage_some (cfg : ScraperCfg) (env : FetchEnv) (targetURL : String)
    (doc : Doc) (s : ScrapeState) (h : env targetURL = some doc) :
    scrapePage cfg env targetURL s =
      (some (pageCands cfg targetURL doc),
        (pageClean cfg targetURL doc).foldl
          (fun t l => addLink cfg.baseURL.host l t) s) := by
  unfold scrapePage
  rw [h]
  dsimp only
  rw [foldl_linkElems, foldl_processHref, foldl_processHref, foldl_processHref]
  dsimp only
  unfold pageCands pageClean
  dsimp only
  rw [List.foldl_append, List.foldl_append]
  simp

/-- A sequence of `addLink` calls touches neither the visited set, nor
the fetch log, nor the error log, nor the depth water mark. -/
theorem foldl_addLink_frame (bh : List Char) (calls : List String) :
    ∀ s : ScrapeState,
      (calls.foldl (fun t l => addLink bh l t) s).visitedURL = s.visitedURL ∧
      (calls.foldl (fun t l => addLink bh l t) s).fetched = s.fetched ∧
      (calls.foldl (fun t l => addLink bh l t) s).errors = s.errors ∧
      (calls.foldl (fun t l => addLink bh l t) s).currentDepth = s.currentDepth := by
  induction calls with
  | nil => intro s; exact ⟨rfl, rfl, rfl, rfl⟩
  | cons c rest ih =>
    intro s
    rw [List.foldl_cons]
    refine ⟨?_, ?_, ?_, ?_⟩
    · rw [(ih (addLink bh c s)).1, addLink_visitedURL]
    · rw [(ih (addLink bh c s)).2.1, addLink_fetched]
    · rw [(ih (addLink bh c s)).2.2.1, addLink_errors]
    · rw [(ih (addLink bh c s)).2.2.2, addLink_currentDepth]

theorem foldl_addLink_visited (bh : List Char) (calls : List String) (s : ScrapeState) :
    (calls.foldl (fun t l => addLink bh l t) s).visitedURL = s.visitedURL :=
  (foldl_addLink_frame bh calls s).1

theorem foldl_addLink_fetchedLog (bh : List Char) (calls : List String) (s : ScrapeState) :
    (calls.foldl (fun t l => addLink bh l t) s).fetched = s.fetched :=
  (foldl_addLink_frame bh calls s).2.1

theorem foldl_addLink_errorsLog (bh : List Char) (calls : List String) (s : ScrapeState) :
    (calls.foldl (fun t l => addLink bh l t) s).errors = s.errors :=
  (foldl_addLink_frame bh calls s).2.2.1

theorem foldl_addLink_depthMark (bh : List Char) (calls : List String) (s : ScrapeState) :
    (calls.foldl (fun t l => addLink bh l t) s).currentDepth = s.currentDepth :=
  (foldl_addLink_frame bh calls s).2.2.2

/-- A sequence of `addLink` calls preserves the partition equation. -/
theorem foldl_addLink_partition (bh : List Char) (calls : List String) :
    ∀ s : ScrapeState,
      s.links.length = s.internalLinks.length + s.externalLinks.length →
      ((calls.foldl (fun t l => addLink bh l t) s).links).length =
        ((calls.foldl (fun t l => addLink bh l t) s).internalLinks).length +
          ((calls.foldl (fun t l => addLink bh l t) s).externalLinks).length := by
  induction calls with
  | nil => exact fun s h => h
  | cons c rest ih => exact fun s h => ih _ (addLink_partition bh c s h)

/-- `scrapePage` touches neither the visited set, nor the fetch log, nor
the error log, nor the depth water mark. -/
theorem scrapePage_frame (cfg : ScraperCfg) (env : FetchEnv) (targetURL : String)
    (s : ScrapeState) :
    (scrapePage cfg env targetURL s).2.visitedURL = s.visitedURL ∧
    (scrapePage cfg env targetURL s).2.fetched = s.fetched ∧
    (scrapePage cfg env targetURL s).2.errors = s.errors ∧
    (scrapePage cfg env targetURL s).2.currentDepth = s.currentDepth := by
  cases henv : env targetURL with
  | none => unfold scrapePage; rw [henv]; exact ⟨rfl, rfl, rfl, rfl⟩
  | some doc =>
    rw [scrapePage_some cfg env targetURL doc s henv]
    exact foldl_addLink_frame _ _ s


theorem stateInv_init : StateInv initState := by
  refine ⟨rfl, by simp [initState], by simp [initState], by simp [initState]⟩

/-- `scrapePage` preserves the run-wide invariant. -/
theorem scrapePage_stateInv (cfg : ScraperCfg) (env : FetchEnv) (targetURL : String)
    (s : ScrapeState) (h : StateInv s) :
    StateInv (scrapePage cfg env targetURL s).2 := by
  obtain ⟨h1, h2, h3, h4⟩ := h
  obtain ⟨f1, f2, _f3, _f4⟩ := scrapePage_frame cfg env targetURL s
  cases henv : env targetURL with
  | none => unfold scrapePage; rw [henv]; exact ⟨h1, h2, h3, h4⟩
  | some doc =>
    rw [scrapePage_some cfg env targetURL doc s henv] at f1 f2 ⊢
    refine ⟨foldl_addLink_partition _ _ s h1, foldl_addLink_nodup _ _ s h2, ?_, ?_⟩
    · rw [f2]; exact h3
    · rw [f1, f2]; exact h4

/-- `ScrapeLinksRecursive` preserves the run-wide invariant (and so does
its inner recursion loop). -/
theorem scrape_stateInv (cfg : ScraperCfg) (env : FetchEnv) :
    ∀ (url : String) (depth : Nat) (s : ScrapeState),
      StateInv s → StateInv (ScrapeLinksRecursive cfg env url depth s) := by
  refine ScrapeLinksRecursive.induct cfg env
    (fun u d s => StateInv s → StateInv (ScrapeLinksRecursive cfg env u d s))
    (fun l d s => StateInv s → StateInv (scrapeLoop cfg env l d s))
    ?_ ?_ ?_ ?_ ?_ ?_ ?_
  · intro url depth s hgt hinv
    rw [ScrapeLinksRecursive.eq_def, if_pos hgt]
    exact hinv
  · intro url depth s hgt hvis hinv
    rw [ScrapeLinksRecursive.eq_def, if_neg hgt, if_pos hvis]
    exact hinv
  · intro url depth s hgt hvis smark s' hscrape hinv
    rw [ScrapeLinksRecursive.eq_def, if_neg hgt, if_neg hvis]
    dsimp only
    rw [hscrape]
    have hmark : StateInv
        { s with visitedURL := s.visitedURL ++ [url],
                 currentDepth := max s.currentDepth depth,
                 fetched := s.fetched ++ [url] } := by
      obtain ⟨h1, h2, h3, h4⟩ := hinv
      refine ⟨h1, h2, ?_, ?_⟩
      · rw [List.nodup_append]
        refine ⟨h3, by simp, ?_⟩
        intro a ha hb
        simp at hb
        subst hb
        exact hvis (by simpa [List.contains] using h4 a ha)
      · intro u hu
        rcases List.mem_append.mp hu with hu | hu
        · exact List.mem_append_left _ (h4 u hu)
        · exact List.mem_append_right _ hu
    have := scrapePage_stateInv cfg env url _ hmark
    rw [hscrape] at this
    unfold addError
    obtain ⟨h1, h2, h3, h4⟩ := this
    exact ⟨h1, h2, h3, h4⟩
  · intro url depth s hgt hvis smark ni s' hscrape hlt ih hinv
    rw [ScrapeLinksRecursive.eq_def, if_neg hgt, if_neg hvis]
    dsimp only
    rw [hscrape]
    show StateInv (if depth < cfg.maxDepth then scrapeLoop cfg env ni (depth + 1) s' else s')
    rw [if_pos hlt]
    apply ih
    have hmark : StateInv
        { s with visitedURL := s.visitedURL ++ [url],
                 currentDepth := max s.currentDepth depth,
                 fetched := s.fetched ++ [url] } := by
      obtain ⟨h1, h2, h3, h4⟩ := hinv
      refine ⟨h1, h2, ?_, ?_⟩
      · rw [List.nodup_append]
        refine ⟨h3, by simp, ?_⟩
        intro a ha hb
        simp at hb
        subst hb
        exact hvis (by simpa [List.contains] using h4 a ha)
      · intro u hu
        rcases List.mem_append.mp hu with hu | hu
        · exact List.mem_append_left _ (h4 u hu)
        · exact List.mem_append_right _ hu
    have := scrapePage_stateInv cfg env url _ hmark
    rw [hscrape] at this
    exact this
  · intro url depth s hgt hvis smark ni s' hscrape hnlt hinv
    rw [ScrapeLinksRecursive.eq_def, if_neg hgt, if_neg hvis]
    dsimp only
    rw [hscrape]
    show StateInv (if depth < cfg.maxDepth then scrapeLoop cfg env ni (depth + 1) s' else s')
    rw [if_neg hnlt]
    have hmark : StateInv
        { s with visitedURL := s.visitedURL ++ [url],
                 currentDepth := max s.currentDepth depth,
                 fetched := s.fetched ++ [url] } := by
      obtain ⟨h1, h2, h3, h4⟩ := hinv
      refine ⟨h1, h2, ?_, ?_⟩
      · rw [List.nodup_append]
        refine ⟨h3, by simp, ?_⟩
        intro a ha hb
        simp at hb
        subst hb
        exact hvis (by simpa [List.contains] using h4 a ha)
      · intro u hu
        rcases List.mem_append.mp hu with hu | hu
        · exact List.mem_append_left _ (h4 u hu)
        · exact List.mem_append_right _ hu
    have := scrapePage_stateInv cfg env url _ hmark
    rw [hscrape] at this
    exact this
  · intro depth s hinv
    rw [scrapeLoop.eq_def]
    exact hinv
  · intro depth s link rest sNext ihLink ihRest hinv
    rw [scrapeLoop.eq_def]
    show StateInv (scrapeLoop cfg env rest depth
      (if s.visitedURL.contains link = true then s
       else ScrapeLinksRecursive cfg env link depth s))
    by_cases hc : s.visitedURL.contains link = true
    · rw [if_pos hc]
      have hs : sNext = s := dif_pos hc
      rw [hs] at ihRest
      exact ihRest hinv
    · rw [if_neg hc]
      have hs : sNext = ScrapeLinksRecursive cfg env link depth s := dif_neg hc
      rw [hs] at ihRest
      exact ihRest (ihLink hinv)

/-- Claim C3: every state of a run satisfies the run-wide invariant
(`StateInv` holds initially and is preserved by every traversal call),
and in every `ScrapingResults` snapshot taken of such a state the master
list length equals the internal plus external list lengths, and the
total-link count equals the sum of the per-category counts the result
carries (the code partitions links into exactly the two categories
internal and external, counted by `InternalCount` and `ExternalCount`). -/
theorem partition_consistency :
    StateInv initState ∧
    (∀ (cfg : ScraperCfg) (env : FetchEnv) (url : String) (depth : Nat) (s : ScrapeState),
      StateInv s → StateInv (ScrapeLinksRecursive cfg env url depth s)) ∧
    (∀ (cfg : ScraperCfg) (s : ScrapeState), StateInv s →
      (GetResults cfg s).allLinks.length =
        (GetResults cfg s).internalLinks.length + (GetResults cfg s).externalLinks.length ∧
      (GetResults cfg s).totalLinks =
        (GetResults cfg s).statistics.internalCount +
          (GetResults cfg s).statistics.externalCount) := by
  refine ⟨stateInv_init, scrape_stateInv, ?_⟩
  intro cfg s hs
  exact ⟨hs.1, hs.1⟩

/-- Claim C3 (witness): the snapshot equalities at the end of a concrete
all-failing run with maximum depth 1. -/
theorem partition_consistency_witness :
    (GetResults ⟨{}, 1⟩ (ScrapeLinksRecursive ⟨{}, 1⟩ (fun _ => none) "s" 0 initState)).allLinks.length =
      (GetResults ⟨{}, 1⟩ (ScrapeLinksRecursive ⟨{}, 1⟩ (fun _ => none) "s" 0 initState)).internalLinks.length +
        (GetResults ⟨{}, 1⟩ (ScrapeLinksRecursive ⟨{}, 1⟩ (fun _ => none) "s" 0 initState)).externalLinks.length ∧
    (GetResults ⟨{}, 1⟩ (ScrapeLinksRecursive ⟨{}, 1⟩ (fun _ => none) "s" 0 initState)).totalLinks =
      (GetResults ⟨{}, 1⟩ (ScrapeLinksRecursive ⟨{}, 1⟩ (fun _ => none) "s" 0 initState)).statistics.internalCount +
        (GetResults ⟨{}, 1⟩ (ScrapeLinksRecursive ⟨{}, 1⟩ (fun _ => none) "s" 0 initState)).statistics.externalCount :=
  partition_consistency.2.2 ⟨{}, 1⟩ _
    (partition_consistency.2.1 ⟨{}, 1⟩ (fun _ => none) "s" 0 initState partition_consistency.1)

/-! ## Lemmas: one traversal step (claims C8, C9) -/

/-- `scrapePage` on a failing fetch returns the error flag and the
unchanged state. -/
theorem scrapePage_none (cfg : ScraperCfg) (env : FetchEnv) (url : String)
    (s : ScrapeState) (henv : env url = none) :
    scrapePage cfg env url s = (none, s) := by
  unfold scrapePage
  rw [henv]

/-- One traversal call on an admitted URL whose fetch fails: the URL is
marked visited and logged as fetched, exactly one error entry is
appended, and nothing else changes — the branch terminates. -/
theorem scrape_err_eq (cfg : ScraperCfg) (env : FetchEnv) (url : String)
    (depth : Nat) (s : ScrapeState) (hd : ¬ depth > cfg.maxDepth)
    (hv : s.visitedURL.contains url = false) (henv : env url = none) :
    ScrapeLinksRecursive cfg env url depth s =
      { s with visitedURL := s.visitedURL ++ [url],
               currentDepth := max s.currentDepth depth,
               fetched := s.fetched ++ [url],
               errors := s.errors ++ [errorEntry url] } := by
  rw [ScrapeLinksRecursive.eq_def, if_neg hd, if_neg (by rw [hv]; exact Bool.false_ne_true)]
  dsimp only
  rw [scrapePage_none cfg env url _ henv]
  rfl

/-- One traversal call on an admitted URL at the depth limit whose fetch
succeeds: the URL is marked and fetched, the page links are registered,
and no recursion happens. -/
theorem scrape_leaf_eq (cfg : ScraperCfg) (env : FetchEnv) (url : String)
    (depth : Nat) (s : ScrapeState) (hd : ¬ depth > cfg.maxDepth)
    (hd2 : ¬ depth < cfg.maxDepth) (hv : s.visitedURL.contains url = false)
    (doc : Doc) (henv : env url = some doc) :
    ScrapeLinksRecursive cfg env url depth s =
      (pageClean cfg url doc).foldl (fun t l => addLink cfg.baseURL.host l t)
        { s with visitedURL := s.visitedURL ++ [url],
                 currentDepth := max s.currentDepth depth,
                 fetched := s.fetched ++ [url] } := by
  rw [ScrapeLinksRecursive.eq_def, if_neg hd, if_neg (by rw [hv]; exact Bool.false_ne_true)]
  dsimp only
  rw [scrapePage_some cfg env url doc _ henv]
  show (if depth < cfg.maxDepth then _ else _) = _
  rw [if_neg hd2]

/-- Claim C8: a traversal call beyond the depth bound returns the state
untouched, before any visited-set update or fetch; and with maximum
depth 0 a run fetches exactly the seed — the visited set and the fetch
log are the singleton seed (so `pagesVisited` is 1), whether or not the
seed fetch succeeds. -/
theorem depth_bound_respected :
    (∀ (cfg : ScraperCfg) (env : FetchEnv) (url : String) (depth : Nat) (s : ScrapeState),
      depth > cfg.maxDepth → ScrapeLinksRecursive cfg env url depth s = s) ∧
    (∀ (base : GoURL) (env : FetchEnv) (seed : String),
      (runScraper ⟨base, 0⟩ env seed).fetched = [seed] ∧
      (GetResults ⟨base, 0⟩ (runScraper ⟨base, 0⟩ env seed)).statistics.pagesVisited = 1) := by
  constructor
  · intro cfg env url depth s h
    rw [ScrapeLinksRecursive.eq_def, if_pos h]
  · intro base env seed
    have hvis0 : (initState.visitedURL).contains seed = false := by
      simp [initState]
    cases henv : env seed with
    | none =>
      rw [runScraper, scrape_err_eq ⟨base, 0⟩ env seed 0 initState (by simp) hvis0 henv]
      simp [GetResults, initState]
    | some doc =>
      rw [runScraper,
        scrape_leaf_eq ⟨base, 0⟩ env seed 0 initState (by simp) (by simp) hvis0 doc henv]
      constructor
      · rw [foldl_addLink_fetchedLog]
        simp [initState]
      · simp only [GetResults]
        rw [foldl_addLink_visited]
        simp [initState]

/-- Claim C8 (witness): both parts at concrete inputs — a call at depth
3 with maximum depth 1 is the identity, and a maximum-depth-0 run over
an always-failing fetcher visits exactly its seed. -/
theorem depth_bound_respected_witness :
    ScrapeLinksRecursive ⟨{}, 1⟩ (fun _ => none) "u" 3 initState = initState ∧
    ((runScraper ⟨{}, 0⟩ (fun _ => none) "s").fetched = ["s"] ∧
      (GetResults ⟨{}, 0⟩ (runScraper ⟨{}, 0⟩ (fun _ => none) "s")).statistics.pagesVisited = 1) :=
  ⟨depth_bound_respected.1 ⟨{}, 1⟩ (fun _ => none) "u" 3 initState (by decide),
   depth_bound_respected.2 {} (fun _ => none) "s"⟩

/-- Claim C9: a per-page fetch failure appends exactly one (timestamped)
entry to the error log and terminates only that branch — the call
returns with the URL marked visited, the error recorded and every other
component untouched, so sibling traversal continues from that state; and
a run in which every fetch fails still yields a `ScrapingResults`
snapshot, with zero links and a nonzero error count. -/
theorem fetch_error_isolated :
    (∀ (cfg : ScraperCfg) (env : FetchEnv) (url : String) (depth : Nat) (s : ScrapeState),
      ¬ depth > cfg.maxDepth → s.visitedURL.contains url = false → env url = none →
        ScrapeLinksRecursive cfg env url depth s =
          { s with visitedURL := s.visitedURL ++ [url],
                   currentDepth := max s.currentDepth depth,
                   fetched := s.fetched ++ [url],
                   errors := s.errors ++ [errorEntry url] }) ∧
    (∀ (base : GoURL) (maxD : Nat) (env : FetchEnv) (seed : String),
      (∀ u, env u = none) →
        (runScraper ⟨base, maxD⟩ env seed).links = [] ∧
        (runScraper ⟨base, maxD⟩ env seed).errors = [errorEntry seed] ∧
        (GetResults ⟨base, maxD⟩ (runScraper ⟨base, maxD⟩ env seed)).totalLinks = 0 ∧
        (GetResults ⟨base, maxD⟩ (runScraper ⟨base, maxD⟩ env seed)).statistics.errorsCount = 1) := by
  constructor
  · exact scrape_err_eq
  · intro base maxD env seed hall
    rw [runScraper, scrape_err_eq ⟨base, maxD⟩ env seed 0 initState (by omega)
      (by simp [initState]) (hall seed)]
    simp [GetResults, initState]

/-- Claim C9 (witness): the single-error branch equation at a concrete
admitted URL, and the all-failures run at a concrete seed. -/
theorem fetch_error_isolated_witness :
    ScrapeLinksRecursive ⟨{}, 2⟩ (fun _ => none) "u" 1 initState =
      { initState with visitedURL := initState.visitedURL ++ ["u"],
                       currentDepth := max initState.currentDepth 1,
                       fetched := initState.fetched ++ ["u"],
                       errors := initState.errors ++ [errorEntry "u"] } ∧
    ((runScraper ⟨{}, 2⟩ (fun _ => none) "s").links = [] ∧
      (runScraper ⟨{}, 2⟩ (fun _ => none) "s").errors = [errorEntry "s"] ∧
      (GetResults ⟨{}, 2⟩ (runScraper ⟨{}, 2⟩ (fun _ => none) "s")).totalLinks = 0 ∧
      (GetResults ⟨{}, 2⟩ (runScraper ⟨{}, 2⟩ (fun _ => none) "s")).statistics.errorsCount = 1) :=
  ⟨fetch_error_isolated.1 ⟨{}, 2⟩ (fun _ => none) "u" 1 initState (by decide) (by decide) rfl,
   fetch_error_isolated.2 {} 2 (fun _ => none) "s" (fun _ => rfl)⟩

/-! ## Lemmas: candidate lists (claims C2, C10) -/

theorem addLink_submitted (bh : List Char) (u : String) (s : ScrapeState) :
    (addLink bh u s).submitted = s.submitted ++ [u] := by
  unfold addLink; dsimp only; split
  · rfl
  · split <;> rfl

theorem foldl_addLink_submitted (bh : List Char) (calls : List String) :
    ∀ s : ScrapeState,
      (calls.foldl (fun t l => addLink bh l t) s).submitted = s.submitted ++ calls := by
  induction calls with
  | nil => intro s; simp
  | cons c rest ih =>
    intro s
    rw [List.foldl_cons, ih, addLink_submitted]
    simp

theorem candOf_internal (bh : List Char) (t href c : String)
    (h : candOf bh t href = some c) :
    isInternalLink ⟨bh⟩ c = true ∧ cleanOf t href = some c := by
  unfold candOf at h
  unfold cleanOf
  dsimp only at h ⊢
  by_cases hne : normalizeURL href t = ""
  · simp [hne] at h
  · rw [if_pos hne] at h ⊢
    by_cases hint : isInternalLink ⟨bh⟩ (normalizeURL href t)
    · rw [if_pos hint] at h
      cases h
      exact ⟨hint, rfl⟩
    · rw [if_neg hint] at h
      cases h

/-- Claim C2 (counterexample): for the base `https://ex.com/` and a page
whose sole anchor is `img.png`, the recursion-candidate list
`scrapePage` returns contains `https://ex.com/img.png` (twice), although
the specification classifier puts that URL in category Image, not Page:
the code applies no classification filter to candidates. -/
theorem recursion_candidates_include_non_pages :
    (scrapePage
        ⟨{ scheme := "https".data, host := "ex.com".data, path := "/".data }, 1⟩
        (fun u => if u = "https://ex.com/" then some ⟨["img.png"], []⟩ else none)
        "https://ex.com/" initState).1 =
      some ["https://ex.com/img.png", "https://ex.com/img.png"] ∧
    (classifySpec "https://ex.com/img.png").1 = LinkCategory.Image := by
  constructor
  · rfl
  · rfl

/-- Claim C2 (amended): on every fetched page, exactly the two element
kinds `a[href]` and `link[href]` with `rel` containing
canonical/alternate are extracted at all; every href of theirs whose
canonicalization succeeds is registered; and the recursion-candidate
list consists precisely of those of the registered URLs that are
internal — with no Page-classification filter (the code has no
classifier), so internal links of any category are candidates; element
kinds such as images, scripts, stylesheets, media and iframes are
neither registered nor recursed into. -/
theorem recursion_candidates_characterized (cfg : ScraperCfg) (env : FetchEnv)
    (url : String) (doc : Doc) (s : ScrapeState) (h : env url = some doc) :
    (scrapePage cfg env url s).1 = some (pageCands cfg url doc) ∧
    (∀ l ∈ pageCands cfg url doc, isInternalLink ⟨cfg.baseURL.host⟩ l = true) ∧
    (∀ href ∈ doc.anchors, ∀ c, candOf cfg.baseURL.host url href = some c →
      c ∈ pageCands cfg url doc) ∧
    (∀ href ∈ doc.anchors, ∀ c, cleanOf url href = some c →
      c ∈ (scrapePage cfg env url s).2.links) := by
  rw [scrapePage_some cfg env url doc s h]
  refine ⟨rfl, ?_, ?_, ?_⟩
  · intro l hl
    unfold pageCands at hl
    dsimp only at hl
    rcases List.mem_append.mp hl with hl | hl
    · rcases List.mem_append.mp hl with hl | hl <;>
      · obtain ⟨href, _, hc⟩ := List.mem_filterMap.mp hl
        exact (candOf_internal _ _ _ _ hc).1
    · obtain ⟨href, _, hc⟩ := List.mem_filterMap.mp hl
      exact (candOf_internal _ _ _ _ hc).1
  · intro href hhref c hc
    unfold pageCands
    dsimp only
    exact List.mem_append_left _ (List.mem_append_left _
      (List.mem_filterMap.mpr ⟨href, hhref, hc⟩))
  · intro href hhref c hc
    dsimp only
    apply foldl_addLink_mem
    refine Or.inr ?_
    unfold pageClean
    dsimp only
    exact List.mem_append_left _ (List.mem_append_left _
      (List.mem_filterMap.mpr ⟨href, hhref, hc⟩))

/-- Claim C2 (witness): the characterization at the counterexample page. -/
theorem recursion_candidates_characterized_witness :
    (scrapePage
        ⟨{ scheme := "https".data, host := "ex.com".data, path := "/".data }, 1⟩
        (fun u => if u = "https://ex.com/" then some ⟨["img.png"], []⟩ else none)
        "https://ex.com/" initState).1 =
      some (pageCands
        ⟨{ scheme := "https".data, host := "ex.com".data, path := "/".data }, 1⟩
        "https://ex.com/" ⟨["img.png"], []⟩) ∧
    (∀ l ∈ pageCands
        ⟨{ scheme := "https".data, host := "ex.com".data, path := "/".data }, 1⟩
        "https://ex.com/" ⟨["img.png"], []⟩,
      isInternalLink ⟨"ex.com".data⟩ l = true) ∧
    (∀ href ∈ (⟨["img.png"], []⟩ : Doc).anchors, ∀ c,
      candOf "ex.com".data "https://ex.com/" href = some c →
        c ∈ pageCands
          ⟨{ scheme := "https".data, host := "ex.com".data, path := "/".data }, 1⟩
          "https://ex.com/" ⟨["img.png"], []⟩) ∧
    (∀ href ∈ (⟨["img.png"], []⟩ : Doc).anchors, ∀ c,
      cleanOf "https://ex.com/" href = some c →
        c ∈ (scrapePage
          ⟨{ scheme := "https".data, host := "ex.com".data, path := "/".data }, 1⟩
          (fun u => if u = "https://ex.com/" then some ⟨["img.png"], []⟩ else none)
          "https://ex.com/" initState).2.links) :=
  recursion_candidates_characterized
    ⟨{ scheme := "https".data, host := "ex.com".data, path := "/".data }, 1⟩
    (fun u => if u = "https://ex.com/" then some ⟨["img.png"], []⟩ else none)
    "https://ex.com/" ⟨["img.png"], []⟩ initState rfl

/-- Claim C10: `scrapePage` runs the anchor pass twice, so (with no
qualifying `link` elements) the `addLink` submission log grows by the
canonicalizable anchor hrefs twice over and the candidate list is the
internal anchor URLs twice over; the master list nevertheless stays
duplicate-free (each URL at most once); and the fetch log of a whole
run has no duplicates — the pre-recursion visited check prevents the
duplicated candidate from causing a second fetch. -/
theorem anchor_pass_duplicated :
    (∀ (cfg : ScraperCfg) (env : FetchEnv) (url : String) (doc : Doc) (s : ScrapeState),
      env url = some doc → doc.linkElems = [] →
        (scrapePage cfg env url s).2.submitted =
          s.submitted ++ (doc.anchors.filterMap (cleanOf url) ++
            doc.anchors.filterMap (cleanOf url)) ∧
        (scrapePage cfg env url s).1 =
          some (doc.anchors.filterMap (candOf cfg.baseURL.host url) ++
            doc.anchors.filterMap (candOf cfg.baseURL.host url))) ∧
    (∀ (cfg : ScraperCfg) (env : FetchEnv) (url : String) (s : ScrapeState),
      s.links.Nodup → ∀ u, ((scrapePage cfg env url s).2.links).count u ≤ 1) ∧
    (∀ (cfg : ScraperCfg) (env : FetchEnv) (seed : String),
      ((runScraper cfg env seed).fetched).Nodup) := by
  refine ⟨?_, ?_, ?_⟩
  · intro cfg env url doc s h hno
    rw [scrapePage_some cfg env url doc s h]
    constructor
    · rw [foldl_addLink_submitted]
      unfold pageClean
      simp [hno]
    · unfold pageCands
      simp [hno]
  · intro cfg env url s hnd u
    have : ((scrapePage cfg env url s).2.links).Nodup := by
      cases henv : env url with
      | none => rw [scrapePage_none cfg env url s henv]; exact hnd
      | some doc =>
        rw [scrapePage_some cfg env url doc s henv]
        exact foldl_addLink_nodup _ _ s hnd
    exact List.nodup_iff_count_le_one.mp this u
  · intro cfg env seed
    exact (scrape_stateInv cfg env seed 0 initState stateInv_init).2.2.1

/-- Claim C10 (witness): all three parts at concrete inputs. -/
theorem anchor_pass_duplicated_witness :
    ((scrapePage ⟨{ host := "ex.com".data }, 1⟩
        (fun _ => some ⟨["a.html"], []⟩) "u" initState).2.submitted =
      initState.submitted ++
        ((["a.html"] : List String).filterMap (cleanOf "u") ++
          (["a.html"] : List String).filterMap (cleanOf "u")) ∧
      (scrapePage ⟨{ host := "ex.com".data }, 1⟩
        (fun _ => some ⟨["a.html"], []⟩) "u" initState).1 =
        some ((["a.html"] : List String).filterMap (candOf "ex.com".data "u") ++
          (["a.html"] : List String).filterMap (candOf "ex.com".data "u"))) ∧
    (∀ u, ((scrapePage ⟨{ host := "ex.com".data }, 1⟩
        (fun _ => some ⟨["a.html"], []⟩) "u" initState).2.links).count u ≤ 1) ∧
    ((runScraper ⟨{ host := "ex.com".data }, 1⟩
        (fun _ => some ⟨["a.html"], []⟩) "u").fetched).Nodup :=
  ⟨anchor_pass_duplicated.1 ⟨{ host := "ex.com".data }, 1⟩
      (fun _ => some ⟨["a.html"], []⟩) "u" ⟨["a.html"], []⟩ initState rfl rfl,
   anchor_pass_duplicated.2.1 ⟨{ host := "ex.com".data }, 1⟩
      (fun _ => some ⟨["a.html"], []⟩) "u" initState (by decide),
   anchor_pass_duplicated.2.2 ⟨{ host := "ex.com".data }, 1⟩
      (fun _ => some ⟨["a.html"], []⟩) "u"⟩

/-! ## Lemmas: the rejection condition of `normalizeURL` (claim C4) -/

theorem rejectedHref_iff (h : List Char) :
    rejectedHref h = true ↔
      (h = [] ∨ startsWithL h ['#'] = true ∨
        blockedPrefixes.any (startsWithL h) = true) := by
  unfold rejectedHref
  simp [Bool.or_eq_true, decide_eq_true_eq, or_assoc]

theorem urlToStringL_ne_nil (u : GoURL) (h : u.scheme ≠ []) :
    urlToStringL u ≠ [] := by
  unfold urlToStringL
  rw [if_pos h]
  cases hs : u.scheme with
  | nil => exact absurd hs h
  | cons c rest => simp

/-- The scheme of a resolved-and-cleaned record is never empty when the
base parsed with a nonempty scheme. -/
theorem resolveReference_scheme (b l : GoURL) (hs : b.scheme ≠ []) :
    (resolveReference b l).scheme ≠ [] := by
  unfold resolveReference
  dsimp only
  split
  · by_cases hl : l.scheme = [] <;> simp [hl, hs]
  · split
    · by_cases hl : l.scheme = [] <;> simp [hl, hs]
    · by_cases hl : l.scheme = [] <;> simp [hl, hs]

/-- Claim C4 (counterexample): the source checks `javascript:`,
`mailto:`, `tel:`, `ftp:` and `file:` but not `data:`; a `data:` href is
not discarded — `normalizeURL` returns it unchanged, not the empty
string the claim requires. -/
theorem normalizeURL_keeps_data_scheme :
    normalizeURL "data:text/html,x" "https://ex.com/" = "data:text/html,x" ∧
    normalizeURL "data:text/html,x" "https://ex.com/" ≠ "" := by
  constructor
  · rfl
  · decide

/-- Claim C4 (amended): for any base URL that parses with a nonempty
scheme (as every page URL the crawler passes does), `normalizeURL`
returns the empty string (link discarded) exactly when the trimmed href
is empty, is a bare fragment starting with `#`, uses one of the
non-navigable scheme prefixes `javascript:`, `mailto:`, `tel:`, `ftp:`,
`file:` — `data:` is not in the source's list — or fails to parse as a
URL. -/
theorem normalizeURL_none_iff (href base : String) (b : GoURL)
    (hb : parseURLL base.data = some b) (hs : b.scheme ≠ []) :
    normalizeURL href base = "" ↔
      (trimL href.data = [] ∨ startsWithL (trimL href.data) ['#'] = true ∨
        blockedPrefixes.any (startsWithL (trimL href.data)) = true ∨
        parseURLL (trimL href.data) = none) := by
  have hempty : ∀ l : List Char, (String.mk l = "") ↔ l = [] := by
    intro l
    constructor
    · intro h
      exact congrArg String.data h
    · intro h
      rw [h]
  unfold normalizeURL
  rw [hempty]
  unfold normalizeURLL normalizeRecord
  dsimp only
  by_cases hrej : rejectedHref (trimL href.data) = true
  · rw [if_pos hrej]
    simp only [true_iff]
    rcases (rejectedHref_iff _).mp hrej with h | h | h
    · exact Or.inl h
    · exact Or.inr (Or.inl h)
    · exact Or.inr (Or.inr (Or.inl h))
  · rw [if_neg hrej, hb]
    cases hl : parseURLL (trimL href.data) with
    | none => simp
    | some l =>
      dsimp only
      constructor
      · intro hcontra
        exact absurd hcontra
          (urlToStringL_ne_nil _ (by exact resolveReference_scheme b l hs))
      · intro h
        rcases h with h | h | h | h
        · exact absurd ((rejectedHref_iff _).mpr (Or.inl h)) hrej
        · exact absurd ((rejectedHref_iff _).mpr (Or.inr (Or.inl h))) hrej
        · exact absurd ((rejectedHref_iff _).mpr (Or.inr (Or.inr h))) hrej
        · cases h

/-- Claim C4 (witness): the amended equivalence at a whitespace href and
at the base `https://ex.com/`; the href trims to empty, and the result
is indeed empty. -/
theorem normalizeURL_none_iff_witness :
    normalizeURL "  " "https://ex.com/" = "" ↔
      (trimL ("  " : String).data = [] ∨
        startsWithL (trimL ("  " : String).data) ['#'] = true ∨
        blockedPrefixes.any (startsWithL (trimL ("  " : String).data)) = true ∨
        parseURLL (trimL ("  " : String).data) = none) :=
  normalizeURL_none_iff "  " "https://ex.com/"
    { scheme := "https".data, host := "ex.com".data, path := "/".data }
    rfl (by decide)

/-! ## Lemmas: query escaping and encoding (claims C5, C7) -/

theorem hexVal_hexDigitChar : ∀ n < 16, hexVal (hexDigitChar n) = some n := by decide

theorem queryKeep_of_ge (c : Char) (h : 0x80 ≤ c.toNat) : queryKeep c = true := by
  unfold queryKeep
  simp only [Bool.or_eq_true, decide_eq_true_eq]
  exact Or.inr h

/-- Clean unfolding of `unescapeQ` on a cons cell. -/
theorem unescapeQ_cons (c : Char) (l : List Char) :
    unescapeQ (c :: l) =
      if c = '+' then (unescapeQ l).map (' ' :: ·)
      else if c = '%' then
        match l with
        | h₁ :: h₂ :: rest' =>
          match hexVal h₁, hexVal h₂ with
          | some v₁, some v₂ => (unescapeQ rest').map (Char.ofNat (16 * v₁ + v₂) :: ·)
          | _, _ => none
        | _ => none
      else (unescapeQ l).map (c :: ·) := by
  match l with
  | [] => rfl
  | [x] => rfl
  | x :: y :: rest => rfl

theorem unescapeQ_escapeQ (l : List Char) : unescapeQ (escapeQ l) = some l := by
  induction l with
  | nil => rfl
  | cons c rest ih =>
    simp only [escapeQ, List.flatMap_cons] at *
    by_cases hk : queryKeep c
    · rw [if_pos hk]
      have hplus : ¬ c = '+' := fun h => by rw [h] at hk; exact absurd hk (by decide)
      have hpct : ¬ c = '%' := fun h => by rw [h] at hk; exact absurd hk (by decide)
      show unescapeQ (c :: _) = _
      rw [unescapeQ_cons, if_neg hplus, if_neg hpct]
      simp only [List.append_eq, List.nil_append]
      rw [ih]
      rfl
    · rw [if_neg hk]
      by_cases hsp : c = ' '
      · rw [if_pos hsp]
        show unescapeQ ('+' :: _) = _
        rw [unescapeQ_cons, if_pos rfl]
        simp only [List.append_eq, List.nil_append]
        rw [ih, hsp]
        rfl
      · rw [if_neg hsp]
        have hlt : c.toNat < 128 := by
          by_contra hge
          exact hk (queryKeep_of_ge c (by omega))
        show unescapeQ ('%' :: hexDigitChar (c.toNat / 16) :: hexDigitChar (c.toNat % 16)
          :: _) = _
        rw [unescapeQ_cons, if_neg (by decide), if_pos rfl]
        dsimp only
        rw [hexVal_hexDigitChar (c.toNat / 16) (by omega),
          hexVal_hexDigitChar (c.toNat % 16) (by omega)]
        dsimp only
        simp only [List.append_eq, List.nil_append]
        rw [ih]
        show some (Char.ofNat (16 * (c.toNat / 16) + c.toNat % 16) :: rest) = _
        rw [Nat.div_add_mod c.toNat 16]
        rw [show Char.ofNat c.toNat = c from Char.ofNat_toNat c]

/-- Every character of an escaped query component is either a kept
character, a `+`, a `%`, or a hexadecimal digit character. -/
theorem escapeQ_not_mem (l : List Char) (c₀ : Char) (h1 : queryKeep c₀ = false)
    (h2 : ¬ c₀ = '+') (h3 : ¬ c₀ = '%')
    (h4 : ∀ n < 16, ¬ c₀ = hexDigitChar n) : c₀ ∉ escapeQ l := by
  intro hmem
  unfold escapeQ at hmem
  obtain ⟨c, _, hc⟩ := List.mem_flatMap.mp hmem
  by_cases hk : queryKeep c
  · rw [if_pos hk] at hc
    simp at hc
    rw [hc] at h1
    rw [h1] at hk
    cases hk
  · rw [if_neg hk] at hc
    by_cases hsp : c = ' '
    · rw [if_pos hsp] at hc
      simp at hc
      exact h2 hc
    · rw [if_neg hsp] at hc
      have hlt : c.toNat < 128 := by
        by_contra hge
        exact hk (queryKeep_of_ge c (by omega))
      unfold pctEnc at hc
      simp only [List.mem_cons, List.not_mem_nil, or_false] at hc
      rcases hc with hc | hc | hc
      · exact h3 hc
      · exact h4 (c.toNat / 16) (by omega) hc
      · exact h4 (c.toNat % 16) (by omega) hc

theorem amp_not_mem_escapeQ (l : List Char) : '&' ∉ escapeQ l :=
  escapeQ_not_mem l '&' (by decide) (by decide) (by decide) (by decide)

theorem eq_not_mem_escapeQ (l : List Char) : '=' ∉ escapeQ l :=
  escapeQ_not_mem l '=' (by decide) (by decide) (by decide) (by decide)

theorem semi_not_mem_escapeQ (l : List Char) : ';' ∉ escapeQ l :=
  escapeQ_not_mem l ';' (by decide) (by decide) (by decide) (by decide)

theorem query_not_mem_escapeQ (l : List Char) : '?' ∉ escapeQ l :=
  escapeQ_not_mem l '?' (by decide) (by decide) (by decide) (by decide)

theorem hash_not_mem_escapeQ (l : List Char) : '#' ∉ escapeQ l :=
  escapeQ_not_mem l '#' (by decide) (by decide) (by decide) (by decide)

/-! ### cut, split and join -/

theorem cutListAt_not_mem (c : Char) (l : List Char) (h : c ∉ l) :
    cutListAt c l = (l, []) := by
  induction l with
  | nil => rfl
  | cons x xs ih =>
    rw [cutListAt, if_neg (by intro hxc; exact h (by rw [hxc]; exact List.mem_cons_self _ _)),
      ih (fun hm => h (List.mem_cons_of_mem _ hm))]

theorem cutListAt_append_sep (c : Char) (xs ys : List Char) (h : c ∉ xs) :
    cutListAt c (xs ++ c :: ys) = (xs, ys) := by
  induction xs with
  | nil => simp [cutListAt]
  | cons x rest ih =>
    rw [List.cons_append, cutListAt,
      if_neg (by intro hxc; exact h (by rw [hxc]; exact List.mem_cons_self _ _)),
      ih (fun hm => h (List.mem_cons_of_mem _ hm))]

theorem splitOnCharL_not_mem (c : Char) (l : List Char) (h : c ∉ l) :
    splitOnCharL c l = [l] := by
  induction l with
  | nil => rfl
  | cons x xs ih =>
    rw [splitOnCharL,
      ih (fun hm => h (List.mem_cons_of_mem _ hm))]
    rw [if_neg (by intro hxc; exact h (by rw [hxc]; exact List.mem_cons_self _ _))]
    rfl

theorem splitOnCharL_append_sep (c : Char) (xs ys : List Char) (h : c ∉ xs) :
    splitOnCharL c (xs ++ c :: ys) = xs :: splitOnCharL c ys := by
  induction xs with
  | nil =>
    rw [List.nil_append, splitOnCharL, if_pos rfl]
  | cons x rest ih =>
    rw [List.cons_append, splitOnCharL,
      ih (fun hm => h (List.mem_cons_of_mem _ hm)),
      if_neg (by intro hxc; exact h (by rw [hxc]; exact List.mem_cons_self _ _))]
    rfl

theorem joinCharL_cons_cons (c : Char) (s t : List Char) (rest : List (List Char)) :
    joinCharL c (s :: t :: rest) = s ++ c :: joinCharL c (t :: rest) := rfl

/-! ### sorting of query pairs -/

theorem charToNat_inj (x y : Char) (h : x.toNat = y.toNat) : x = y := by
  apply Char.eq_of_val_eq
  apply UInt32.eq_of_val_eq
  exact Fin.eq_of_val_eq h

theorem keyLE_total (a : List Char) : ∀ b, keyLE a b = true ∨ keyLE b a = true := by
  induction a with
  | nil => intro b; exact Or.inl rfl
  | cons x xs ih =>
    intro b
    cases b with
    | nil => exact Or.inr rfl
    | cons y ys =>
      simp only [keyLE, Bool.or_eq_true, Bool.and_eq_true, decide_eq_true_eq, beq_iff_eq]
      rcases Nat.lt_trichotomy x.toNat y.toNat with h | h | h
      · exact Or.inl (Or.inl h)
      · have hxy : x = y := charToNat_inj x y h
        rcases ih ys with h2 | h2
        · exact Or.inl (Or.inr ⟨hxy, h2⟩)
        · exact Or.inr (Or.inr ⟨hxy.symm, h2⟩)
      · exact Or.inr (Or.inl h)

theorem keyLE_trans (a : List Char) :
    ∀ b c, keyLE a b = true → keyLE b c = true → keyLE a c = true := by
  induction a with
  | nil => intro b c _ _; rfl
  | cons x xs ih =>
    intro b c hab hbc
    cases b with
    | nil => simp [keyLE] at hab
    | cons y ys =>
      cases c with
      | nil => simp [keyLE] at hbc
      | cons z zs =>
        simp only [keyLE, Bool.or_eq_true, Bool.and_eq_true, decide_eq_true_eq,
          beq_iff_eq] at hab hbc ⊢
        rcases hab with hab | ⟨hxy, hab⟩
        · rcases hbc with hbc | ⟨hyz, hbc⟩
          · exact Or.inl (by omega)
          · exact Or.inl (hyz ▸ hab)
        · rcases hbc with hbc | ⟨hyz, hbc⟩
          · exact Or.inl (hxy ▸ hbc)
          · exact Or.inr ⟨hxy.trans hyz, ih ys zs hab hbc⟩


theorem mem_insertPair (p a : List Char × List Char) :
    ∀ l, a ∈ insertPair p l ↔ a = p ∨ a ∈ l := by
  intro l
  induction l with
  | nil => simp [insertPair]
  | cons q qs ih =>
    rw [insertPair]
    split
    · simp only [List.mem_cons]
    · simp only [List.mem_cons, ih]
      tauto

theorem pairwise_insertPair (p : List Char × List Char) :
    ∀ l, l.Pairwise pairLE → (insertPair p l).Pairwise pairLE := by
  intro l
  induction l with
  | nil => intro _; simp [insertPair, pairLE]
  | cons q qs ih =>
    intro h
    rcases List.pairwise_cons.mp h with ⟨hq, hqs⟩
    rw [insertPair]
    split
    · next hle =>
      refine List.pairwise_cons.mpr ⟨?_, h⟩
      intro x hx
      rcases List.mem_cons.mp hx with rfl | hx
      · exact hle
      · exact keyLE_trans _ _ _ hle (hq x hx)
    · next hle =>
      refine List.pairwise_cons.mpr ⟨?_, ih hqs⟩
      intro x hx
      rcases (mem_insertPair p x qs).mp hx with rfl | hx
      · rcases keyLE_total x.1 q.1 with h2 | h2
        · exact absurd h2 hle
        · exact h2
      · exact hq x hx

theorem pairwise_sortPairs (l : List (List Char × List Char)) :
    (sortPairs l).Pairwise pairLE := by
  induction l with
  | nil => simp [sortPairs]
  | cons p rest ih => exact pairwise_insertPair p _ ih

theorem mem_sortPairs (a : List Char × List Char) (l : List (List Char × List Char)) :
    a ∈ sortPairs l ↔ a ∈ l := by
  induction l with
  | nil => simp [sortPairs]
  | cons p rest ih =>
    show a ∈ insertPair p (sortPairs rest) ↔ _
    rw [mem_insertPair, ih]
    simp

theorem insertPair_of_le (p : List Char × List Char) (l : List (List Char × List Char))
    (h : ∀ x ∈ l, keyLE p.1 x.1 = true) : insertPair p l = p :: l := by
  cases l with
  | nil => rfl
  | cons q qs =>
    rw [insertPair, if_pos (h q (List.mem_cons_self _ _))]

/-- A key-sorted pair list is a fixed point of the stable sort. -/
theorem sortPairs_of_pairwise (l : List (List Char × List Char))
    (h : l.Pairwise pairLE) : sortPairs l = l := by
  induction l with
  | nil => rfl
  | cons p rest ih =>
    rcases List.pairwise_cons.mp h with ⟨hp, hrest⟩
    show insertPair p (sortPairs rest) = _
    rw [ih hrest, insertPair_of_le p rest hp]

/-! ### parse-of-encode round trip -/


/-- Decoding one serialized pair inside `parseQueryL`. -/
theorem parseQueryL_comp_enc (kv : List Char × List Char)
    (acc : List (List Char × List Char)) :
    (if (encPair kv).contains ';' then acc
      else if encPair kv = [] then acc
      else
        match unescapeQ (cutListAt '=' (encPair kv)).1,
            unescapeQ (cutListAt '=' (encPair kv)).2 with
        | some k, some v => (k, v) :: acc
        | _, _ => acc) = kv :: acc := by
  have hsemi : (encPair kv).contains ';' = false := by
    simp only [List.contains, List.elem_eq_mem, decide_eq_false_iff_not]
    intro hm
    rcases List.mem_append.mp hm with hm | hm
    · exact semi_not_mem_escapeQ _ hm
    · rcases List.mem_cons.mp hm with hm | hm
      · cases hm
      · exact semi_not_mem_escapeQ _ hm
  rw [hsemi]
  simp only [Bool.false_eq_true, if_false]
  rw [if_neg (by simp [encPair])]
  rw [show cutListAt '=' (encPair kv) = (escapeQ kv.1, escapeQ kv.2) from
    cutListAt_append_sep '=' _ _ (eq_not_mem_escapeQ _)]
  rw [unescapeQ_escapeQ, unescapeQ_escapeQ]

theorem amp_not_mem_encPair (kv : List Char × List Char) : '&' ∉ encPair kv := by
  intro hm
  rcases List.mem_append.mp hm with hm | hm
  · exact amp_not_mem_escapeQ _ hm
  · rcases List.mem_cons.mp hm with hm | hm
    · cases hm
    · exact amp_not_mem_escapeQ _ hm

theorem parseQueryL_join_enc (pairs : List (List Char × List Char)) :
    parseQueryL (joinCharL '&' (pairs.map encPair)) = pairs := by
  induction pairs with
  | nil => rfl
  | cons kv rest ih =>
    cases rest with
    | nil =>
      show parseQueryL (joinCharL '&' [encPair kv]) = [kv]
      unfold parseQueryL
      rw [show joinCharL '&' [encPair kv] = encPair kv from rfl,
        splitOnCharL_not_mem '&' _ (amp_not_mem_encPair kv)]
      rw [List.foldr_cons, List.foldr_nil]
      exact parseQueryL_comp_enc kv []
    | cons r rs =>
      show parseQueryL (joinCharL '&' (encPair kv :: encPair r :: rs.map encPair)) = _
      rw [joinCharL_cons_cons]
      unfold parseQueryL
      rw [splitOnCharL_append_sep '&' _ _ (amp_not_mem_encPair kv), List.foldr_cons]
      have ih2 := ih
      unfold parseQueryL at ih2
      rw [show (encPair r :: rs.map encPair) = (r :: rs).map encPair from rfl, ih2]
      exact parseQueryL_comp_enc kv (r :: rs)

/-- `ParseQuery` of `Values.Encode` output recovers the sorted pairs. -/
theorem parseQueryL_encodeQueryL (pairs : List (List Char × List Char)) :
    parseQueryL (encodeQueryL pairs) = sortPairs pairs := by
  unfold encodeQueryL
  rw [show (fun kv : List Char × List Char => escapeQ kv.1 ++ '=' :: escapeQ kv.2) =
    encPair from rfl]
  exact parseQueryL_join_enc (sortPairs pairs)

/-! ### the tracking filter -/

theorem mem_filterTracking (tps : List (List Char)) :
    ∀ (ps : List (List Char × List Char)) kv,
      kv ∈ tps.foldl (fun q p => q.filter fun kv => ¬ kv.1 = p) ps →
        kv ∈ ps ∧ ∀ p ∈ tps, ¬ kv.1 = p := by
  induction tps with
  | nil =>
    intro ps kv h
    exact ⟨h, by simp⟩
  | cons t rest ih =>
    intro ps kv h
    rw [List.foldl_cons] at h
    obtain ⟨hmem, hrest⟩ := ih _ kv h
    obtain ⟨hps, ht⟩ := List.mem_filter.mp hmem
    refine ⟨hps, ?_⟩
    intro p hp
    rcases List.mem_cons.mp hp with rfl | hp
    · simpa using ht
    · exact hrest p hp

theorem filterTracking_of_not_mem (tps : List (List Char)) :
    ∀ (ps : List (List Char × List Char)),
      (∀ kv ∈ ps, ∀ p ∈ tps, ¬ kv.1 = p) →
        tps.foldl (fun q p => q.filter fun kv => ¬ kv.1 = p) ps = ps := by
  induction tps with
  | nil => intro ps _; rfl
  | cons t rest ih =>
    intro ps h
    rw [List.foldl_cons]
    have hfe : ps.filter (fun kv => ¬ kv.1 = t) = ps := by
      apply List.filter_eq_self.mpr
      intro kv hkv
      simpa using h kv hkv t (List.mem_cons_self _ _)
    rw [hfe]
    exact ih ps fun kv hkv p hp => h kv hkv p (List.mem_cons_of_mem _ hp)

/-- Claim C7: canonicalization strips the fragment and removes every
query parameter named `utm_source`, `utm_medium`, `utm_campaign`,
`utm_term`, `utm_content`, `fbclid` or `gclid`, re-serializing the
remaining parameters in a stable (key-sorted) order; in particular
`https://ex.com/page?utm_source=x&id=7#top` canonicalizes to
`https://ex.com/page?id=7`. -/
theorem canonicalize_strips_tracking :
    (∀ (href base : List Char) (u : GoURL), normalizeRecord href base = some u →
      u.fragment = [] ∧
      (∀ kv ∈ parseQueryL u.rawQuery, kv.1 ∉ trackingParams) ∧
      (parseQueryL u.rawQuery).Pairwise pairLE) ∧
    normalizeURL "https://ex.com/page?utm_source=x&id=7#top" "https://ex.com/page" =
      "https://ex.com/page?id=7" := by
  constructor
  · intro href base u h
    unfold normalizeRecord at h
    dsimp only at h
    split at h
    · cases h
    · split at h
      · cases h
      · split at h
        · cases h
        · cases h
          refine ⟨rfl, ?_, ?_⟩
          · intro kv hkv
            dsimp only at hkv
            rw [parseQueryL_encodeQueryL] at hkv
            have hmem := (mem_sortPairs kv _).mp hkv
            obtain ⟨_, hnp⟩ := mem_filterTracking trackingParams _ kv hmem
            intro hin
            exact hnp kv.1 hin rfl
          · dsimp only
            rw [parseQueryL_encodeQueryL]
            exact pairwise_sortPairs _
  · rfl

/-- Claim C7 (witness): the general tracking-stripping property at the
concrete href `p?utm_source=1&b=2#f` against base `https://ex.com/`,
whose canonical record is `https://ex.com/p?b=2` with empty fragment. -/
theorem canonicalize_strips_tracking_witness :
    ([] : List Char) = [] ∧
    (∀ kv ∈ parseQueryL "b=2".data, kv.1 ∉ trackingParams) ∧
    (parseQueryL "b=2".data).Pairwise pairLE :=
  canonicalize_strips_tracking.1 "p?utm_source=1&b=2#f".data "https://ex.com/".data
    { scheme := "https".data, host := "ex.com".data, path := "/p".data,
      rawQuery := "b=2".data, fragment := [] } rfl

/-! ## Lemmas: list structure of cut, span, split and join (claim C5) -/

theorem cutListAt_fst_subset (c : Char) :
    ∀ l, ∀ x ∈ (cutListAt c l).1, x ∈ l := by
  intro l
  induction l with
  | nil => intro x hx; cases hx
  | cons y ys ih =>
    intro x hx
    rw [cutListAt] at hx
    by_cases hyc : y = c
    · rw [if_pos hyc] at hx
      cases hx
    · rw [if_neg hyc] at hx
      rcases List.mem_cons.mp hx with rfl | hx
      · exact List.mem_cons_self _ _
      · exact List.mem_cons_of_mem _ (ih x hx)

theorem cutListAt_snd_subset (c : Char) :
    ∀ l, ∀ x ∈ (cutListAt c l).2, x ∈ l := by
  intro l
  induction l with
  | nil => intro x hx; cases hx
  | cons y ys ih =>
    intro x hx
    rw [cutListAt] at hx
    by_cases hyc : y = c
    · rw [if_pos hyc] at hx
      exact List.mem_cons_of_mem _ hx
    · rw [if_neg hyc] at hx
      exact List.mem_cons_of_mem _ (ih x hx)

theorem cutListAt_fst_not_mem (c : Char) :
    ∀ l, c ∉ (cutListAt c l).1 := by
  intro l
  induction l with
  | nil => intro hx; cases hx
  | cons y ys ih =>
    intro hx
    rw [cutListAt] at hx
    by_cases hyc : y = c
    · rw [if_pos hyc] at hx
      cases hx
    · rw [if_neg hyc] at hx
      rcases List.mem_cons.mp hx with h | h
      · exact hyc h.symm
      · exact ih h

theorem spanToSlash_eq (l : List Char) :
    l = (parseURLL.spanToSlash l).1 ++ (parseURLL.spanToSlash l).2 ∧
    '/' ∉ (parseURLL.spanToSlash l).1 ∧
    ((parseURLL.spanToSlash l).2 = [] ∨
      ((parseURLL.spanToSlash l).2).head? = some '/') := by
  induction l with
  | nil => exact ⟨rfl, fun h => (List.not_mem_nil _) h, Or.inl rfl⟩
  | cons c cs ih =>
    rw [parseURLL.spanToSlash]
    by_cases hc : c = '/'
    · subst hc
      rw [if_pos rfl]
      exact ⟨rfl, fun h => (List.not_mem_nil _) h, Or.inr rfl⟩
    · rw [if_neg hc]
      obtain ⟨h1, h2, h3⟩ := ih
      refine ⟨?_, ?_, h3⟩
      · dsimp only
        rw [List.cons_append, ← h1]
      · dsimp only
        intro hmem
        rcases List.mem_cons.mp hmem with h | h
        · exact hc h.symm
        · exact h2 h

theorem headI_mem_of_ne_nil {α : Type} [Inhabited α] (l : List α) (h : l ≠ []) :
    l.headI ∈ l := by
  cases l with
  | nil => exact absurd rfl h
  | cons a rest => exact List.mem_cons_self _ _

theorem splitOnCharL_ne_nil (c : Char) : ∀ l, splitOnCharL c l ≠ [] := by
  intro l
  cases l with
  | nil => simp [splitOnCharL]
  | cons x xs =>
    rw [splitOnCharL]
    split
    · simp
    · simp

theorem splitOnCharL_sep_not_mem (c : Char) :
    ∀ l, ∀ seg ∈ splitOnCharL c l, c ∉ seg := by
  intro l
  induction l with
  | nil =>
    intro seg hseg
    rw [splitOnCharL] at hseg
    rcases List.mem_singleton.mp hseg with rfl
    simp
  | cons x xs ih =>
    intro seg hseg
    rw [splitOnCharL] at hseg
    by_cases hxc : x = c
    · rw [if_pos hxc] at hseg
      rcases List.mem_cons.mp hseg with rfl | h
      · simp
      · exact ih seg h
    · rw [if_neg hxc] at hseg
      rcases List.mem_cons.mp hseg with rfl | h
      · intro hmem
        rcases List.mem_cons.mp hmem with h | h
        · exact hxc h.symm
        · exact ih _ (headI_mem_of_ne_nil _ (splitOnCharL_ne_nil c xs)) h
      · exact ih seg (List.mem_of_mem_tail h)

theorem joinCharL_headI_tail (c : Char) (r : List (List Char)) (h : r ≠ []) :
    joinCharL c (r.headI :: r.tail) = joinCharL c r := by
  cases r with
  | nil => exact absurd rfl h
  | cons a rest => rfl

theorem joinCharL_splitOnCharL (c : Char) : ∀ l, joinCharL c (splitOnCharL c l) = l := by
  intro l
  induction l with
  | nil => rfl
  | cons x xs ih =>
    rw [splitOnCharL]
    by_cases hxc : x = c
    · rw [if_pos hxc]
      rw [show joinCharL c ([] :: splitOnCharL c xs) =
        [] ++ c :: joinCharL c (splitOnCharL c xs) from ?_]
      · rw [ih, List.nil_append, hxc]
      · cases hsp : splitOnCharL c xs with
        | nil => exact absurd hsp (splitOnCharL_ne_nil c xs)
        | cons a rest => rfl
    · rw [if_neg hxc]
      rw [show joinCharL c ((x :: (splitOnCharL c xs).headI) :: (splitOnCharL c xs).tail) =
        x :: joinCharL c ((splitOnCharL c xs).headI :: (splitOnCharL c xs).tail) from ?_]
      · rw [joinCharL_headI_tail c _ (splitOnCharL_ne_nil c xs), ih]
      · cases hsp : splitOnCharL c xs with
        | nil => exact absurd hsp (splitOnCharL_ne_nil c xs)
        | cons a rest =>
          cases rest with
          | nil => rfl
          | cons b more => rfl

theorem joinCharL_append_single (c : Char) (comps : List (List Char)) (d : List Char)
    (h : comps ≠ []) :
    joinCharL c (comps ++ [d]) = joinCharL c comps ++ c :: d := by
  induction comps with
  | nil => exact absurd rfl h
  | cons a rest ih =>
    cases rest with
    | nil => rfl
    | cons b more =>
      have h1 : (a :: b :: more) ++ [d] = a :: ((b :: more) ++ [d]) := rfl
      rw [h1]
      have h2 : joinCharL c (a :: ((b :: more) ++ [d])) =
          a ++ c :: joinCharL c ((b :: more) ++ [d]) := rfl
      rw [h2, ih (by simp), joinCharL_cons_cons]
      simp

theorem startsWithL_single_iff (l : List Char) (c : Char) :
    startsWithL l [c] = true ↔ l.head? = some c := by
  cases l with
  | nil => simp [startsWithL]
  | cons x xs =>
    rw [startsWithL]
    simp [startsWithL]

/-! ## Lemmas: character arithmetic for lower-casing (claim C5) -/

theorem char_toNat_ofNat (m : Nat) (h : m < 55296) : (Char.ofNat m).toNat = m := by
  rw [Char.ofNat, dif_pos (show m.isValidChar from Or.inl h), Char.ofNatAux]
  show (UInt32.ofNat' m _).toNat = m
  rw [UInt32.ofNat']
  simp [UInt32.toNat, BitVec.toNat_ofNatLt]

theorem char_eq_iff_toNat (c d : Char) : c = d ↔ c.toNat = d.toNat :=
  ⟨fun h => by rw [h], charToNat_inj c d⟩

theorem isUpper_iff (c : Char) : c.isUpper = true ↔ 65 ≤ c.toNat ∧ c.toNat ≤ 90 := by
  rw [Char.isUpper, Bool.and_eq_true, decide_eq_true_eq, decide_eq_true_eq,
    ge_iff_le, UInt32.le_def, UInt32.le_def]
  exact ⟨fun h => ⟨h.1, h.2⟩, fun h => ⟨h.1, h.2⟩⟩

theorem isLower_iff (c : Char) : c.isLower = true ↔ 97 ≤ c.toNat ∧ c.toNat ≤ 122 := by
  rw [Char.isLower, Bool.and_eq_true, decide_eq_true_eq, decide_eq_true_eq,
    ge_iff_le, UInt32.le_def, UInt32.le_def]
  exact ⟨fun h => ⟨h.1, h.2⟩, fun h => ⟨h.1, h.2⟩⟩

theorem isDigit_iff (c : Char) : c.isDigit = true ↔ 48 ≤ c.toNat ∧ c.toNat ≤ 57 := by
  rw [Char.isDigit, Bool.and_eq_true, decide_eq_true_eq, decide_eq_true_eq,
    ge_iff_le, UInt32.le_def, UInt32.le_def]
  exact ⟨fun h => ⟨h.1, h.2⟩, fun h => ⟨h.1, h.2⟩⟩

theorem isAlpha_iff (c : Char) :
    c.isAlpha = true ↔ (65 ≤ c.toNat ∧ c.toNat ≤ 90) ∨ (97 ≤ c.toNat ∧ c.toNat ≤ 122) := by
  rw [Char.isAlpha, Bool.or_eq_true, isUpper_iff, isLower_iff]

theorem isAlphanum_iff (c : Char) :
    c.isAlphanum = true ↔
      (65 ≤ c.toNat ∧ c.toNat ≤ 90) ∨ (97 ≤ c.toNat ∧ c.toNat ≤ 122) ∨
        (48 ≤ c.toNat ∧ c.toNat ≤ 57) := by
  rw [Char.isAlphanum, Bool.or_eq_true, isAlpha_iff, isDigit_iff]
  tauto

theorem toLower_toNat (c : Char) :
    (Char.toLower c).toNat =
      if 65 ≤ c.toNat ∧ c.toNat ≤ 90 then c.toNat + 32 else c.toNat := by
  rw [Char.toLower]
  split
  · next h => exact char_toNat_ofNat _ (by omega)
  · rfl

theorem toLower_toLower (c : Char) : Char.toLower (Char.toLower c) = Char.toLower c := by
  apply charToNat_inj
  rw [toLower_toNat (Char.toLower c), toLower_toNat c]
  by_cases h : 65 ≤ c.toNat ∧ c.toNat ≤ 90
  · rw [if_pos h, if_neg (by omega)]
  · rw [if_neg h, if_neg h]

theorem toLowerL_idem (l : List Char) : toLowerL (toLowerL l) = toLowerL l := by
  unfold toLowerL
  rw [List.map_map]
  exact List.map_congr_left fun c _ => toLower_toLower c

theorem isSchemeChar_iff (c : Char) :
    isSchemeChar c = true ↔
      (65 ≤ c.toNat ∧ c.toNat ≤ 90) ∨ (97 ≤ c.toNat ∧ c.toNat ≤ 122) ∨
        (48 ≤ c.toNat ∧ c.toNat ≤ 57) ∨ c.toNat = 43 ∨ c.toNat = 45 ∨ c.toNat = 46 := by
  rw [isSchemeChar]
  simp only [Bool.or_eq_true, beq_iff_eq, isAlphanum_iff, char_eq_iff_toNat]
  rw [show ('+').toNat = 43 from rfl, show ('-').toNat = 45 from rfl,
    show ('.').toNat = 46 from rfl]
  omega

theorem isSchemeHead_iff (c : Char) :
    isSchemeHead c = true ↔
      (65 ≤ c.toNat ∧ c.toNat ≤ 90) ∨ (97 ≤ c.toNat ∧ c.toNat ≤ 122) := by
  rw [isSchemeHead, isAlpha_iff]

theorem isSchemeChar_toLower (c : Char) (h : isSchemeChar c = true) :
    isSchemeChar (Char.toLower c) = true := by
  rw [isSchemeChar_iff] at h ⊢
  rw [toLower_toNat]
  split <;> omega

theorem isSchemeHead_toLower (c : Char) (h : isSchemeHead c = true) :
    isSchemeHead (Char.toLower c) = true := by
  rw [isSchemeHead_iff] at h ⊢
  rw [toLower_toNat]
  split <;> omega

theorem isSchemeHead_ne_colon (c : Char) (h : isSchemeHead c = true) : ¬ c = ':' := by
  rw [isSchemeHead_iff] at h
  intro hc
  rw [(char_eq_iff_toNat c ':').mp hc] at h
  revert h
  decide

theorem isSchemeChar_ne_colon (c : Char) (h : isSchemeChar c = true) : ¬ c = ':' := by
  rw [isSchemeChar_iff] at h
  intro hc
  rw [(char_eq_iff_toNat c ':').mp hc] at h
  revert h
  decide

theorem isSchemeChar_ne_sep (c : Char) (h : isSchemeChar c = true) :
    c.toNat ≠ 58 ∧ c.toNat ≠ 35 ∧ c.toNat ≠ 63 ∧ c.toNat ≠ 47 ∧
      ¬ isCtl c = true := by
  rw [isSchemeChar_iff] at h
  refine ⟨by omega, by omega, by omega, by omega, ?_⟩
  rw [isCtl]
  simp only [Bool.or_eq_true, decide_eq_true_eq, beq_iff_eq]
  omega

/-! ## Lemmas: the scheme scanner (claim C5) -/

theorem getSchemeL_go_spec (orig : List Char) (s : List Char)
    (hs : ∀ c ∈ s, isSchemeChar c = true) :
    ∀ (acc : List Char) (rest : List Char), acc ≠ [] →
      getSchemeL.go orig acc (s ++ ':' :: rest) = some (toLowerL (acc ++ s), rest) := by
  induction s with
  | nil =>
    intro acc rest hacc
    rw [List.nil_append, getSchemeL.go, if_pos rfl, if_neg hacc, List.append_nil]
  | cons c cs ih =>
    intro acc rest hacc
    have hchar : isSchemeChar c = true := hs c (List.mem_cons_self _ _)
    rw [List.cons_append, getSchemeL.go, if_neg (isSchemeChar_ne_colon c hchar)]
    rw [if_pos (by simp [hacc, hchar])]
    rw [ih (fun x hx => hs x (List.mem_cons_of_mem _ hx)) (acc ++ [c]) rest (by simp)]
    rw [List.append_assoc]
    rfl

theorem getSchemeL_of_SchemeInv (s rest : List Char) (h : SchemeInv s) :
    getSchemeL (s ++ ':' :: rest) = some (s, rest) := by
  cases s with
  | nil => cases h
  | cons c cs =>
    obtain ⟨hhead, hchars, hlow⟩ := h
    rw [getSchemeL, List.cons_append, getSchemeL.go,
      if_neg (isSchemeHead_ne_colon c hhead), if_pos (by simp [hhead])]
    simp only [List.nil_append]
    rw [getSchemeL_go_spec _ cs hchars [c] rest (by simp)]
    rw [show ([c] ++ cs) = c :: cs from rfl, hlow]

theorem getSchemeL_go_sound (orig : List Char) :
    ∀ (rem acc : List Char) (sch rest : List Char), (acc = [] ∨ AccInv acc) →
      getSchemeL.go orig acc rem = some (sch, rest) → sch = [] ∨ SchemeInv sch := by
  intro rem
  induction rem with
  | nil =>
    intro acc sch rest _ h
    rw [getSchemeL.go] at h
    cases h
    exact Or.inl rfl
  | cons c cs ih =>
    intro acc sch rest hacc h
    rw [getSchemeL.go] at h
    by_cases hc : c = ':'
    · rw [if_pos hc] at h
      cases acc with
      | nil =>
        rw [if_pos rfl] at h
        cases h
      | cons a as =>
        rw [if_neg (by simp)] at h
        cases h
        rcases hacc with hacc | hacc
        · cases hacc
        · obtain ⟨hh, ht⟩ := hacc
          refine Or.inr ?_
          show isSchemeHead (Char.toLower a) = true ∧ _ ∧ _
          refine ⟨isSchemeHead_toLower a hh, ?_, ?_⟩
          · intro x hx
            obtain ⟨y, hy, rfl⟩ := List.mem_map.mp hx
            exact isSchemeChar_toLower y (ht y hy)
          · exact toLowerL_idem (a :: as)
    · rw [if_neg hc] at h
      split at h
      · next hcond =>
        simp only [Bool.or_eq_true, Bool.and_eq_true, decide_eq_true_eq] at hcond
        refine ih (acc ++ [c]) sch rest ?_ h
        rcases hcond with ⟨hnil, hhead⟩ | ⟨hne, hchar⟩
        · rw [hnil]
          exact Or.inr ⟨hhead, by simp⟩
        · cases acc with
          | nil => exact absurd rfl hne
          | cons a as =>
            rcases hacc with hacc | ⟨hh, ht⟩
            · cases hacc
            · refine Or.inr ⟨hh, ?_⟩
              intro x hx
              rcases List.mem_append.mp hx with hx | hx
              · exact ht x hx
              · rw [List.mem_singleton.mp hx]
                exact hchar
      · cases h
        exact Or.inl rfl

theorem getSchemeL_sound (l sch rest : List Char)
    (h : getSchemeL l = some (sch, rest)) : sch = [] ∨ SchemeInv sch := by
  rw [getSchemeL] at h
  exact getSchemeL_go_sound l l [] sch rest (Or.inl rfl) h

theorem getSchemeL_no_scheme (c : Char) (cs : List Char) (hc : ¬ c = ':')
    (hh : isSchemeHead c = false) : getSchemeL (c :: cs) = some ([], c :: cs) := by
  rw [getSchemeL, getSchemeL.go, if_neg hc, if_neg (by simp [hh])]

/-! ## Lemmas: the escape keep sets as arithmetic ranges (claim C5) -/

theorem isUnreserved_iff (c : Char) :
    isUnreserved c = true ↔
      (65 ≤ c.toNat ∧ c.toNat ≤ 90) ∨ (97 ≤ c.toNat ∧ c.toNat ≤ 122) ∨
        (48 ≤ c.toNat ∧ c.toNat ≤ 57) ∨ c.toNat = 45 ∨ c.toNat = 95 ∨
        c.toNat = 46 ∨ c.toNat = 126 := by
  rw [isUnreserved]
  simp only [Bool.or_eq_true, beq_iff_eq, isAlphanum_iff, char_eq_iff_toNat]
  rw [show ('-').toNat = 45 from rfl, show ('_').toNat = 95 from rfl,
    show ('.').toNat = 46 from rfl, show ('~').toNat = 126 from rfl]
  omega

theorem queryKeep_iff (c : Char) :
    queryKeep c = true ↔
      (65 ≤ c.toNat ∧ c.toNat ≤ 90) ∨ (97 ≤ c.toNat ∧ c.toNat ≤ 122) ∨
        (48 ≤ c.toNat ∧ c.toNat ≤ 57) ∨ c.toNat = 45 ∨ c.toNat = 95 ∨
        c.toNat = 46 ∨ c.toNat = 126 ∨ 128 ≤ c.toNat := by
  rw [queryKeep]
  simp only [Bool.or_eq_true, decide_eq_true_eq, isUnreserved_iff]
  omega

theorem pathKeep_iff (c : Char) :
    pathKeep c = true ↔
      (65 ≤ c.toNat ∧ c.toNat ≤ 90) ∨ (97 ≤ c.toNat ∧ c.toNat ≤ 122) ∨
        (48 ≤ c.toNat ∧ c.toNat ≤ 57) ∨ c.toNat = 45 ∨ c.toNat = 95 ∨
        c.toNat = 46 ∨ c.toNat = 126 ∨ c.toNat = 36 ∨ c.toNat = 38 ∨
        c.toNat = 43 ∨ c.toNat = 44 ∨ c.toNat = 47 ∨ c.toNat = 58 ∨
        c.toNat = 59 ∨ c.toNat = 61 ∨ c.toNat = 64 ∨ c.toNat = 33 ∨
        c.toNat = 39 ∨ c.toNat = 40 ∨ c.toNat = 41 ∨ c.toNat = 42 ∨
        c.toNat = 91 ∨ c.toNat = 93 ∨ c.toNat = 37 ∨ 128 ≤ c.toNat := by
  rw [pathKeep]
  simp only [Bool.or_eq_true, decide_eq_true_eq, beq_iff_eq, isUnreserved_iff,
    char_eq_iff_toNat]
  rw [show ('$').toNat = 36 from rfl, show ('&').toNat = 38 from rfl,
    show ('+').toNat = 43 from rfl, show (',').toNat = 44 from rfl,
    show ('/').toNat = 47 from rfl, show (':').toNat = 58 from rfl,
    show (';').toNat = 59 from rfl, show ('=').toNat = 61 from rfl,
    show ('@').toNat = 64 from rfl, show ('!').toNat = 33 from rfl,
    show ('\'').toNat = 39 from rfl, show ('(').toNat = 40 from rfl,
    show (')').toNat = 41 from rfl, show ('*').toNat = 42 from rfl,
    show ('[').toNat = 91 from rfl, show (']').toNat = 93 from rfl,
    show ('%').toNat = 37 from rfl]
  omega

theorem hostKeep_iff (c : Char) :
    hostKeep c = true ↔
      (65 ≤ c.toNat ∧ c.toNat ≤ 90) ∨ (97 ≤ c.toNat ∧ c.toNat ≤ 122) ∨
        (48 ≤ c.toNat ∧ c.toNat ≤ 57) ∨ c.toNat = 45 ∨ c.toNat = 95 ∨
        c.toNat = 46 ∨ c.toNat = 126 ∨ c.toNat = 33 ∨ c.toNat = 36 ∨
        c.toNat = 38 ∨ c.toNat = 39 ∨ c.toNat = 40 ∨ c.toNat = 41 ∨
        c.toNat = 42 ∨ c.toNat = 43 ∨ c.toNat = 44 ∨ c.toNat = 59 ∨
        c.toNat = 61 ∨ c.toNat = 58 ∨ c.toNat = 91 ∨ c.toNat = 93 ∨
        c.toNat = 60 ∨ c.toNat = 62 ∨ c.toNat = 34 ∨ c.toNat = 64 ∨
        c.toNat = 37 ∨ 128 ≤ c.toNat := by
  rw [hostKeep]
  simp only [Bool.or_eq_true, decide_eq_true_eq, beq_iff_eq, isUnreserved_iff,
    char_eq_iff_toNat]
  rw [show ('!').toNat = 33 from rfl, show ('$').toNat = 36 from rfl,
    show ('&').toNat = 38 from rfl, show ('\'').toNat = 39 from rfl,
    show ('(').toNat = 40 from rfl, show (')').toNat = 41 from rfl,
    show ('*').toNat = 42 from rfl, show ('+').toNat = 43 from rfl,
    show (',').toNat = 44 from rfl, show (';').toNat = 59 from rfl,
    show ('=').toNat = 61 from rfl, show (':').toNat = 58 from rfl,
    show ('[').toNat = 91 from rfl, show (']').toNat = 93 from rfl,
    show ('<').toNat = 60 from rfl, show ('>').toNat = 62 from rfl,
    show ('"').toNat = 34 from rfl, show ('@').toNat = 64 from rfl,
    show ('%').toNat = 37 from rfl]
  omega

theorem hexDigitChar_toNat (n : Nat) (h : n < 16) :
    (48 ≤ (hexDigitChar n).toNat ∧ (hexDigitChar n).toNat ≤ 57) ∨
      (65 ≤ (hexDigitChar n).toNat ∧ (hexDigitChar n).toNat ≤ 70) := by
  revert n h
  decide

/-- Characters of a generic escaped component: every character is either
a kept input character or belongs to `%` plus hexadecimal digits. -/
theorem mem_escGen (keep : Char → Bool) (l : List Char) (c' : Char)
    (hbig : ∀ c : Char, 128 ≤ c.toNat → keep c = true)
    (h : c' ∈ l.flatMap fun c => if keep c then [c] else pctEnc c) :
    (keep c' = true ∧ c' ∈ l) ∨ c' = '%' ∨
      (48 ≤ c'.toNat ∧ c'.toNat ≤ 57) ∨ (65 ≤ c'.toNat ∧ c'.toNat ≤ 70) := by
  obtain ⟨c, hc, hmem⟩ := List.mem_flatMap.mp h
  by_cases hk : keep c
  · rw [if_pos hk] at hmem
    rcases List.mem_singleton.mp hmem with rfl
    exact Or.inl ⟨hk, hc⟩
  · rw [if_neg hk] at hmem
    have hlt : c.toNat < 128 := by
      by_contra hge
      exact hk (hbig c (by omega))
    unfold pctEnc at hmem
    simp only [List.mem_cons, List.not_mem_nil, or_false] at hmem
    rcases hmem with rfl | rfl | rfl
    · exact Or.inr (Or.inl rfl)
    · rcases hexDigitChar_toNat (c.toNat / 16) (by omega) with h2 | h2
      · exact Or.inr (Or.inr (Or.inl h2))
      · exact Or.inr (Or.inr (Or.inr h2))
    · rcases hexDigitChar_toNat (c.toNat % 16) (by omega) with h2 | h2
      · exact Or.inr (Or.inr (Or.inl h2))
      · exact Or.inr (Or.inr (Or.inr h2))

theorem pathKeep_big (c : Char) (h : 128 ≤ c.toNat) : pathKeep c = true := by
  rw [pathKeep_iff]
  omega

theorem hostKeep_big (c : Char) (h : 128 ≤ c.toNat) : hostKeep c = true := by
  rw [hostKeep_iff]
  omega

theorem queryKeep_big (c : Char) (h : 128 ≤ c.toNat) : queryKeep c = true := by
  rw [queryKeep_iff]
  omega

/-- Characters of `pathEsc` output all lie in the path keep set. -/
theorem pathEsc_chars (l : List Char) : ∀ c' ∈ pathEsc l, pathKeep c' = true := by
  intro c' hm
  rcases mem_escGen pathKeep l c' pathKeep_big hm with ⟨hk, _⟩ | h | h | h
  · exact hk
  · rw [h]; decide
  · rw [pathKeep_iff]; omega
  · rw [pathKeep_iff]; omega

theorem hostEsc_chars (l : List Char) : ∀ c' ∈ hostEsc l, hostKeep c' = true := by
  intro c' hm
  rcases mem_escGen hostKeep l c' hostKeep_big hm with ⟨hk, _⟩ | h | h | h
  · exact hk
  · rw [h]; decide
  · rw [hostKeep_iff]; omega
  · rw [hostKeep_iff]; omega

theorem hash_not_mem_pathEsc (l : List Char) : '#' ∉ pathEsc l := by
  intro hm
  have := pathEsc_chars l '#' hm
  revert this
  decide

theorem query_not_mem_pathEsc (l : List Char) : '?' ∉ pathEsc l := by
  intro hm
  have := pathEsc_chars l '?' hm
  revert this
  decide

theorem hash_not_mem_hostEsc (l : List Char) : '#' ∉ hostEsc l := by
  intro hm
  have := hostEsc_chars l '#' hm
  revert this
  decide

theorem query_not_mem_hostEsc (l : List Char) : '?' ∉ hostEsc l := by
  intro hm
  have := hostEsc_chars l '?' hm
  revert this
  decide

theorem slash_not_mem_hostEsc (l : List Char) : '/' ∉ hostEsc l := by
  intro hm
  have := hostEsc_chars l '/' hm
  revert this
  decide

theorem pathEsc_not_ctl (l : List Char) : ∀ c' ∈ pathEsc l, isCtl c' = false := by
  intro c' hm
  have := (pathKeep_iff c').mp (pathEsc_chars l c' hm)
  rw [isCtl]
  simp only [Bool.or_eq_false_iff, decide_eq_false_iff_not, beq_eq_false_iff_ne, ne_eq]
  omega

theorem hostEsc_not_ctl (l : List Char) : ∀ c' ∈ hostEsc l, isCtl c' = false := by
  intro c' hm
  have := (hostKeep_iff c').mp (hostEsc_chars l c' hm)
  rw [isCtl]
  simp only [Bool.or_eq_false_iff, decide_eq_false_iff_not, beq_eq_false_iff_ne, ne_eq]
  omega

theorem escapeQ_not_ctl (l : List Char) : ∀ c' ∈ escapeQ l, isCtl c' = false := by
  intro c' hm
  unfold escapeQ at hm
  obtain ⟨c, _, hmem⟩ := List.mem_flatMap.mp hm
  by_cases hk : queryKeep c
  · rw [if_pos hk] at hmem
    rcases List.mem_singleton.mp hmem with rfl
    have := (queryKeep_iff c').mp hk
    rw [isCtl]
    simp only [Bool.or_eq_false_iff, decide_eq_false_iff_not, beq_eq_false_iff_ne, ne_eq]
    omega
  · rw [if_neg hk] at hmem
    by_cases hsp : c = ' '
    · rw [if_pos hsp] at hmem
      rcases List.mem_singleton.mp hmem with rfl
      decide
    · rw [if_neg hsp] at hmem
      have hlt : c.toNat < 128 := by
        by_contra hge
        exact hk (queryKeep_of_ge c (by omega))
      unfold pctEnc at hmem
      simp only [List.mem_cons, List.not_mem_nil, or_false] at hmem
      rcases hmem with rfl | rfl | rfl
      · decide
      · have := hexDigitChar_toNat (c.toNat / 16) (by omega)
        rw [isCtl]
        simp only [Bool.or_eq_false_iff, decide_eq_false_iff_not, beq_eq_false_iff_ne,
          ne_eq]
        omega
      · have := hexDigitChar_toNat (c.toNat % 16) (by omega)
        rw [isCtl]
        simp only [Bool.or_eq_false_iff, decide_eq_false_iff_not, beq_eq_false_iff_ne,
          ne_eq]
        omega

/-! ## Lemmas: escape idempotence and list shape (claim C5) -/

theorem cons_headI_tail {α : Type} [Inhabited α] (l : List α) (h : l ≠ []) :
    l.headI :: l.tail = l := by
  cases l with
  | nil => exact absurd rfl h
  | cons a as => rfl

theorem headI_map (f : List Char → List Char) (l : List (List Char)) (h : l ≠ []) :
    (l.map f).headI = f l.headI := by
  cases l with
  | nil => exact absurd rfl h
  | cons a as => rfl

theorem tail_map (f : List Char → List Char) (l : List (List Char)) :
    (l.map f).tail = l.tail.map f := by
  cases l <;> rfl

theorem flatMap_keep_id (keep : Char → Bool) (m : List Char)
    (h : ∀ c ∈ m, keep c = true) :
    (m.flatMap fun c => if keep c then [c] else pctEnc c) = m := by
  induction m with
  | nil => rfl
  | cons x xs ih =>
    rw [List.flatMap_cons, if_pos (h x (List.mem_cons_self x xs)),
      ih fun c hc => h c (List.mem_cons_of_mem x hc)]
    rfl

theorem pathEsc_idem (l : List Char) : pathEsc (pathEsc l) = pathEsc l :=
  flatMap_keep_id pathKeep (pathEsc l) (pathEsc_chars l)

theorem hostEsc_idem (l : List Char) : hostEsc (hostEsc l) = hostEsc l :=
  flatMap_keep_id hostKeep (hostEsc l) (hostEsc_chars l)

theorem escGen_ne_nil (keep : Char → Bool) (x : Char) (xs : List Char) :
    ((x :: xs).flatMap fun c => if keep c then [c] else pctEnc c) ≠ [] := by
  rw [List.flatMap_cons]
  by_cases hk : keep x
  · rw [if_pos hk]
    simp
  · rw [if_neg hk]
    simp [pctEnc]

theorem pathEsc_eq_nil_iff (l : List Char) : pathEsc l = [] ↔ l = [] := by
  constructor
  · intro h
    cases l with
    | nil => rfl
    | cons x xs => exact absurd h (escGen_ne_nil pathKeep x xs)
  · intro h
    rw [h]
    rfl

theorem hostEsc_eq_nil_iff (l : List Char) : hostEsc l = [] ↔ l = [] := by
  constructor
  · intro h
    cases l with
    | nil => rfl
    | cons x xs => exact absurd h (escGen_ne_nil hostKeep x xs)
  · intro h
    rw [h]
    rfl

theorem pathEsc_cons_keep (x : Char) (xs : List Char) (h : pathKeep x = true) :
    pathEsc (x :: xs) = x :: pathEsc xs := by
  rw [pathEsc, List.flatMap_cons, if_pos h]
  rfl

theorem pathEsc_cons_not_keep (x : Char) (xs : List Char) (h : ¬ pathKeep x = true) :
    pathEsc (x :: xs) = pctEnc x ++ pathEsc xs := by
  rw [pathEsc, List.flatMap_cons, if_neg h]
  rfl

theorem pctEnc_append (c : Char) (m : List Char) :
    pctEnc c ++ m =
      '%' :: hexDigitChar (c.toNat / 16) :: hexDigitChar (c.toNat % 16) :: m := rfl

theorem mem_pctEnc_toNat (c c' : Char) (h : c.toNat < 256) (hm : c' ∈ pctEnc c) :
    c'.toNat = 37 ∨ (48 ≤ c'.toNat ∧ c'.toNat ≤ 57) ∨
      (65 ≤ c'.toNat ∧ c'.toNat ≤ 70) := by
  unfold pctEnc at hm
  simp only [List.mem_cons, List.not_mem_nil, or_false] at hm
  rcases hm with rfl | rfl | rfl
  · left
    rfl
  · right
    exact hexDigitChar_toNat (c.toNat / 16) (by omega)
  · right
    exact hexDigitChar_toNat (c.toNat % 16) (by omega)

theorem slash_not_mem_pctEnc (c : Char) (h : c.toNat < 256) : '/' ∉ pctEnc c := by
  intro hm
  have h2 := mem_pctEnc_toNat c '/' h hm
  rw [show ('/').toNat = 47 from rfl] at h2
  omega

theorem startsWithL_iff_append (l p : List Char) :
    startsWithL l p = true ↔ ∃ t, l = p ++ t := by
  induction p generalizing l with
  | nil =>
    constructor
    · intro _
      exact ⟨l, rfl⟩
    · intro _
      cases l <;> rfl
  | cons y ys ih =>
    cases l with
    | nil =>
      constructor
      · intro h
        exact Bool.noConfusion h
      · rintro ⟨t, ht⟩
        exact absurd ht (by simp)
    | cons x xs =>
      simp only [startsWithL, Bool.and_eq_true, beq_iff_eq, ih]
      constructor
      · rintro ⟨rfl, t, rfl⟩
        exact ⟨t, rfl⟩
      · rintro ⟨t, ht⟩
        injection ht with h1 h2
        exact ⟨h1, t, h2⟩

/-! ## Lemmas: splitting and joining at a separator (claim C5) -/

theorem splitOnCharL_cons_sep (c : Char) (xs : List Char) :
    splitOnCharL c (c :: xs) = [] :: splitOnCharL c xs := by
  simp [splitOnCharL]

theorem splitOnCharL_cons_ne (c x : Char) (xs : List Char) (h : ¬ x = c) :
    splitOnCharL c (x :: xs) =
      (x :: (splitOnCharL c xs).headI) :: (splitOnCharL c xs).tail := by
  simp only [splitOnCharL, if_neg h]

theorem splitOnCharL_append_free (c : Char) (a x : List Char) (h : c ∉ a) :
    splitOnCharL c (a ++ x) =
      (a ++ (splitOnCharL c x).headI) :: (splitOnCharL c x).tail := by
  induction a with
  | nil =>
    simp only [List.nil_append]
    exact (cons_headI_tail _ (splitOnCharL_ne_nil c x)).symm
  | cons y a' ih =>
    have hy : ¬ y = c := fun hq => h (by rw [hq]; exact List.mem_cons_self _ _)
    rw [List.cons_append, splitOnCharL_cons_ne c y _ hy,
      ih fun hc => h (List.mem_cons_of_mem _ hc)]
    rfl

theorem splitOnCharL_joinCharL (c : Char) :
    ∀ comps : List (List Char), comps ≠ [] → (∀ m ∈ comps, c ∉ m) →
      splitOnCharL c (joinCharL c comps) = comps := by
  intro comps
  induction comps with
  | nil =>
    intro h _
    exact absurd rfl h
  | cons m rest ih =>
    intro _ hfree
    cases rest with
    | nil =>
      rw [show joinCharL c [m] = m from rfl]
      exact splitOnCharL_not_mem c m (hfree m (List.mem_cons_self _ _))
    | cons m2 rest2 =>
      rw [show joinCharL c (m :: m2 :: rest2) = m ++ c :: joinCharL c (m2 :: rest2)
          from rfl,
        splitOnCharL_append_sep c m _ (hfree m (List.mem_cons_self _ _)),
        ih (by simp) fun x hx => hfree x (List.mem_cons_of_mem _ hx)]

theorem splitOnCharL_pathEsc (p : List Char) :
    splitOnCharL '/' (pathEsc p) = (splitOnCharL '/' p).map pathEsc := by
  induction p with
  | nil => rfl
  | cons x xs ih =>
    by_cases hx : x = '/'
    · subst hx
      rw [pathEsc_cons_keep '/' xs (by decide), splitOnCharL_cons_sep,
        splitOnCharL_cons_sep, List.map_cons, ih]
      rfl
    · have hsplit : splitOnCharL '/' (x :: xs) =
          (x :: (splitOnCharL '/' xs).headI) :: (splitOnCharL '/' xs).tail :=
        splitOnCharL_cons_ne '/' x xs hx
      by_cases hk : pathKeep x = true
      · rw [pathEsc_cons_keep x xs hk, splitOnCharL_cons_ne '/' x _ hx, ih, hsplit,
          List.map_cons, headI_map pathEsc _ (splitOnCharL_ne_nil '/' xs), tail_map,
          pathEsc_cons_keep x _ hk]
      · have hlt : x.toNat < 128 := by
          by_contra hge
          exact hk (pathKeep_big x (by omega))
        rw [pathEsc_cons_not_keep x xs hk,
          splitOnCharL_append_free '/' (pctEnc x) _ (slash_not_mem_pctEnc x (by omega)),
          ih, hsplit, List.map_cons,
          headI_map pathEsc _ (splitOnCharL_ne_nil '/' xs), tail_map,
          pathEsc_cons_not_keep x _ hk]

theorem pathEsc_dot (seg : List Char) (h : pathEsc seg = ['.']) : seg = ['.'] := by
  cases seg with
  | nil => exact List.noConfusion h
  | cons c rest =>
    by_cases hk : pathKeep c = true
    · rw [pathEsc_cons_keep c rest hk] at h
      injection h with h1 h2
      rw [h1, (pathEsc_eq_nil_iff rest).mp h2]
    · rw [pathEsc_cons_not_keep c rest hk, pctEnc_append] at h
      injection h with h1 _
      exact absurd h1 (by decide)

theorem pathEsc_dotdot (seg : List Char) (h : pathEsc seg = ['.', '.']) :
    seg = ['.', '.'] := by
  cases seg with
  | nil => exact List.noConfusion h
  | cons c rest =>
    by_cases hk : pathKeep c = true
    · rw [pathEsc_cons_keep c rest hk] at h
      injection h with h1 h2
      rw [h1, pathEsc_dot rest h2]
    · rw [pathEsc_cons_not_keep c rest hk, pctEnc_append] at h
      injection h with h1 _
      exact absurd h1 (by decide)

/-! ## Lemmas: the resolvePath segment stack (claim C5) -/

theorem stripSlash_cons_slash (m : List Char) : stripSlash ('/' :: '/' :: m) = '/' :: m := by
  simp [stripSlash]

theorem stripSlash_cons_ne (b : Char) (m : List Char) (h : ¬ b = '/') :
    stripSlash ('/' :: b :: m) = '/' :: b :: m := by
  simp only [stripSlash, if_neg h]

theorem joinCharL_nil_cons (c : Char) (f : List Char) (fs : List (List Char)) :
    joinCharL c ([] :: f :: fs) = c :: joinCharL c (f :: fs) := rfl

theorem joinCharL_cons_ne_nil (c : Char) (s : List Char) (rest : List (List Char))
    (h : ¬ rest = []) :
    joinCharL c (s :: rest) = s ++ c :: joinCharL c rest := by
  cases rest with
  | nil => exact absurd rfl h
  | cons t ts => exact joinCharL_cons_cons c s t ts

theorem mem_of_getLastQ {α : Type} :
    ∀ (l : List α) (a : α), l.getLast? = some a → a ∈ l := by
  intro l
  induction l with
  | nil =>
    intro a h
    exact Option.noConfusion h
  | cons x xs ih =>
    intro a h
    cases xs with
    | nil =>
      rw [List.getLast?_singleton] at h
      rw [Option.some_inj.mp h]
      exact List.mem_cons_self _ _
    | cons y ys =>
      rw [List.getLast?_cons_cons] at h
      exact List.mem_cons_of_mem _ (ih a h)

theorem mem_foldl_dotStep (segs : List (List Char)) :
    ∀ (st : List (List Char)) (e : List Char), e ∈ segs.foldl dotStep st →
      e ∈ st ∨ (e ∈ segs ∧ ¬ e = ['.'] ∧ ¬ e = ['.', '.']) := by
  induction segs with
  | nil =>
    intro st e h
    exact Or.inl h
  | cons s rest ih =>
    intro st e h
    rcases ih (dotStep st s) e h with h1 | ⟨h1, h2⟩
    · unfold dotStep at h1
      by_cases hd : s = ['.']
      · rw [if_pos hd] at h1
        exact Or.inl h1
      · rw [if_neg hd] at h1
        by_cases hdd : s = ['.', '.']
        · rw [if_pos hdd] at h1
          exact Or.inl ((List.dropLast_sublist _).subset h1)
        · rw [if_neg hdd] at h1
          rcases List.mem_append.mp h1 with h3 | h3
          · exact Or.inl h3
          · rw [List.mem_singleton.mp h3]
            exact Or.inr ⟨List.mem_cons_self _ _, hd, hdd⟩
    · exact Or.inr ⟨List.mem_cons_of_mem _ h1, h2⟩

theorem foldl_dotStep_no_dot :
    ∀ (segs : List (List Char)),
      (∀ e ∈ segs, ¬ e = ['.'] ∧ ¬ e = ['.', '.']) →
      ∀ st, segs.foldl dotStep st = st ++ segs := by
  intro segs
  induction segs with
  | nil =>
    intro _ st
    exact (List.append_nil st).symm
  | cons s rest ih =>
    intro h st
    rw [List.foldl_cons]
    have hs := h s (List.mem_cons_self _ _)
    rw [show dotStep st s = st ++ [s] by
      unfold dotStep
      rw [if_neg hs.1, if_neg hs.2]]
    rw [ih (fun e he => h e (List.mem_cons_of_mem _ he)) (st ++ [s]),
      List.append_assoc]
    rfl

theorem resolvePathCore_eq (full : List Char) (hne : ¬ full = []) :
    resolvePathCore full =
      stripSlash ('/' :: (joinCharL '/' ((splitOnCharL '/' full).foldl dotStep []) ++
        (if (splitOnCharL '/' full).getLast? = some ['.'] ∨
            (splitOnCharL '/' full).getLast? = some ['.', '.'] then ['/'] else []))) := by
  unfold resolvePathCore
  rw [if_neg hne]

theorem stripSlash_join (stack : List (List Char)) (trail : List Char)
    (hstack : ∀ e ∈ stack, '/' ∉ e)
    (htrail : trail = [] ∨ trail = ['/']) :
    ∃ stack₂ : List (List Char), ¬ stack₂ = [] ∧
      (∀ e ∈ stack₂, e ∈ stack ∨ e = []) ∧
      stripSlash ('/' :: (joinCharL '/' stack ++ trail)) =
        joinCharL '/' ([] :: stack₂) := by
  cases stack with
  | nil =>
    refine ⟨[[]], by simp, by simp, ?_⟩
    rcases htrail with rfl | rfl
    · rfl
    · rfl
  | cons e es =>
    have hc0 : ∀ x xs, (x :: xs) ∈ (e :: es) → ¬ x = '/' := by
      intro x xs hmem hx
      exact hstack (x :: xs) hmem (by rw [hx]; exact List.mem_cons_self _ _)
    cases e with
    | nil =>
      cases es with
      | nil =>
        refine ⟨[[]], by simp, by simp, ?_⟩
        rcases htrail with rfl | rfl
        · rfl
        · rfl
      | cons f fs =>
        rcases htrail with rfl | rfl
        · refine ⟨f :: fs, by simp, fun x hx => Or.inl (List.mem_cons_of_mem _ hx), ?_⟩
          rw [List.append_nil, joinCharL_nil_cons, stripSlash_cons_slash]
        · refine ⟨f :: (fs ++ [[]]), by simp, ?_, ?_⟩
          · intro x hx
            rcases List.mem_cons.mp hx with rfl | hx
            · exact Or.inl (List.mem_cons_of_mem _ (List.mem_cons_self _ _))
            · rcases List.mem_append.mp hx with hx | hx
              · exact Or.inl (List.mem_cons_of_mem _ (List.mem_cons_of_mem _ hx))
              · exact Or.inr (List.mem_singleton.mp hx)
          · have h1 : joinCharL '/' ([] :: f :: fs) ++ ['/'] =
                '/' :: (joinCharL '/' (f :: fs) ++ ['/']) := by
              rw [joinCharL_nil_cons]
              rfl
            have h2 : joinCharL '/' (f :: fs) ++ ['/'] =
                joinCharL '/' ((f :: fs) ++ [[]]) := by
              rw [joinCharL_append_single '/' (f :: fs) [] (by simp)]
            rw [h1, stripSlash_cons_slash, h2]
            rw [show (f :: fs) ++ [[]] = f :: (fs ++ [[]]) from rfl, joinCharL_nil_cons]
    | cons c cr =>
      have hc : ¬ c = '/' := hc0 c cr (List.mem_cons_self _ _)
      cases es with
      | nil =>
        rcases htrail with rfl | rfl
        · refine ⟨[c :: cr], by simp, by simp, ?_⟩
          rw [List.append_nil, show joinCharL '/' [c :: cr] = c :: cr from rfl,
            stripSlash_cons_ne c cr hc]
          rfl
        · refine ⟨[c :: cr, []], by simp, by simp, ?_⟩
          rw [show joinCharL '/' [c :: cr] = c :: cr from rfl,
            show ('/' : Char) :: ((c :: cr) ++ ['/']) = '/' :: c :: (cr ++ ['/'])
              from rfl,
            stripSlash_cons_ne c _ hc]
          rfl
      | cons f fs =>
        rcases htrail with rfl | rfl
        · refine ⟨(c :: cr) :: f :: fs, by simp, fun x hx => Or.inl hx, ?_⟩
          rw [List.append_nil, joinCharL_cons_cons,
            show ('/' : Char) :: ((c :: cr) ++ '/' :: joinCharL '/' (f :: fs)) =
              '/' :: c :: (cr ++ '/' :: joinCharL '/' (f :: fs)) from rfl,
            stripSlash_cons_ne c _ hc, joinCharL_nil_cons, joinCharL_cons_cons]
          rfl
        · refine ⟨(c :: cr) :: ((f :: fs) ++ [[]]), by simp, ?_, ?_⟩
          · intro x hx
            rcases List.mem_cons.mp hx with rfl | hx
            · exact Or.inl (List.mem_cons_self _ _)
            · rcases List.mem_append.mp hx with hx | hx
              · exact Or.inl (List.mem_cons_of_mem _ hx)
              · exact Or.inr (List.mem_singleton.mp hx)
          · have h2 : joinCharL '/' ((c :: cr) :: f :: fs) ++ ['/'] =
                joinCharL '/' (((c :: cr) :: f :: fs) ++ [[]]) := by
              rw [joinCharL_append_single '/' _ [] (by simp)]
            have h3 : joinCharL '/' ([] :: (c :: cr) :: ((f :: fs) ++ [[]])) =
                '/' :: ((c :: cr) ++ '/' :: joinCharL '/' ((f :: fs) ++ [[]])) := by
              rw [joinCharL_nil_cons, joinCharL_cons_ne_nil '/' _ _ (by simp)]
            rw [h2, h3,
              show ((c :: cr) :: f :: fs) ++ [[]] = (c :: cr) :: f :: (fs ++ [[]])
                from rfl,
              joinCharL_cons_cons,
              show ('/' : Char) ::
                  ((c :: cr) ++ '/' :: joinCharL '/' (f :: (fs ++ [[]]))) =
                '/' :: c :: (cr ++ '/' :: joinCharL '/' (f :: (fs ++ [[]]))) from rfl,
              stripSlash_cons_ne c _ hc]
            rfl

theorem resolvePathCore_spec (full : List Char) (hne : ¬ full = []) :
    ∃ stack₂ : List (List Char), ¬ stack₂ = [] ∧
      (∀ e ∈ stack₂, ¬ e = ['.'] ∧ ¬ e = ['.', '.'] ∧ '/' ∉ e) ∧
      resolvePathCore full = joinCharL '/' ([] :: stack₂) := by
  rw [resolvePathCore_eq full hne]
  have hfree : ∀ e ∈ (splitOnCharL '/' full).foldl dotStep [], '/' ∉ e := by
    intro e he
    rcases mem_foldl_dotStep _ [] e he with h | ⟨h, _⟩
    · exact absurd h (List.not_mem_nil e)
    · exact splitOnCharL_sep_not_mem '/' full e h
  obtain ⟨stack₂, hne₂, hmem₂, heq⟩ :=
    stripSlash_join ((splitOnCharL '/' full).foldl dotStep [])
      (if (splitOnCharL '/' full).getLast? = some ['.'] ∨
          (splitOnCharL '/' full).getLast? = some ['.', '.'] then ['/'] else [])
      hfree (by split <;> simp)
  refine ⟨stack₂, hne₂, ?_, heq⟩
  intro e he
  rcases hmem₂ e he with h | rfl
  · rcases mem_foldl_dotStep _ [] e h with h1 | ⟨h1, h2, h3⟩
    · exact absurd h1 (List.not_mem_nil e)
    · exact ⟨h2, h3, splitOnCharL_sep_not_mem '/' full e h1⟩
  · exact ⟨by simp, by simp, List.not_mem_nil '/'⟩

theorem resolvePathCore_pathInv (full : List Char) : PathInv (resolvePathCore full) := by
  by_cases hne : full = []
  · rw [hne]
    exact Or.inl rfl
  · obtain ⟨stack₂, hne₂, hmem₂, heq⟩ := resolvePathCore_spec full hne
    rw [heq]
    refine Or.inr ⟨?_, ?_⟩
    · cases stack₂ with
      | nil => exact absurd rfl hne₂
      | cons f fs => rw [joinCharL_nil_cons]; rfl
    · have hsplit : splitOnCharL '/' (joinCharL '/' ([] :: stack₂)) = [] :: stack₂ := by
        refine splitOnCharL_joinCharL '/' ([] :: stack₂) (by simp) ?_
        intro m hm
        rcases List.mem_cons.mp hm with rfl | hm
        · exact List.not_mem_nil '/'
        · exact (hmem₂ m hm).2.2
      rw [hsplit]
      intro seg hseg
      rcases List.mem_cons.mp hseg with rfl | hseg
      · exact ⟨by simp, by simp⟩
      · exact ⟨(hmem₂ seg hseg).1, (hmem₂ seg hseg).2.1⟩

theorem resolvePathCore_of_pathInv (p : List Char) (h : PathInv p) :
    resolvePathCore p = p := by
  rcases h with rfl | ⟨hhead, hsegs⟩
  · rfl
  · cases p with
    | nil => exact Option.noConfusion hhead
    | cons c t =>
      have hc : c = '/' := Option.some_inj.mp hhead
      subst hc
      rw [resolvePathCore_eq _ (by simp), splitOnCharL_cons_sep]
      have hsegs2 : ∀ e ∈ [] :: splitOnCharL '/' t, ¬ e = ['.'] ∧ ¬ e = ['.', '.'] := by
        rw [← splitOnCharL_cons_sep]
        exact hsegs
      rw [foldl_dotStep_no_dot _ hsegs2 []]
      have htrail : (if ([] :: splitOnCharL '/' t).getLast? = some ['.'] ∨
          ([] :: splitOnCharL '/' t).getLast? = some ['.', '.'] then ['/']
          else ([] : List Char)) = [] := by
        rw [if_neg]
        intro hcon
        rcases hcon with hcon | hcon
        · exact (hsegs2 ['.'] (mem_of_getLastQ _ _ hcon)).1 rfl
        · exact (hsegs2 ['.', '.'] (mem_of_getLastQ _ _ hcon)).2 rfl
      rw [htrail, List.append_nil, List.nil_append,
        joinCharL_cons_ne_nil '/' [] _ (splitOnCharL_ne_nil '/' t),
        joinCharL_splitOnCharL '/' t, List.nil_append, stripSlash_cons_slash]

theorem resolvePathL_nil_ref (base : List Char) :
    resolvePathL base [] = resolvePathCore base := by
  unfold resolvePathL
  rw [if_pos rfl]

theorem resolvePathL_abs (base ref : List Char) (h : ref.head? = some '/') :
    resolvePathL base ref = resolvePathCore ref := by
  unfold resolvePathL
  cases ref with
  | nil => exact Option.noConfusion h
  | cons c cs =>
    rw [if_neg (by simp), if_neg (by simp [h])]

/-! ## Lemmas: parse and resolve invariants (claim C5) -/

theorem any_isCtl_false (s : List Char) (h : ¬ s.any isCtl = true) :
    ∀ c ∈ s, isCtl c = false := by
  intro c hc
  cases hcc : isCtl c with
  | false => rfl
  | true => exact absurd (List.any_eq_true.mpr ⟨c, hc, hcc⟩) h

theorem any_isCtl_of_forall (s : List Char) (h : ∀ c ∈ s, isCtl c = false) :
    s.any isCtl = false := by
  induction s with
  | nil => rfl
  | cons c cs ih =>
    rw [List.any_cons, h c (List.mem_cons_self _ _), Bool.false_or]
    exact ih fun d hd => h d (List.mem_cons_of_mem _ hd)

theorem getSchemeL_go_sub (orig : List Char) :
    ∀ (rem acc sch rest : List Char), (∀ c ∈ rem, c ∈ orig) →
      getSchemeL.go orig acc rem = some (sch, rest) → ∀ c ∈ rest, c ∈ orig := by
  intro rem
  induction rem with
  | nil =>
    intro acc sch rest _ h c hc
    rw [getSchemeL.go] at h
    injection h with h2
    injection h2 with h3 h4
    rw [← h4] at hc
    exact hc
  | cons x xs ih =>
    intro acc sch rest hsub h c hc
    rw [getSchemeL.go] at h
    by_cases hx : x = ':'
    · rw [if_pos hx] at h
      by_cases hacc : acc = []
      · rw [if_pos hacc] at h
        exact Option.noConfusion h
      · rw [if_neg hacc] at h
        injection h with h2
        injection h2 with h3 h4
        rw [← h4] at hc
        exact hsub c (List.mem_cons_of_mem _ hc)
    · rw [if_neg hx] at h
      split at h
      · exact ih (acc ++ [x]) sch rest
          (fun d hd => hsub d (List.mem_cons_of_mem _ hd)) h c hc
      · injection h with h2
        injection h2 with h3 h4
        rw [← h4] at hc
        exact hc

theorem getSchemeL_sub (l sch rest : List Char)
    (h : getSchemeL l = some (sch, rest)) : ∀ c ∈ rest, c ∈ l := by
  rw [getSchemeL] at h
  exact getSchemeL_go_sub l l [] sch rest (fun c hc => hc) h

theorem parseURLL_inv (s : List Char) (u : GoURL) (h : parseURLL s = some u) :
    (u.scheme = [] ∨ SchemeInv u.scheme) ∧
    (¬ u.opq = [] → ¬ u.scheme = [] ∧ u.host = [] ∧ u.path = [] ∧
      '#' ∉ u.opq ∧ '?' ∉ u.opq ∧ ¬ u.opq.head? = some '/' ∧
      ∀ c ∈ u.opq, isCtl c = false) := by
  unfold parseURLL at h
  by_cases hctl : s.any isCtl = true
  · rw [if_pos hctl] at h
    exact Option.noConfusion h
  · rw [if_neg hctl] at h
    dsimp only at h
    cases hg : getSchemeL (cutListAt '#' s).1 with
    | none =>
      rw [hg] at h
      exact Option.noConfusion h
    | some sr =>
      obtain ⟨sch, rest₀⟩ := sr
      rw [hg] at h
      dsimp only at h
      by_cases h1 : ¬ sch = [] ∧ ¬ startsWithL (cutListAt '?' rest₀).1 ['/'] = true
      · rw [if_pos h1] at h
        injection h with h2
        subst h2
        refine ⟨getSchemeL_sound _ _ _ hg, ?_⟩
        intro _
        refine ⟨h1.1, rfl, rfl, ?_, cutListAt_fst_not_mem '?' rest₀, ?_, ?_⟩
        · intro hmem
          exact cutListAt_fst_not_mem '#' s
            (getSchemeL_sub _ _ _ hg '#' (cutListAt_fst_subset '?' rest₀ '#' hmem))
        · intro hh
          exact h1.2 ((startsWithL_single_iff _ '/').mpr hh)
        · intro c hc
          exact any_isCtl_false s hctl c
            (cutListAt_fst_subset '#' s c
              (getSchemeL_sub _ _ _ hg c (cutListAt_fst_subset '?' rest₀ c hc)))
      · rw [if_neg h1] at h
        by_cases h2 : sch = [] ∧ ¬ startsWithL (cutListAt '?' rest₀).1 ['/'] = true ∧
            ((firstSegmentL (cutListAt '?' rest₀).1).contains ':') = true
        · rw [if_pos h2] at h
          exact Option.noConfusion h
        · rw [if_neg h2] at h
          by_cases h3 : (¬ sch = [] ∨
              ¬ startsWithL (cutListAt '?' rest₀).1 ['/', '/', '/'] = true) ∧
              startsWithL (cutListAt '?' rest₀).1 ['/', '/'] = true
          · rw [if_pos h3] at h
            injection h with h4
            subst h4
            refine ⟨getSchemeL_sound _ _ _ hg, ?_⟩
            intro hopq
            exact absurd rfl hopq
          · rw [if_neg h3] at h
            injection h with h4
            subst h4
            refine ⟨getSchemeL_sound _ _ _ hg, ?_⟩
            intro hopq
            exact absurd rfl hopq

theorem resolveReference_scheme_eq (b l : GoURL) :
    (resolveReference b l).scheme =
      if l.scheme = [] then b.scheme else l.scheme := by
  unfold resolveReference
  dsimp only
  split
  · rfl
  · split
    · rfl
    · rfl

theorem resolveReference_case1 (b l : GoURL) (h : ¬ l.scheme = [] ∨ ¬ l.host = []) :
    resolveReference b l =
      { l with scheme := if l.scheme = [] then b.scheme else l.scheme,
               path := resolvePathL l.path [] } := by
  unfold resolveReference
  dsimp only
  rw [if_pos h]

theorem resolveReference_case2 (b l : GoURL)
    (h1 : ¬ (¬ l.scheme = [] ∨ ¬ l.host = [])) (h2 : ¬ l.opq = []) :
    resolveReference b l =
      { l with scheme := if l.scheme = [] then b.scheme else l.scheme,
               host := [], path := [] } := by
  unfold resolveReference
  dsimp only
  rw [if_neg h1, if_pos h2]

theorem resolveReference_case3 (b l : GoURL)
    (h1 : ¬ (¬ l.scheme = [] ∨ ¬ l.host = [])) (h2 : l.opq = []) :
    resolveReference b l =
      { scheme := if l.scheme = [] then b.scheme else l.scheme, opq := [],
        host := b.host, path := resolvePathL b.path l.path,
        rawQuery := (if l.path = [] ∧ l.rawQuery = [] then
            (b.rawQuery, if l.fragment = [] then b.fragment else l.fragment)
          else (l.rawQuery, l.fragment)).1,
        fragment := (if l.path = [] ∧ l.rawQuery = [] then
            (b.rawQuery, if l.fragment = [] then b.fragment else l.fragment)
          else (l.rawQuery, l.fragment)).2 } := by
  unfold resolveReference
  dsimp only
  rw [if_neg h1, if_neg (by simp [h2])]

theorem resolvePathL_pathInv (base ref : List Char) : PathInv (resolvePathL base ref) := by
  unfold resolvePathL
  exact resolvePathCore_pathInv _

theorem requery_stable (ps : List (List Char × List Char))
    (hfree : ∀ kv ∈ ps, ∀ p ∈ trackingParams, ¬ kv.1 = p) :
    encodeQueryL (trackingParams.foldl (fun q p => q.filter fun kv => ¬ kv.1 = p)
      (parseQueryL (encodeQueryL ps))) = encodeQueryL ps := by
  rw [parseQueryL_encodeQueryL,
    filterTracking_of_not_mem trackingParams (sortPairs ps)
      fun kv hkv p hp => hfree kv ((mem_sortPairs kv ps).mp hkv) p hp]
  unfold encodeQueryL
  rw [sortPairs_of_pairwise (sortPairs ps) (pairwise_sortPairs ps)]

theorem normalizeRecord_inv (href b : List Char) (u : GoURL)
    (h : normalizeRecord href b = some u) : NormInv u := by
  unfold normalizeRecord at h
  dsimp only at h
  by_cases hrej : rejectedHref (trimL href) = true
  · rw [if_pos hrej] at h
    exact Option.noConfusion h
  · rw [if_neg hrej] at h
    cases hb : parseURLL b with
    | none =>
      rw [hb] at h
      exact Option.noConfusion h
    | some base =>
      rw [hb] at h
      dsimp only at h
      cases hl : parseURLL (trimL href) with
      | none =>
        rw [hl] at h
        exact Option.noConfusion h
      | some link =>
        rw [hl] at h
        dsimp only at h
        injection h with h2
        subst h2
        have hbase := parseURLL_inv b base hb
        have hlink := parseURLL_inv (trimL href) link hl
        have hS : (if link.scheme = [] then base.scheme else link.scheme) = [] ∨
            SchemeInv (if link.scheme = [] then base.scheme else link.scheme) := by
          split
          · exact hbase.1
          · exact hlink.1
        by_cases hc1 : ¬ link.scheme = [] ∨ ¬ link.host = []
        · rw [resolveReference_case1 base link hc1]
          unfold NormInv
          dsimp only
          refine ⟨hS, ?_, resolvePathL_pathInv _ _,
            ⟨_, rfl, fun kv hkv => (mem_filterTracking trackingParams _ kv hkv).2⟩,
            rfl⟩
          intro hopq
          obtain ⟨hs1, hh1, hp1, hhash, hq, hhead, hctl⟩ := hlink.2 hopq
          refine ⟨?_, hh1, ?_, hhash, hq, hhead, hctl⟩
          · rw [if_neg hs1]
            exact hs1
          · rw [hp1, resolvePathL_nil_ref]
            rfl
        · by_cases hc2 : link.opq = []
          · rw [resolveReference_case3 base link hc1 hc2]
            unfold NormInv
            dsimp only
            refine ⟨hS, ?_, resolvePathL_pathInv _ _,
              ⟨_, rfl, fun kv hkv => (mem_filterTracking trackingParams _ kv hkv).2⟩,
              rfl⟩
            intro hopq
            exact absurd rfl hopq
          · rw [resolveReference_case2 base link hc1 hc2]
            unfold NormInv
            dsimp only
            obtain ⟨hs1, hh1, hp1, hhash, hq, hhead, hctl⟩ := hlink.2 hc2
            refine ⟨hS, ?_, Or.inl rfl,
              ⟨_, rfl, fun kv hkv => (mem_filterTracking trackingParams _ kv hkv).2⟩,
              rfl⟩
            intro _
            refine ⟨?_, rfl, rfl, hhash, hq, hhead, hctl⟩
            rw [if_neg hs1]
            exact hs1

/-! ## Lemmas: characters of the serialized components (claim C5) -/

theorem schemeInv_ne_nil (sch : List Char) (h : SchemeInv sch) : ¬ sch = [] := by
  cases sch with
  | nil => cases h
  | cons a as => simp

theorem schemeInv_not_ctl (sch : List Char) (h : SchemeInv sch) :
    ∀ c ∈ sch, isCtl c = false := by
  cases sch with
  | nil =>
    intro c hc
    exact absurd hc (List.not_mem_nil c)
  | cons a as =>
    obtain ⟨hh, ht, _⟩ := h
    intro c hc
    rcases List.mem_cons.mp hc with rfl | hc
    · have := (isSchemeHead_iff c).mp hh
      rw [isCtl]
      simp only [Bool.or_eq_false_iff, decide_eq_false_iff_not, beq_eq_false_iff_ne,
        ne_eq]
      omega
    · have h5 := (isSchemeChar_ne_sep c (ht c hc)).2.2.2.2
      cases hcc : isCtl c with
      | false => rfl
      | true => exact absurd hcc h5

theorem schemeInv_not_mem (sch : List Char) (h : SchemeInv sch) :
    ':' ∉ sch ∧ '#' ∉ sch ∧ '?' ∉ sch ∧ '/' ∉ sch := by
  cases sch with
  | nil => exact ⟨List.not_mem_nil _, List.not_mem_nil _, List.not_mem_nil _,
      List.not_mem_nil _⟩
  | cons a as =>
    obtain ⟨hh, ht, _⟩ := h
    have key : ∀ c ∈ a :: as,
        c.toNat ≠ 58 ∧ c.toNat ≠ 35 ∧ c.toNat ≠ 63 ∧ c.toNat ≠ 47 := by
      intro c hc
      rcases List.mem_cons.mp hc with rfl | hc
      · have := (isSchemeHead_iff c).mp hh
        exact ⟨by omega, by omega, by omega, by omega⟩
      · have h5 := isSchemeChar_ne_sep c (ht c hc)
        exact ⟨h5.1, h5.2.1, h5.2.2.1, h5.2.2.2.1⟩
    exact ⟨fun hm => (key ':' hm).1 rfl, fun hm => (key '#' hm).2.1 rfl,
      fun hm => (key '?' hm).2.2.1 rfl, fun hm => (key '/' hm).2.2.2 rfl⟩

theorem mem_joinCharL (c' : Char) (s : Char) (comps : List (List Char)) :
    c' ∈ joinCharL s comps → c' = s ∨ ∃ m ∈ comps, c' ∈ m := by
  induction comps with
  | nil =>
    intro h
    exact absurd h (List.not_mem_nil c')
  | cons m rest ih =>
    cases rest with
    | nil =>
      intro h
      exact Or.inr ⟨m, List.mem_cons_self _ _, h⟩
    | cons m2 rest2 =>
      intro h
      rw [joinCharL_cons_cons] at h
      rcases List.mem_append.mp h with h | h
      · exact Or.inr ⟨m, List.mem_cons_self _ _, h⟩
      · rcases List.mem_cons.mp h with rfl | h
        · exact Or.inl rfl
        · rcases ih h with h | ⟨m3, hm3, hc3⟩
          · exact Or.inl h
          · exact Or.inr ⟨m3, List.mem_cons_of_mem _ hm3, hc3⟩

theorem mem_encodeQueryL (c' : Char) (ps : List (List Char × List Char))
    (h : c' ∈ encodeQueryL ps) :
    c' = '&' ∨ c' = '=' ∨
      ∃ kv ∈ sortPairs ps, c' ∈ escapeQ kv.1 ∨ c' ∈ escapeQ kv.2 := by
  unfold encodeQueryL at h
  rcases mem_joinCharL c' '&' _ h with rfl | ⟨m, hm, hc⟩
  · exact Or.inl rfl
  · obtain ⟨kv, hkv, rfl⟩ := List.mem_map.mp hm
    rcases List.mem_append.mp hc with hc | hc
    · exact Or.inr (Or.inr ⟨kv, hkv, Or.inl hc⟩)
    · rcases List.mem_cons.mp hc with rfl | hc
      · exact Or.inr (Or.inl rfl)
      · exact Or.inr (Or.inr ⟨kv, hkv, Or.inr hc⟩)

theorem hash_not_mem_encodeQueryL (ps : List (List Char × List Char)) :
    '#' ∉ encodeQueryL ps := by
  intro h
  rcases mem_encodeQueryL '#' ps h with h | h | ⟨kv, _, h | h⟩
  · exact absurd h (by decide)
  · exact absurd h (by decide)
  · exact escapeQ_not_mem _ '#' (by decide) (by decide) (by decide) (by decide) h
  · exact escapeQ_not_mem _ '#' (by decide) (by decide) (by decide) (by decide) h

theorem query_not_mem_encodeQueryL (ps : List (List Char × List Char)) :
    '?' ∉ encodeQueryL ps := by
  intro h
  rcases mem_encodeQueryL '?' ps h with h | h | ⟨kv, _, h | h⟩
  · exact absurd h (by decide)
  · exact absurd h (by decide)
  · exact escapeQ_not_mem _ '?' (by decide) (by decide) (by decide) (by decide) h
  · exact escapeQ_not_mem _ '?' (by decide) (by decide) (by decide) (by decide) h

theorem ctl_not_mem_encodeQueryL (ps : List (List Char × List Char)) :
    ∀ c ∈ encodeQueryL ps, isCtl c = false := by
  intro c h
  rcases mem_encodeQueryL c ps h with rfl | rfl | ⟨kv, _, hc | hc⟩
  · decide
  · decide
  · exact escapeQ_not_ctl _ c hc
  · exact escapeQ_not_ctl _ c hc

theorem cutListAt_cons_self (c : Char) (xs : List Char) :
    cutListAt c (c :: xs) = ([], xs) := by
  rw [cutListAt, if_pos rfl]

theorem spanToSlash_append (a x : List Char) (ha : '/' ∉ a)
    (hx : x = [] ∨ x.head? = some '/') :
    parseURLL.spanToSlash (a ++ x) = (a, x) := by
  induction a with
  | nil =>
    rw [List.nil_append]
    rcases hx with rfl | hx
    · rfl
    · cases x with
      | nil => exact Option.noConfusion hx
      | cons c cs =>
        have hc : c = '/' := Option.some_inj.mp hx
        subst hc
        rw [parseURLL.spanToSlash, if_pos rfl]
  | cons y a2 ih =>
    have hy : ¬ y = '/' := fun hq => ha (by rw [hq]; exact List.mem_cons_self _ _)
    rw [List.cons_append, parseURLL.spanToSlash, if_neg hy]
    dsimp only
    rw [ih fun hm => ha (List.mem_cons_of_mem _ hm)]

theorem pathInv_shape (p : List Char) (h : PathInv p) :
    p = [] ∨ p.head? = some '/' :=
  Or.imp_right And.left h

theorem pathEsc_pathInv (p : List Char) (h : PathInv p) : PathInv (pathEsc p) := by
  rcases h with rfl | ⟨hhead, hsegs⟩
  · exact Or.inl rfl
  · cases p with
    | nil => exact Option.noConfusion hhead
    | cons c t =>
      have hc : c = '/' := Option.some_inj.mp hhead
      subst hc
      refine Or.inr ⟨?_, ?_⟩
      · rw [pathEsc_cons_keep '/' t (by decide)]
        rfl
      · rw [splitOnCharL_pathEsc]
        intro seg hseg
        obtain ⟨seg₀, hseg₀, rfl⟩ := List.mem_map.mp hseg
        exact ⟨fun hd => (hsegs seg₀ hseg₀).1 (pathEsc_dot seg₀ hd),
          fun hd => (hsegs seg₀ hseg₀).2 (pathEsc_dotdot seg₀ hd)⟩

theorem pathEsc_head_slash_iff (t : List Char) :
    (pathEsc t).head? = some '/' ↔ t.head? = some '/' := by
  cases t with
  | nil => exact Iff.rfl
  | cons c t2 =>
    by_cases hk : pathKeep c = true
    · rw [pathEsc_cons_keep c t2 hk]
      exact Iff.rfl
    · rw [pathEsc_cons_not_keep c t2 hk, pctEnc_append]
      constructor
      · intro h
        exact absurd (Option.some_inj.mp h) (by decide)
      · intro h
        have hc : c = '/' := Option.some_inj.mp h
        subst hc
        exact absurd (by decide : pathKeep '/' = true) hk

theorem startsWithL_two_iff (l : List Char) (a b : Char) :
    startsWithL l [a, b] = true ↔ ∃ t, l = a :: b :: t := by
  rw [startsWithL_iff_append]
  constructor
  · rintro ⟨t, rfl⟩
    exact ⟨t, rfl⟩
  · rintro ⟨t, rfl⟩
    exact ⟨t, rfl⟩

/-! ## Lemmas: parsing each serialized shape (claim C5) -/

theorem cutListAt_cons_ne (c x : Char) (xs : List Char) (h : ¬ x = c) :
    cutListAt c (x :: xs) = (x :: (cutListAt c xs).1, (cutListAt c xs).2) := by
  rw [cutListAt, if_neg h]

theorem qp_facts (Q : List Char) (hh2 : '#' ∉ Q) (hctl2 : ∀ c ∈ Q, isCtl c = false) :
    (∀ c ∈ (if ¬ Q = [] then '?' :: Q else []), isCtl c = false) ∧
      '#' ∉ (if ¬ Q = [] then '?' :: Q else []) := by
  split
  · constructor
    · intro c hc
      rcases List.mem_cons.mp hc with rfl | hc
      · decide
      · exact hctl2 c hc
    · intro hc
      rcases List.mem_cons.mp hc with h | h
      · exact absurd h (by decide)
      · exact hh2 h
  · exact ⟨fun c hc => absurd hc (List.not_mem_nil c), List.not_mem_nil '#'⟩

theorem qp_cut (Q : List Char) (X : List Char) (hX : '?' ∉ X) :
    cutListAt '?' (X ++ (if ¬ Q = [] then '?' :: Q else [])) = (X, Q) := by
  split
  · exact cutListAt_append_sep '?' X Q hX
  · next hq =>
    rw [List.append_nil, cutListAt_not_mem '?' X hX, not_not.mp hq]

theorem parseURLL_schemeForm (sch opq Q : List Char)
    (hsch : SchemeInv sch)
    (hh1 : '#' ∉ opq) (hq1 : '?' ∉ opq) (hhead : ¬ opq.head? = some '/')
    (hctl1 : ∀ c ∈ opq, isCtl c = false)
    (hh2 : '#' ∉ Q) (hctl2 : ∀ c ∈ Q, isCtl c = false) :
    parseURLL (sch ++ ':' :: (opq ++ (if ¬ Q = [] then '?' :: Q else []))) =
      some { scheme := sch, opq := opq, host := [], path := [],
             rawQuery := Q, fragment := [] } := by
  obtain ⟨hqc, hqh⟩ := qp_facts Q hh2 hctl2
  have hcut := qp_cut Q opq hq1
  set qp := (if ¬ Q = [] then '?' :: Q else []) with hqp
  have hmem : ∀ c ∈ sch ++ ':' :: (opq ++ qp),
      c ∈ sch ∨ c = ':' ∨ c ∈ opq ∨ c ∈ qp := by
    intro c hc
    rcases List.mem_append.mp hc with hc | hc
    · exact Or.inl hc
    · rcases List.mem_cons.mp hc with rfl | hc
      · exact Or.inr (Or.inl rfl)
      · rcases List.mem_append.mp hc with hc | hc
        · exact Or.inr (Or.inr (Or.inl hc))
        · exact Or.inr (Or.inr (Or.inr hc))
  have hanyf : (sch ++ ':' :: (opq ++ qp)).any isCtl = false := by
    refine any_isCtl_of_forall _ ?_
    intro c hc
    rcases hmem c hc with hc | rfl | hc | hc
    · exact schemeInv_not_ctl sch hsch c hc
    · decide
    · exact hctl1 c hc
    · exact hqc c hc
  have hhash : '#' ∉ sch ++ ':' :: (opq ++ qp) := by
    intro hc
    rcases hmem '#' hc with hc | hc | hc | hc
    · exact (schemeInv_not_mem sch hsch).2.1 hc
    · exact absurd hc (by decide)
    · exact hh1 hc
    · exact hqh hc
  unfold parseURLL
  rw [if_neg (by rw [hanyf]; exact Bool.false_ne_true)]
  dsimp only
  rw [cutListAt_not_mem '#' _ hhash]
  dsimp only
  rw [getSchemeL_of_SchemeInv sch (opq ++ qp) hsch]
  dsimp only
  rw [hcut]
  dsimp only
  rw [if_pos ⟨schemeInv_ne_nil sch hsch,
    fun hcon => hhead ((startsWithL_single_iff opq '/').mp hcon)⟩]

theorem parseURLL_authorityForm (sch host path Q : List Char)
    (hs : sch = [] ∨ SchemeInv sch)
    (hcase : ¬ sch = [] ∨ ¬ host = [])
    (hhost1 : '/' ∉ host) (hhost2 : '#' ∉ host) (hhost3 : '?' ∉ host)
    (hhost4 : ∀ c ∈ host, isCtl c = false)
    (hpath : path = [] ∨ path.head? = some '/')
    (hp2 : '#' ∉ path) (hp3 : '?' ∉ path) (hp4 : ∀ c ∈ path, isCtl c = false)
    (hh2 : '#' ∉ Q) (hctl2 : ∀ c ∈ Q, isCtl c = false) :
    parseURLL ((if ¬ sch = [] then sch ++ [':'] else []) ++
        ('/' :: '/' :: (host ++ path)) ++ (if ¬ Q = [] then '?' :: Q else [])) =
      some { scheme := sch, opq := [], host := host, path := path,
             rawQuery := Q, fragment := [] } := by
  obtain ⟨hqc, hqh⟩ := qp_facts Q hh2 hctl2
  have hqhp : '?' ∉ host ++ path := by
    intro hc
    rcases List.mem_append.mp hc with hc | hc
    · exact hhost3 hc
    · exact hp3 hc
  have hcut := qp_cut Q (host ++ path) hqhp
  set qp := (if ¬ Q = [] then '?' :: Q else []) with hqp
  have hmemA : ∀ c ∈ '/' :: '/' :: (host ++ path),
      c = '/' ∨ c ∈ host ∨ c ∈ path := by
    intro c hc
    rcases List.mem_cons.mp hc with rfl | hc
    · exact Or.inl rfl
    · rcases List.mem_cons.mp hc with rfl | hc
      · exact Or.inl rfl
      · rcases List.mem_append.mp hc with hc | hc
        · exact Or.inr (Or.inl hc)
        · exact Or.inr (Or.inr hc)
  have hctlA : ∀ c ∈ '/' :: '/' :: (host ++ path), isCtl c = false := by
    intro c hc
    rcases hmemA c hc with rfl | hc | hc
    · decide
    · exact hhost4 c hc
    · exact hp4 c hc
  have hhashA : '#' ∉ '/' :: '/' :: (host ++ path) := by
    intro hc
    rcases hmemA '#' hc with hc | hc | hc
    · exact absurd hc (by decide)
    · exact hhost2 hc
    · exact hp2 hc
  have hstart1 : startsWithL ('/' :: '/' :: (host ++ path)) ['/'] = true :=
    (startsWithL_single_iff _ '/').mpr rfl
  have hstart2 : startsWithL ('/' :: '/' :: (host ++ path)) ['/', '/'] = true :=
    (startsWithL_two_iff _ '/' '/').mpr ⟨host ++ path, rfl⟩
  have hcutA : cutListAt '?' ('/' :: '/' :: ((host ++ path) ++ qp)) =
      ('/' :: '/' :: (host ++ path), Q) := by
    rw [cutListAt_cons_ne '?' '/' _ (by decide), cutListAt_cons_ne '?' '/' _ (by decide),
      hcut]
  by_cases hschn : sch = []
  · subst hschn
    have hhostne : ¬ host = [] := hcase.resolve_left (not_not_intro rfl)
    have h3aux : ¬ startsWithL ('/' :: '/' :: (host ++ path)) ['/', '/', '/'] = true := by
      intro hcon
      obtain ⟨t, ht⟩ := (startsWithL_iff_append _ _).mp hcon
      injection ht with _ ht2
      injection ht2 with _ ht3
      cases host with
      | nil => exact hhostne rfl
      | cons h₀ hr =>
        rw [List.cons_append] at ht3
        injection ht3 with ht4 _
        exact hhost1 (by rw [ht4]; exact List.mem_cons_self _ _)
    rw [if_neg (by simp), List.nil_append,
      show ('/' :: '/' :: (host ++ path)) ++ qp = '/' :: '/' :: ((host ++ path) ++ qp)
        from rfl]
    have hanyf : ('/' :: '/' :: ((host ++ path) ++ qp)).any isCtl = false := by
      refine any_isCtl_of_forall _ ?_
      intro c hc
      rcases List.mem_cons.mp hc with rfl | hc
      · decide
      · rcases List.mem_cons.mp hc with rfl | hc
        · decide
        · rcases List.mem_append.mp hc with hc | hc
          · exact hctlA c (List.mem_cons_of_mem _ (List.mem_cons_of_mem _
              (by exact hc)))
          · exact hqc c hc
    have hhashr : '#' ∉ '/' :: '/' :: ((host ++ path) ++ qp) := by
      intro hc
      rcases List.mem_cons.mp hc with hc | hc
      · exact absurd hc (by decide)
      · rcases List.mem_cons.mp hc with hc | hc
        · exact absurd hc (by decide)
        · rcases List.mem_append.mp hc with hc | hc
          · exact hhashA (List.mem_cons_of_mem _ (List.mem_cons_of_mem _ hc))
          · exact hqh hc
    unfold parseURLL
    rw [if_neg (by rw [hanyf]; exact Bool.false_ne_true)]
    dsimp only
    rw [cutListAt_not_mem '#' _ hhashr]
    dsimp only
    rw [getSchemeL_no_scheme '/' _ (by decide) (by decide)]
    dsimp only
    rw [hcutA]
    dsimp only
    rw [if_neg (by rintro ⟨hcon, _⟩; exact hcon rfl),
      if_neg (by rintro ⟨_, hcon, _⟩; exact hcon hstart1),
      if_pos ⟨Or.inr h3aux, hstart2⟩]
    rw [show ('/' :: '/' :: (host ++ path)).drop 2 = host ++ path from rfl,
      spanToSlash_append host path hhost1 hpath]
  · have hschInv : SchemeInv sch := hs.resolve_left hschn
    rw [if_pos hschn, List.append_assoc, List.append_assoc, List.singleton_append]
    have hanyf : (sch ++ ':' :: (('/' :: '/' :: (host ++ path)) ++ qp)).any isCtl
        = false := by
      refine any_isCtl_of_forall _ ?_
      intro c hc
      rcases List.mem_append.mp hc with hc | hc
      · exact schemeInv_not_ctl sch hschInv c hc
      · rcases List.mem_cons.mp hc with rfl | hc
        · decide
        · rcases List.mem_append.mp hc with hc | hc
          · exact hctlA c hc
          · exact hqc c hc
    have hhashr : '#' ∉ sch ++ ':' :: (('/' :: '/' :: (host ++ path)) ++ qp) := by
      intro hc
      rcases List.mem_append.mp hc with hc | hc
      · exact (schemeInv_not_mem sch hschInv).2.1 hc
      · rcases List.mem_cons.mp hc with hc | hc
        · exact absurd hc (by decide)
        · rcases List.mem_append.mp hc with hc | hc
          · exact hhashA hc
          · exact hqh hc
    unfold parseURLL
    rw [if_neg (by rw [hanyf]; exact Bool.false_ne_true)]
    dsimp only
    rw [cutListAt_not_mem '#' _ hhashr]
    dsimp only
    rw [getSchemeL_of_SchemeInv sch _ hschInv]
    dsimp only
    rw [show ('/' :: '/' :: (host ++ path)) ++ qp = '/' :: '/' :: ((host ++ path) ++ qp)
      from rfl, hcutA]
    dsimp only
    rw [if_neg (by rintro ⟨_, hcon⟩; exact hcon hstart1),
      if_neg (by rintro ⟨hcon, _⟩; exact hschn hcon),
      if_pos ⟨Or.inl hschn, hstart2⟩]
    rw [show ('/' :: '/' :: (host ++ path)).drop 2 = host ++ path from rfl,
      spanToSlash_append host path hhost1 hpath]

theorem parseURLL_pathForm (path Q : List Char)
    (hhead : path.head? = some '/')
    (hns : ¬ startsWithL path ['/', '/'] = true)
    (hp2 : '#' ∉ path) (hp3 : '?' ∉ path) (hp4 : ∀ c ∈ path, isCtl c = false)
    (hh2 : '#' ∉ Q) (hctl2 : ∀ c ∈ Q, isCtl c = false) :
    parseURLL (path ++ (if ¬ Q = [] then '?' :: Q else [])) =
      some { scheme := [], opq := [], host := [], path := path,
             rawQuery := Q, fragment := [] } := by
  obtain ⟨hqc, hqh⟩ := qp_facts Q hh2 hctl2
  cases path with
  | nil => exact Option.noConfusion hhead
  | cons p₀ t =>
    have hp0 : p₀ = '/' := Option.some_inj.mp hhead
    subst hp0
    have hq3 : '?' ∉ t := fun hc => hp3 (List.mem_cons_of_mem _ hc)
    have hcut := qp_cut Q t hq3
    set qp := (if ¬ Q = [] then '?' :: Q else []) with hqp
    have hanyf : (('/' :: t) ++ qp).any isCtl = false := by
      refine any_isCtl_of_forall _ ?_
      intro c hc
      rcases List.mem_append.mp hc with hc | hc
      · exact hp4 c hc
      · exact hqc c hc
    have hhashr : '#' ∉ ('/' :: t) ++ qp := by
      intro hc
      rcases List.mem_append.mp hc with hc | hc
      · exact hp2 hc
      · exact hqh hc
    have hstart1 : startsWithL ('/' :: t) ['/'] = true :=
      (startsWithL_single_iff _ '/').mpr rfl
    unfold parseURLL
    rw [if_neg (by rw [hanyf]; exact Bool.false_ne_true)]
    dsimp only
    rw [cutListAt_not_mem '#' _ hhashr]
    dsimp only
    rw [List.cons_append, getSchemeL_no_scheme '/' _ (by decide) (by decide)]
    dsimp only
    rw [cutListAt_cons_ne '?' '/' _ (by decide), hcut]
    dsimp only
    rw [if_neg (by rintro ⟨hcon, _⟩; exact hcon rfl),
      if_neg (by rintro ⟨_, hcon, _⟩; exact hcon hstart1),
      if_neg (by rintro ⟨_, hcon⟩; exact hns hcon)]

theorem parseURLL_queryOnly (Q : List Char)
    (hh2 : '#' ∉ Q) (hctl2 : ∀ c ∈ Q, isCtl c = false) :
    parseURLL ('?' :: Q) =
      some { scheme := [], opq := [], host := [], path := [],
             rawQuery := Q, fragment := [] } := by
  have hanyf : ('?' :: Q).any isCtl = false := by
    refine any_isCtl_of_forall _ ?_
    intro c hc
    rcases List.mem_cons.mp hc with rfl | hc
    · decide
    · exact hctl2 c hc
  have hhashr : '#' ∉ '?' :: Q := by
    intro hc
    rcases List.mem_cons.mp hc with hc | hc
    · exact absurd hc (by decide)
    · exact hh2 hc
  unfold parseURLL
  rw [if_neg (by rw [hanyf]; exact Bool.false_ne_true)]
  dsimp only
  rw [cutListAt_not_mem '#' _ hhashr]
  dsimp only
  rw [getSchemeL_no_scheme '?' _ (by decide) (by decide)]
  dsimp only
  rw [cutListAt_cons_self '?' Q]
  dsimp only
  rw [if_neg (by rintro ⟨hcon, _⟩; exact hcon rfl),
    if_neg (by rintro ⟨_, _, hcon⟩; exact absurd hcon (by decide)),
    if_neg (by rintro ⟨_, hcon⟩; exact absurd hcon (by decide))]

/-! ## Lemmas: the serialized shape of each record class (claim C5) -/

theorem urlToStringL_opaque (u : GoURL) (hs : ¬ u.scheme = []) (ho : ¬ u.opq = [])
    (hf : u.fragment = []) :
    urlToStringL u = u.scheme ++ ':' :: (u.opq ++
      (if ¬ u.rawQuery = [] then '?' :: u.rawQuery else [])) := by
  unfold urlToStringL
  dsimp only
  rw [if_pos ho, if_pos hs, hf,
    if_neg (show ¬ (([] : List Char) ≠ []) from not_not_intro rfl)]
  simp only [List.append_nil, List.nil_append, List.append_assoc, List.cons_append,
    List.singleton_append]

theorem urlToStringL_authority (u : GoURL) (ho : u.opq = []) (hh : ¬ u.host = [])
    (hf : u.fragment = []) (hp : u.path = [] ∨ u.path.head? = some '/') :
    urlToStringL u = (if ¬ u.scheme = [] then u.scheme ++ [':'] else []) ++
      ('/' :: '/' :: (hostEsc u.host ++ pathEsc u.path)) ++
      (if ¬ u.rawQuery = [] then '?' :: u.rawQuery else []) := by
  have hslash : ¬ (¬ pathEsc u.path = [] ∧ ¬ (pathEsc u.path).head? = some '/' ∧
      ¬ u.host = []) := by
    rintro ⟨hc1, hc2, _⟩
    rcases hp with hp | hp
    · exact hc1 ((pathEsc_eq_nil_iff u.path).mpr hp)
    · exact hc2 ((pathEsc_head_slash_iff u.path).mpr hp)
  unfold urlToStringL
  dsimp only
  rw [if_neg (not_not_intro ho),
    if_pos (Or.inr hh : ¬ u.scheme = [] ∨ ¬ u.host = []),
    if_pos (Or.inl hh : ¬ u.host = [] ∨ ¬ u.path = []),
    if_pos hh, if_neg hslash,
    if_neg (show ¬ (((if ¬ u.scheme = [] then u.scheme ++ [':'] else []) ++
        (['/', '/'] ++ hostEsc u.host) ++ [] = []) ∧
        ((firstSegmentL (pathEsc u.path)).contains ':') = true) from by
      rintro ⟨hc1, _⟩
      simp at hc1),
    hf, if_neg (show ¬ (([] : List Char) ≠ []) from not_not_intro rfl)]
  simp only [List.append_nil, List.nil_append, List.append_assoc, List.cons_append,
    List.singleton_append]

theorem urlToStringL_scheme_empty (u : GoURL) (hs : ¬ u.scheme = []) (ho : u.opq = [])
    (hh : u.host = []) (hpe : u.path = []) (hf : u.fragment = []) :
    urlToStringL u = u.scheme ++ ':' ::
      (([] : List Char) ++ (if ¬ u.rawQuery = [] then '?' :: u.rawQuery else [])) := by
  unfold urlToStringL
  dsimp only
  rw [if_neg (not_not_intro ho), if_pos hs,
    if_pos (Or.inl hs : ¬ u.scheme = [] ∨ ¬ u.host = []),
    if_neg (show ¬ (¬ u.host = [] ∨ ¬ u.path = []) from by
      rintro (hc | hc)
      · exact hc hh
      · exact hc hpe),
    if_neg (not_not_intro hh),
    if_neg (show ¬ (¬ pathEsc u.path = [] ∧ ¬ (pathEsc u.path).head? = some '/' ∧
        ¬ u.host = []) from by
      rintro ⟨_, _, hc⟩
      exact hc hh),
    hpe,
    if_neg (show ¬ (((u.scheme ++ [':']) ++ (([] : List Char) ++ []) ++ [] = []) ∧
        ((firstSegmentL (pathEsc ([] : List Char))).contains ':') = true) from by
      rintro ⟨hc1, _⟩
      simp at hc1),
    hf, if_neg (show ¬ (([] : List Char) ≠ []) from not_not_intro rfl),
    show pathEsc ([] : List Char) = [] from rfl]
  simp only [List.append_nil, List.nil_append, List.append_assoc, List.cons_append,
    List.singleton_append]

theorem urlToStringL_scheme_path (u : GoURL) (hs : ¬ u.scheme = []) (ho : u.opq = [])
    (hh : u.host = []) (hpne : ¬ u.path = [])
    (hf : u.fragment = []) :
    urlToStringL u = (if ¬ u.scheme = [] then u.scheme ++ [':'] else []) ++
      ('/' :: '/' :: (([] : List Char) ++ pathEsc u.path)) ++
      (if ¬ u.rawQuery = [] then '?' :: u.rawQuery else []) := by
  unfold urlToStringL
  dsimp only
  rw [if_neg (not_not_intro ho),
    if_pos (Or.inl hs : ¬ u.scheme = [] ∨ ¬ u.host = []),
    if_pos (Or.inr hpne : ¬ u.host = [] ∨ ¬ u.path = []),
    if_neg (not_not_intro hh),
    if_neg (show ¬ (¬ pathEsc u.path = [] ∧ ¬ (pathEsc u.path).head? = some '/' ∧
        ¬ u.host = []) from by
      rintro ⟨_, _, hc⟩
      exact hc hh),
    if_neg (show ¬ (((if ¬ u.scheme = [] then u.scheme ++ [':'] else []) ++
        (['/', '/'] ++ []) ++ [] = []) ∧
        ((firstSegmentL (pathEsc u.path)).contains ':') = true) from by
      rintro ⟨hc1, _⟩
      rw [if_pos hs] at hc1
      simp at hc1),
    hf, if_neg (show ¬ (([] : List Char) ≠ []) from not_not_intro rfl)]
  simp only [List.append_nil, List.nil_append, List.append_assoc, List.cons_append,
    List.singleton_append]

theorem urlToStringL_bare (u : GoURL) (hs : u.scheme = []) (ho : u.opq = [])
    (hh : u.host = []) (hf : u.fragment = [])
    (hp : u.path = [] ∨ u.path.head? = some '/') :
    urlToStringL u = pathEsc u.path ++
      (if ¬ u.rawQuery = [] then '?' :: u.rawQuery else []) := by
  have hseg : ((firstSegmentL (pathEsc u.path)).contains ':') = false := by
    rcases hp with hp | hp
    · rw [hp]
      rfl
    · cases hpp : u.path with
      | nil => rfl
      | cons c t =>
        rw [hpp] at hp
        have hc : c = '/' := Option.some_inj.mp hp
        subst hc
        rw [pathEsc_cons_keep '/' t (by decide),
          show firstSegmentL ('/' :: pathEsc t) = [] from by
            unfold firstSegmentL beforeChar
            rw [cutListAt_cons_self]]
        rfl
  unfold urlToStringL
  dsimp only
  rw [if_neg (not_not_intro ho),
    if_neg (show ¬ (¬ u.scheme = [] ∨ ¬ u.host = []) from by
      rintro (hc | hc)
      · exact hc hs
      · exact hc hh),
    if_neg (not_not_intro hs),
    if_neg (show ¬ (¬ pathEsc u.path = [] ∧ ¬ (pathEsc u.path).head? = some '/' ∧
        ¬ u.host = []) from by
      rintro ⟨_, _, hc⟩
      exact hc hh),
    if_neg (show ¬ ((([] : List Char) ++ ([] : List Char) ++ ([] : List Char) = []) ∧
        ((firstSegmentL (pathEsc u.path)).contains ':') = true) from by
      rintro ⟨_, hc2⟩
      rw [hseg] at hc2
      exact Bool.noConfusion hc2),
    hf, if_neg (show ¬ (([] : List Char) ≠ []) from not_not_intro rfl)]
  simp only [List.append_nil, List.nil_append, List.append_assoc, List.cons_append,
    List.singleton_append]

/-! ## Lemmas: the second normalization round (claim C5) -/

theorem normalizeURLL_eq (r : List Char) (u₂ : GoURL)
    (htrim : trimL r = r) (hrej : ¬ rejectedHref r = true)
    (hp : parseURLL r = some u₂) :
    normalizeURLL r r = urlToStringL
      { resolveReference u₂ u₂ with
        fragment := []
        rawQuery := encodeQueryL (trackingParams.foldl
          (fun q p => q.filter fun kv => ¬ kv.1 = p)
          (parseQueryL (resolveReference u₂ u₂).rawQuery)) } := by
  unfold normalizeURLL normalizeRecord
  dsimp only
  rw [htrim, if_neg hrej, hp]

theorem resolveReference_self_stable (l : GoURL)
    (h : ¬ l.scheme = [] ∨ ¬ l.host = []) (hp : PathInv l.path) :
    resolveReference l l = l := by
  rw [resolveReference_case1 l l h, ite_self, resolvePathL_nil_ref,
    resolvePathCore_of_pathInv _ hp]

theorem resolveReference_self_case3 (l : GoURL)
    (h1 : l.scheme = []) (h2 : l.host = []) (h3 : l.opq = [])
    (hp : PathInv l.path) (hpq : ¬ (l.path = [] ∧ l.rawQuery = []))
    (hf : l.fragment = []) :
    resolveReference l l = l := by
  have hpl : resolvePathL l.path l.path = l.path := by
    rcases pathInv_shape _ hp with hpe | hph
    · rw [hpe, resolvePathL_nil_ref]
      rfl
    · rw [resolvePathL_abs _ _ hph, resolvePathCore_of_pathInv _ hp]
  obtain ⟨ls, lo, lh, lp, lq, lf⟩ := l
  dsimp only at h1 h2 h3 hf hpl hpq
  subst h1
  subst h2
  subst h3
  subst hf
  rw [resolveReference_case3 (GoURL.mk [] [] [] lp lq []) (GoURL.mk [] [] [] lp lq [])
    (by rintro (hc | hc) <;> exact hc rfl) rfl, ite_self, if_neg hpq, hpl]

/-- Serializing, re-parsing, re-resolving, re-filtering and re-serializing
a record that satisfies the normalization invariant reproduces the same
string, for every record whose path is not a protocol-relative ambiguity
(scheme-less and host-less with a path starting in a double slash). -/
theorem normalizeURLL_idem (u : GoURL) (hinv : NormInv u)
    (htrim : trimL (urlToStringL u) = urlToStringL u)
    (hrej : ¬ rejectedHref (urlToStringL u) = true)
    (hbad : ¬ (u.scheme = [] ∧ u.host = [] ∧
      startsWithL u.path ['/', '/'] = true)) :
    normalizeURLL (urlToStringL u) (urlToStringL u) = urlToStringL u := by
  obtain ⟨hschemeInv, hopqInv, hpathInv, ⟨ps, hq, hfree⟩, hfrag⟩ := hinv
  have hQh : '#' ∉ u.rawQuery := by
    rw [hq]
    exact hash_not_mem_encodeQueryL ps
  have hQc : ∀ c ∈ u.rawQuery, isCtl c = false := by
    rw [hq]
    exact ctl_not_mem_encodeQueryL ps
  have hreq : encodeQueryL (trackingParams.foldl
      (fun q p => q.filter fun kv => ¬ kv.1 = p)
      (parseQueryL u.rawQuery)) = u.rawQuery := by
    rw [hq]
    exact requery_stable ps hfree
  by_cases ho : u.opq = []
  · have hp := pathInv_shape u.path hpathInv
    have hPshape : pathEsc u.path = [] ∨ (pathEsc u.path).head? = some '/' := by
      rcases hp with hp | hp
      · exact Or.inl ((pathEsc_eq_nil_iff u.path).mpr hp)
      · exact Or.inr ((pathEsc_head_slash_iff u.path).mpr hp)
    have hPinv : PathInv (pathEsc u.path) := pathEsc_pathInv u.path hpathInv
    by_cases hhost : u.host = []
    · by_cases hsch : u.scheme = []
      · -- no scheme, no host: the bare-path form
        have hnss : ¬ startsWithL u.path ['/', '/'] = true :=
          fun hcon => hbad ⟨hsch, hhost, hcon⟩
        have hser := urlToStringL_bare u hsch ho hhost hfrag hp
        by_cases hpe : u.path = []
        · rw [hpe, show pathEsc ([] : List Char) = [] from rfl,
            List.nil_append] at hser
          by_cases hQe : u.rawQuery = []
          · rw [hser, if_neg (not_not_intro hQe)] at hrej
            exact absurd (by decide : rejectedHref [] = true) hrej
          · rw [if_pos hQe] at hser
            rw [hser] at htrim hrej ⊢
            rw [normalizeURLL_eq _ _ htrim hrej
              (parseURLL_queryOnly u.rawQuery hQh hQc)]
            rw [resolveReference_self_case3 ⟨[], [], [], [], u.rawQuery, []⟩
              rfl rfl rfl (Or.inl rfl) (by rintro ⟨_, hc⟩; exact hQe hc) rfl]
            dsimp only
            rw [hreq,
              urlToStringL_bare ⟨[], [], [], [], u.rawQuery, []⟩ rfl rfl rfl rfl
                (Or.inl rfl)]
            rw [show pathEsc ([] : List Char) = [] from rfl, List.nil_append,
              if_pos hQe]
        · have hphead : u.path.head? = some '/' := hp.resolve_left hpe
          have hPhead : (pathEsc u.path).head? = some '/' :=
            (pathEsc_head_slash_iff u.path).mpr hphead
          have hpne2 : ¬ pathEsc u.path = [] :=
            fun hcon => hpe ((pathEsc_eq_nil_iff _).mp hcon)
          have hnsP : ¬ startsWithL (pathEsc u.path) ['/', '/'] = true := by
            intro hcon
            obtain ⟨t, ht⟩ := (startsWithL_two_iff _ _ _).mp hcon
            cases hup : u.path with
            | nil => exact hpe hup
            | cons c t₀ =>
              rw [hup] at hphead
              have hc : c = '/' := Option.some_inj.mp hphead
              subst hc
              rw [hup, pathEsc_cons_keep '/' t₀ (by decide)] at ht
              injection ht with _ ht2
              have ht0 : t₀.head? = some '/' :=
                (pathEsc_head_slash_iff t₀).mp (by rw [ht2]; rfl)
              cases t₀ with
              | nil => exact Option.noConfusion ht0
              | cons d t₁ =>
                have hd : d = '/' := Option.some_inj.mp ht0
                subst hd
                exact hnss ((startsWithL_two_iff _ _ _).mpr ⟨t₁, by rw [hup]⟩)
          rw [hser] at htrim hrej ⊢
          rw [normalizeURLL_eq _ _ htrim hrej
            (parseURLL_pathForm (pathEsc u.path) u.rawQuery hPhead hnsP
              (hash_not_mem_pathEsc _) (query_not_mem_pathEsc _)
              (pathEsc_not_ctl _) hQh hQc)]
          rw [resolveReference_self_case3
            ⟨[], [], [], pathEsc u.path, u.rawQuery, []⟩ rfl rfl rfl hPinv
            (by rintro ⟨hc, _⟩; exact hpne2 hc) rfl]
          dsimp only
          rw [hreq,
            urlToStringL_bare ⟨[], [], [], pathEsc u.path, u.rawQuery, []⟩
              rfl rfl rfl rfl (Or.inr hPhead)]
          dsimp only
          rw [pathEsc_idem]
      · -- no host, nonempty scheme
        have hschn : ¬ u.scheme = [] := hsch
        have hschInv : SchemeInv u.scheme := hschemeInv.resolve_left hschn
        by_cases hpe : u.path = []
        · have hser := urlToStringL_scheme_empty u hschn ho hhost hpe hfrag
          rw [hser] at htrim hrej ⊢
          rw [normalizeURLL_eq _ _ htrim hrej
            (parseURLL_schemeForm u.scheme [] u.rawQuery hschInv
              (List.not_mem_nil '#') (List.not_mem_nil '?')
              (fun hcon => Option.noConfusion hcon)
              (fun c hc => absurd hc (List.not_mem_nil c)) hQh hQc)]
          rw [resolveReference_self_stable
            ⟨u.scheme, [], [], [], u.rawQuery, []⟩ (Or.inl hschn) (Or.inl rfl)]
          dsimp only
          rw [hreq,
            urlToStringL_scheme_empty ⟨u.scheme, [], [], [], u.rawQuery, []⟩
              hschn rfl rfl rfl rfl]
        · have hphead : u.path.head? = some '/' := hp.resolve_left hpe
          have hpne2 : ¬ pathEsc u.path = [] :=
            fun hcon => hpe ((pathEsc_eq_nil_iff _).mp hcon)
          have hser := urlToStringL_scheme_path u hschn ho hhost hpe hfrag
          rw [hser] at htrim hrej ⊢
          rw [normalizeURLL_eq _ _ htrim hrej
            (parseURLL_authorityForm u.scheme [] (pathEsc u.path) u.rawQuery
              hschemeInv (Or.inl hschn) (List.not_mem_nil '/')
              (List.not_mem_nil '#') (List.not_mem_nil '?')
              (fun c hc => absurd hc (List.not_mem_nil c)) hPshape
              (hash_not_mem_pathEsc _) (query_not_mem_pathEsc _)
              (pathEsc_not_ctl _) hQh hQc)]
          rw [resolveReference_self_stable
            ⟨u.scheme, [], [], pathEsc u.path, u.rawQuery, []⟩ (Or.inl hschn)
            hPinv]
          dsimp only
          rw [hreq,
            urlToStringL_scheme_path
              ⟨u.scheme, [], [], pathEsc u.path, u.rawQuery, []⟩
              hschn rfl rfl hpne2 rfl]
          dsimp only
          rw [pathEsc_idem]
    · -- nonempty host
      have hHne : ¬ hostEsc u.host = [] :=
        fun hcon => hhost ((hostEsc_eq_nil_iff _).mp hcon)
      have hser := urlToStringL_authority u ho hhost hfrag hp
      rw [hser] at htrim hrej ⊢
      rw [normalizeURLL_eq _ _ htrim hrej
        (parseURLL_authorityForm u.scheme (hostEsc u.host) (pathEsc u.path)
          u.rawQuery hschemeInv (Or.inr hHne) (slash_not_mem_hostEsc _)
          (hash_not_mem_hostEsc _) (query_not_mem_hostEsc _) (hostEsc_not_ctl _)
          hPshape (hash_not_mem_pathEsc _) (query_not_mem_pathEsc _)
          (pathEsc_not_ctl _) hQh hQc)]
      rw [resolveReference_self_stable
        ⟨u.scheme, [], hostEsc u.host, pathEsc u.path, u.rawQuery, []⟩
        (Or.inr hHne) hPinv]
      dsimp only
      rw [hreq,
        urlToStringL_authority
          ⟨u.scheme, [], hostEsc u.host, pathEsc u.path, u.rawQuery, []⟩
          rfl hHne rfl hPshape]
      dsimp only
      rw [hostEsc_idem, pathEsc_idem]
  · -- opaque record
    obtain ⟨hs, hh, hpz, hoh, hoq, hohead, hoctl⟩ := hopqInv ho
    have hschInv : SchemeInv u.scheme := hschemeInv.resolve_left hs
    have hser := urlToStringL_opaque u hs ho hfrag
    rw [hser] at htrim hrej ⊢
    rw [normalizeURLL_eq _ _ htrim hrej
      (parseURLL_schemeForm u.scheme u.opq u.rawQuery hschInv hoh hoq hohead
        hoctl hQh hQc)]
    rw [resolveReference_self_stable
      ⟨u.scheme, u.opq, [], [], u.rawQuery, []⟩ (Or.inl hs) (Or.inl rfl)]
    dsimp only
    rw [hreq,
      urlToStringL_opaque ⟨u.scheme, u.opq, [], [], u.rawQuery, []⟩ hs ho rfl]

/-- Claim C5 (counterexample): canonicalization is not idempotent as
stated.  Three violating families: the blocked-prefix check of the second
round is case-sensitive, so `MAILTO:` survives round one as `mailto:` and
is discarded in round two; an opaque part may keep an inner space that
round one emits trailing, so round two trims it away; and a scheme-less
host-less result whose path begins with a double slash re-parses as an
authority and collapses.  In each family, round one is nonempty and round
two differs from it. -/
theorem canonicalize_not_idempotent :
    (¬ normalizeURL "MAILTO:a@b.com" "https://ex.com/" = "" ∧
      ¬ normalizeURL (normalizeURL "MAILTO:a@b.com" "https://ex.com/")
          (normalizeURL "MAILTO:a@b.com" "https://ex.com/") =
        normalizeURL "MAILTO:a@b.com" "https://ex.com/") ∧
    (¬ normalizeURL "data:x #f" "https://ex.com/" = "" ∧
      ¬ normalizeURL (normalizeURL "data:x #f" "https://ex.com/")
          (normalizeURL "data:x #f" "https://ex.com/") =
        normalizeURL "data:x #f" "https://ex.com/") ∧
    (¬ normalizeURL "///..?a=1" "x" = "" ∧
      ¬ normalizeURL (normalizeURL "///..?a=1" "x")
          (normalizeURL "///..?a=1" "x") =
        normalizeURL "///..?a=1" "x") := by
  decide

/-- Claim C5 (amended): for every href and base whose normalization
succeeds (producing the record `u` and a nonempty string), applying
`normalizeURL` to that result with itself as base returns the identical
string, provided the result is stable under whitespace trimming, is not
rejected by the case-sensitive blocked-prefix checks, and is not a
scheme-less host-less record whose path begins with a double slash (which
re-parses as an authority). -/
theorem canonicalize_idempotent (href base : String) (u : GoURL)
    (hu : normalizeRecord href.data base.data = some u)
    (htrim : trimL (normalizeURL href base).data = (normalizeURL href base).data)
    (hrej : rejectedHref (normalizeURL href base).data = false)
    (hbad : ¬ (u.scheme = [] ∧ u.host = [] ∧
      startsWithL u.path ['/', '/'] = true)) :
    normalizeURL (normalizeURL href base) (normalizeURL href base) =
      normalizeURL href base := by
  have hr : (normalizeURL href base).data = urlToStringL u := by
    show normalizeURLL href.data base.data = urlToStringL u
    unfold normalizeURLL
    rw [hu]
  rw [hr] at htrim hrej
  have key : normalizeURLL (urlToStringL u) (urlToStringL u) = urlToStringL u :=
    normalizeURLL_idem u (normalizeRecord_inv _ _ u hu) htrim
      (by rw [hrej]; exact Bool.false_ne_true) hbad
  have hdata : (normalizeURL (normalizeURL href base)
      (normalizeURL href base)).data = (normalizeURL href base).data := by
    show normalizeURLL (normalizeURL href base).data (normalizeURL href base).data
      = (normalizeURL href base).data
    rw [hr]
    exact key
  exact congrArg String.mk hdata

/-- Claim C5 (witness): the amended idempotence at a concrete href with an
upper-case host, a dot segment, a tracking parameter and a fragment; the
canonical result is `https://EX.com/b?id=7` and normalizing it again
reproduces it. -/
theorem canonicalize_idempotent_witness :
    normalizeURL
        (normalizeURL "https://EX.com/a/../b?utm_source=x&id=7#f" "https://ex.com/")
        (normalizeURL "https://EX.com/a/../b?utm_source=x&id=7#f" "https://ex.com/") =
      normalizeURL "https://EX.com/a/../b?utm_source=x&id=7#f" "https://ex.com/" :=
  canonicalize_idempotent "https://EX.com/a/../b?utm_source=x&id=7#f"
    "https://ex.com/"
    { scheme := "https".data, host := "EX.com".data, path := "/b".data,
      rawQuery := "id=7".data }
    (by decide) (by decide) (by decide) (by decide)

end LinkScraper
